import Mathlib

/-!
# capsule8 `pkg/sys/perf`: the counter-group manager and the dispatcher

Shallow embedding of `pkg/sys/perf/perf.go` (`NewPerf`, `Perf.Open`, `Perf.Run`,
`Perf.readSample`) and of the sample handler of `examples/spectre/main.go`.

* Go pointers to `EventAttr` are addresses into an explicit heap; dereferencing
  an address that holds no object is the nil dereference (a runtime crash).
* The kernel and the helpers of the package that wrap it (`open`, `enable`,
  `newRingBuffer`, `ringBuffer.read`, `unix.IoctlGetInt`, `unix.Poll`) are an
  arbitrary state machine `Kernel σ`; every call and its answer is appended to
  a trace.
* `glog.Fatal` ends the process: the status `Status.fatal` carries the error
  and the state is the one reached at that point.
* The sample handler given to `Run` is code of the caller: a call of it is a
  transition of the same state machine that may return or end the process, and
  may write what the caller can reach, the exported map and the descriptors.
-/

namespace Capsule8

/-! ## Go-level basics -/

/-- Go `error` values, abstractly numbered; `nil` is `none` where it can occur. -/
abbrev GoError := Nat

/-- The errno `unix.EINTR`. -/
def EINTR : GoError := 4

/-- The poll event bit `unix.POLLIN`. -/
def POLLIN : Nat := 1

/-- Conversion `uint64(x)` of a Go `int`. -/
def toUint64 (x : Int) : Nat := (x % (2 ^ 64 : Int)).toNat

/-- Conversion `int32(x)` of a Go `int`. -/
def toInt32 (x : Int) : Int := (x + 2 ^ 31) % 2 ^ 32 - 2 ^ 31

/-- Subtraction of two `uint64` values, as Go computes it. -/
def sub64 (a b : Nat) : Nat := (a % 2 ^ 64 + 2 ^ 64 - b % 2 ^ 64) % 2 ^ 64

/-- How a piece of code ended. -/
inductive Status
  /-- control goes on to the next statement or iteration -/
  | running
  /-- the function returned this `error` (`none` is `nil`) -/
  | returned (err : Option GoError)
  /-- `glog.Fatal(err)`: the error is logged and the process exits -/
  | fatal (err : GoError)
  /-- runtime panic: nil dereference, index out of range, or a panic of the
  caller's handler -/
  | crashed
  deriving DecidableEq, Repr

/-- Result of a fallible call, `(value, error)` in Go. -/
inductive Res (α : Type)
  | ok (a : α)
  | error (e : GoError)
  deriving DecidableEq, Repr

/-! ## Constants of the package that `perf.go` and `main.go` only name -/

/-- The numeric constants used by `perf.go` and `main.go`; their declarations
are in files of the package that are not part of the sources at hand, so they
are parameters of the development. -/
structure Consts where
  PERF_FLAG_FD_CLOEXEC : Nat
  PERF_SAMPLE_TID : Nat
  PERF_SAMPLE_TIME : Nat
  PERF_SAMPLE_READ : Nat
  PERF_SAMPLE_CPU : Nat
  PERF_SAMPLE_STREAM_ID : Nat
  PERF_SAMPLE_IDENTIFIER : Nat
  PERF_FORMAT_ID : Nat
  PERF_FORMAT_GROUP : Nat
  sizeofPerfEventAttrVer5 : Nat
  PERF_EVENT_IOC_ID : Nat
  PERF_TYPE_HARDWARE : Nat
  PERF_TYPE_HW_CACHE : Nat
  PERF_COUNT_HW_INSTRUCTIONS : Nat
  PERF_COUNT_HW_CACHE_LL : Nat
  PERF_COUNT_HW_CACHE_OP_READ : Nat
  PERF_COUNT_HW_CACHE_RESULT_ACCESS : Nat
  PERF_COUNT_HW_CACHE_RESULT_MISS : Nat
  deriving DecidableEq, Repr

/-- The values these constants have in the Linux perf_event ABI
(`include/uapi/linux/perf_event.h`); used for concrete runs. -/
def linuxConsts : Consts where
  PERF_FLAG_FD_CLOEXEC := 8
  PERF_SAMPLE_TID := 2
  PERF_SAMPLE_TIME := 4
  PERF_SAMPLE_READ := 16
  PERF_SAMPLE_CPU := 128
  PERF_SAMPLE_STREAM_ID := 512
  PERF_SAMPLE_IDENTIFIER := 65536
  PERF_FORMAT_ID := 4
  PERF_FORMAT_GROUP := 8
  sizeofPerfEventAttrVer5 := 112
  PERF_EVENT_IOC_ID := 2148017159
  PERF_TYPE_HARDWARE := 0
  PERF_TYPE_HW_CACHE := 3
  PERF_COUNT_HW_INSTRUCTIONS := 1
  PERF_COUNT_HW_CACHE_LL := 2
  PERF_COUNT_HW_CACHE_OP_READ := 0
  PERF_COUNT_HW_CACHE_RESULT_ACCESS := 0
  PERF_COUNT_HW_CACHE_RESULT_MISS := 1

/-! ## Data model -/

/-- The fields of `perf.EventAttr` that `perf.go` and `main.go` read or write
(`Typ` is the Go field `Type`). -/
structure EventAttr where
  Typ : Nat := 0
  Size : Nat := 0
  Config : Nat := 0
  SampleFreq : Nat := 0
  SampleType : Nat := 0
  ReadFormat : Nat := 0
  Disabled : Bool := false
  Freq : Bool := false
  Pinned : Bool := false
  Exclusive : Bool := false
  deriving DecidableEq, Repr

/-- A `*EventAttr`: an address of the heap. -/
abbrev Ptr := Nat

/-- The objects `*EventAttr` values point to. An address beyond the heap
holds no object: it stands for the nil pointer. -/
abbrev Heap := List EventAttr

/-- A file descriptor as a successful `perf_event_open` returns it: a C `int`
that is not negative. -/
abbrev Fd := Fin (2 ^ 31)

/-- A `*ringBuffer`: the identity of the object `newRingBuffer` made. -/
abbrev RingBuffer := Nat

/-- The raw bytes `ringBuffer.read` hands to its callback. -/
abbrev Frame := List Nat

/-- The Go map `eventAttrMap`, `map[uint64]*EventAttr`: each key occurs once. -/
abbrev eventAttrMap := List (Nat × Ptr)

/-- The empty map of `newEventAttrMap()`. -/
def newEventAttrMap : eventAttrMap := []

/-- Map assignment `m[k] = v`. -/
def eventAttrMap.insert (m : eventAttrMap) (k : Nat) (v : Ptr) : eventAttrMap :=
  (k, v) :: m.filter (fun e => e.1 != k)

/-- Map read `m[k]`; `none` is the nil pointer Go yields for an absent key. -/
def eventAttrMap.get (m : eventAttrMap) (k : Nat) : Option Ptr :=
  List.lookup k m

/-- The fields of `eventMonitorOptions` that `perf.go` reads. -/
structure eventMonitorOptions where
  flags : Nat := 0
  ringBufferNumPages : Int := 0
  deriving DecidableEq, Repr

/-- One functional option of `NewPerf`. -/
abbrev EventMonitorOption := eventMonitorOptions → eventMonitorOptions

/-- One entry of a sample's grouped values. -/
structure CounterValue where
  Value : Nat
  ID : Nat
  deriving DecidableEq, Repr

/-- The fields of `perf.SampleRecord` the handler of `main.go` reads
(`Values` is `V.Values`). -/
structure SampleRecord where
  Pid : Nat := 0
  Tid : Nat := 0
  Values : List CounterValue := []
  deriving DecidableEq, Repr

/-- The dynamic type of `Sample.Record`. -/
inductive Record
  | sample (sr : SampleRecord)
  | other
  deriving DecidableEq, Repr

/-- A decoded `perf.Sample`. -/
structure Sample where
  CPU : Nat := 0
  Record : Record := Record.other
  deriving DecidableEq, Repr

/-- A `unix.PollFd`. -/
structure PollFd where
  Fd : Int := 0
  Events : Nat := 0
  Revents : Nat := 0
  deriving DecidableEq, Repr

/-- What `unix.Poll` gives back: `n`, `err`, and the `Revents` it wrote. -/
structure PollResult where
  n : Int
  err : Option GoError
  revents : List Nat
  deriving DecidableEq, Repr

/-- The struct `Perf`. `onSample` is the identity of the handler function,
`none` for a nil func; `eventAttrs` is `none` for a nil slice. -/
structure Perf where
  eventAttrs : Option (List Ptr) := none
  options : eventMonitorOptions := {}
  fds : List Int := []
  groupFds : List Int := []
  EventAttrsByFormatID : eventAttrMap := []
  ringBuffers : List RingBuffer := []
  onSample : Option Nat := none
  deriving DecidableEq, Repr

/-! ## The environment -/

/-- How a call that does not come back ends the process: `glog.Fatal` and its
kin with an error, or a run-time panic. -/
inductive Ended
  | fatal (err : GoError)
  | crashed
  deriving DecidableEq, Repr

/-- What one call of the handler leaves behind: whether it ended the process
(`none` when it returned), and the two things of the `Perf` it can reach from
outside the package, the exported map and the descriptors the map and the
caller point to. -/
structure Handled where
  ended : Option Ended
  EventAttrsByFormatID : eventAttrMap
  heap : Heap
  deriving DecidableEq, Repr

/-- One call that left the process, with its arguments and its answer. -/
inductive Event
  /-- `open(ea, pid, cpu, groupFd, flags)`; `attr` is `*ea` at the call -/
  | perfEventOpen (ea : Ptr) (attr : EventAttr) (pid cpu groupFd : Int) (flags : Nat)
      (res : Res Fd)
  /-- `unix.IoctlGetInt(fd, req)` -/
  | ioctlGetInt (fd : Int) (req : Nat) (res : Res Int)
  /-- `newRingBuffer(fd, pages)` -/
  | newRingBuffer (fd : Int) (pages : Int) (res : Res RingBuffer)
  /-- `enable(fd)` -/
  | enable (fd : Int) (err : Option GoError)
  /-- `unix.Poll(fds, timeout)` -/
  | poll (fds : List PollFd) (timeout : Int) (res : PollResult)
  /-- `rb.read(f)`: `frames` are the byte slices `f` is called on, in order -/
  | ringRead (rb : RingBuffer) (frames : List Frame)
  /-- a call of the handler `h` on a sample; `ended` is `none` when the call
  returned and says how the process ended when it did not -/
  | onSample (h : Nat) (s : Sample) (ended : Option Ended)
  deriving DecidableEq, Repr

/-- The kernel together with the helpers of the package that wrap it, and the
caller's code behind the handler, as a state machine over `σ`. `decode` is
`Sample.read` on the bytes of one frame. `onSample k h m heap s` is the call
`h(s)` of the function value `h`: arbitrary code of the caller, which may keep
a state of its own (in `σ`), write the exported map `m` and the descriptors,
and return or end the process. The fields of `Perf` that are not exported are
out of its reach; a handler that calls `Open` or `Run` of the same `Perf`
again is not covered. -/
structure Kernel (σ : Type) where
  perfEventOpen : σ → EventAttr → Int → Int → Int → Nat → Res Fd × σ
  ioctlGetInt : σ → Int → Nat → Res Int × σ
  newRingBuffer : σ → Int → Int → Res RingBuffer × σ
  enable : σ → Int → Option GoError × σ
  poll : σ → List PollFd → Int → PollResult × σ
  ringRead : σ → RingBuffer → List Frame × σ
  decode : Frame → eventAttrMap → Heap → Res Sample
  onSample : σ → Nat → eventAttrMap → Heap → Sample → Handled × σ

/-- The state a run threads: the `Perf` object, the heap of descriptors, the
state of the kernel, and the calls made so far. -/
structure St (σ : Type) where
  p : Perf
  heap : Heap
  k : σ
  trace : List Event := []

/-! ## Control flow -/

/-- A Go `for ... range xs` loop whose body can end the process or the
function: the body runs on each element in order until one does not go on. -/
def forEach {α τ : Type} (body : α → τ → Status × τ) : List α → τ → Status × τ
  | [], s => (Status.running, s)
  | x :: xs, s =>
    match body x s with
    | (Status.running, s1) => forEach body xs s1
    | r => r

/-! ## `perf.go` -/

/-- `NewPerf(options...)`: the zero `Perf` with the options applied in order. -/
def NewPerf (options : List EventMonitorOption) : Perf × Option GoError :=
  ({ options := options.foldl (fun o f => f o) {} }, none)

/-- The sample fields `Open` adds to every descriptor. -/
def mandatorySampleType (C : Consts) : Nat :=
  C.PERF_SAMPLE_CPU ||| C.PERF_SAMPLE_STREAM_ID ||| C.PERF_SAMPLE_IDENTIFIER |||
    C.PERF_SAMPLE_TIME

/-- The two assignments under `// Fixup` in `Open`. -/
def fixup (C : Consts) (a : EventAttr) : EventAttr :=
  { a with
    Size := C.sizeofPerfEventAttrVer5
    SampleType := a.SampleType ||| mandatorySampleType C }

/-- The flags `Open` passes to `open`. -/
def openFlags (C : Consts) (p : Perf) : Nat :=
  p.options.flags ||| C.PERF_FLAG_FD_CLOEXEC

/-- The body of the inner loop of `Open`, for the descriptor `ea` on `cpu`. -/
def openOne {σ : Type} (K : Kernel σ) (C : Consts) (cpu : Nat) (ea : Ptr) (st : St σ) :
    Status × St σ :=
  match st.heap[ea]? with
  | none => (Status.crashed, st)
  | some a =>
    let heap1 := st.heap.set ea (fixup C a)
    match st.p.groupFds[cpu]? with
    | none => (Status.crashed, { st with heap := heap1 })
    | some g =>
      let r := K.perfEventOpen st.k (fixup C a) (-1) cpu g (openFlags C st.p)
      let tr1 := st.trace ++
        [Event.perfEventOpen ea (fixup C a) (-1) cpu g (openFlags C st.p) r.1]
      match r.1 with
      | Res.error e => (Status.fatal e, { st with heap := heap1, k := r.2, trace := tr1 })
      | Res.ok fd =>
        let r2 := K.ioctlGetInt r.2 fd C.PERF_EVENT_IOC_ID
        let tr2 := tr1 ++ [Event.ioctlGetInt fd C.PERF_EVENT_IOC_ID r2.1]
        match r2.1 with
        | Res.error e => (Status.fatal e, { st with heap := heap1, k := r2.2, trace := tr2 })
        | Res.ok streamID =>
          let p1 : Perf := { st.p with
            EventAttrsByFormatID := st.p.EventAttrsByFormatID.insert (toUint64 streamID) ea
            fds := st.p.fds ++ [(fd : Int)] }
          if g < 0 then
            let r3 := K.newRingBuffer r2.2 fd st.p.options.ringBufferNumPages
            let tr3 := tr2 ++
              [Event.newRingBuffer fd st.p.options.ringBufferNumPages r3.1]
            match r3.1 with
            | Res.error e =>
              (Status.fatal e, { p := p1, heap := heap1, k := r3.2, trace := tr3 })
            | Res.ok rb =>
              (Status.running,
                { p := { p1 with
                    ringBuffers := p1.ringBuffers ++ [rb]
                    groupFds := p1.groupFds.set cpu fd }
                  heap := heap1, k := r3.2, trace := tr3 })
          else
            (Status.running, { p := p1, heap := heap1, k := r2.2, trace := tr2 })

/-- The body of the outer loop of `Open`, for one CPU. `Open` runs it only for
`cpu < len(p.groupFds)`, so the store `p.groupFds[cpu] = -1` is in range; the
list `eas` stands for a non-nil slice. -/
def openCpu {σ : Type} (K : Kernel σ) (C : Consts) (eas : List Ptr) (cpu : Nat) (st : St σ) :
    Status × St σ :=
  let st1 : St σ := { st with p := { st.p with groupFds := st.p.groupFds.set cpu (-1) } }
  match forEach (openOne K C cpu) eas st1 with
  | (Status.running, st2) =>
    (Status.running,
      if st2.p.eventAttrs = none then
        { st2 with p := { st2.p with eventAttrs := some eas } }
      else st2)
  | r => r

/-- `(p *Perf) Open(eas)` on a machine with `ncpu` CPUs (`runtime.NumCPU()`). -/
def Open {σ : Type} (K : Kernel σ) (C : Consts) (ncpu : Nat) (eas : List Ptr) (st : St σ) :
    Status × St σ :=
  let st0 : St σ := { st with p := { st.p with
    EventAttrsByFormatID := newEventAttrMap
    groupFds := List.replicate ncpu 0 } }
  match forEach (openCpu K C eas) (List.range ncpu) st0 with
  | (Status.running, st1) => (Status.returned none, st1)
  | r => r

/-- `(p *Perf) readSample(data)`. The call `p.onSample(*sample)` runs the
caller's code: when that code panics or exits, so does `readSample`. -/
def readSample {σ : Type} (K : Kernel σ) (data : Frame) (st : St σ) : Status × St σ :=
  match K.decode data st.p.EventAttrsByFormatID st.heap with
  | Res.error e => (Status.fatal e, st)
  | Res.ok sample =>
    match st.p.onSample with
    | none => (Status.running, st)
    | some h =>
      let r := K.onSample st.k h st.p.EventAttrsByFormatID st.heap sample
      let st1 : St σ :=
        { p := { st.p with EventAttrsByFormatID := r.1.EventAttrsByFormatID }
          heap := r.1.heap
          k := r.2
          trace := st.trace ++ [Event.onSample h sample r.1.ended] }
      match r.1.ended with
      | none => (Status.running, st1)
      | some (Ended.fatal e) => (Status.fatal e, st1)
      | some Ended.crashed => (Status.crashed, st1)

/-- The body of the loop of `Run` that enables the group leaders and fills
`pollFds`; the loop state is the run state and the local `pollFds`. -/
def enableOne {σ : Type} (K : Kernel σ) (ifd : Nat × Int) (s : St σ × List PollFd) :
    Status × (St σ × List PollFd) :=
  let r := K.enable s.1.k ifd.2
  let st1 : St σ := { s.1 with k := r.2, trace := s.1.trace ++ [Event.enable ifd.2 r.1] }
  match r.1 with
  | some e => (Status.fatal e, (st1, s.2))
  | none =>
    match s.2[ifd.1]? with
    | none => (Status.crashed, (st1, s.2))
    | some f => (Status.running,
        (st1, s.2.set ifd.1 { f with Fd := toInt32 ifd.2, Events := POLLIN }))

/-- The `Revents` fields after `unix.Poll` wrote `revents` into `pollFds`. -/
def writeRevents (pollFds : List PollFd) (revents : List Nat) : List PollFd :=
  pollFds.enum.map (fun (x : Nat × PollFd) => { x.2 with Revents := revents.getD x.1 x.2.Revents })

/-- The body of the loop over `pollFds` in `Run`. -/
def drainOne {σ : Type} (K : Kernel σ) (ifd : Nat × PollFd) (st : St σ) : Status × St σ :=
  if ifd.2.Revents &&& POLLIN ≠ 0 then
    match st.p.ringBuffers[ifd.1]? with
    | none => (Status.crashed, st)
    | some rb =>
      let r := K.ringRead st.k rb
      forEach (readSample K) r.1
        { st with k := r.2, trace := st.trace ++ [Event.ringRead rb r.1] }
  else (Status.running, st)

/-- The endless `for` loop of `Run`, run for at most `fuel` waits;
`Status.running` says the loop is still going when the fuel is used up. -/
def runLoop {σ : Type} (K : Kernel σ) : Nat → List PollFd → St σ → Status × St σ
  | 0, _, st => (Status.running, st)
  | fuel + 1, pollFds, st =>
    let r := K.poll st.k pollFds (-1)
    let st1 : St σ := { st with k := r.2, trace := st.trace ++ [Event.poll pollFds (-1) r.1] }
    let pollFds1 := writeRevents pollFds r.1.revents
    if r.1.err ≠ none ∧ r.1.err ≠ some EINTR then
      (Status.returned r.1.err, st1)
    else if 0 < r.1.n then
      match forEach (drainOne K) pollFds1.enum st1 with
      | (Status.running, st2) => runLoop K fuel pollFds1 st2
      | res => res
    else runLoop K fuel pollFds1 st1

/-- `(p *Perf) Run(onSample)`, with at most `fuel` waits. -/
def Run {σ : Type} (K : Kernel σ) (onSample : Option Nat) (fuel : Nat) (st : St σ) :
    Status × St σ :=
  let st0 : St σ := { st with p := { st.p with onSample := onSample } }
  let pollFds0 : List PollFd := List.replicate st0.p.groupFds.length {}
  match forEach (enableOne K) st0.p.groupFds.enum (st0, pollFds0) with
  | (Status.running, s) => runLoop K fuel s.2 s.1
  | (r, s) => (r, s.1)

/-! ## `examples/spectre/main.go` -/

/-- The selector `llcReadAccess` of `main`. -/
def llcReadAccess (C : Consts) : Nat :=
  C.PERF_COUNT_HW_CACHE_LL ||| (C.PERF_COUNT_HW_CACHE_OP_READ <<< 8) |||
    (C.PERF_COUNT_HW_CACHE_RESULT_ACCESS <<< 16)

/-- The selector `llcReadMiss` of `main`. -/
def llcReadMiss (C : Consts) : Nat :=
  C.PERF_COUNT_HW_CACHE_LL ||| (C.PERF_COUNT_HW_CACHE_OP_READ <<< 8) |||
    (C.PERF_COUNT_HW_CACHE_RESULT_MISS <<< 16)

/-- The constant `sampleFreq` of `main.go`. -/
def sampleFreq : Nat := 10000

/-- The three descriptors `main` builds, in the order it appends them. -/
def spectreEventAttrs (C : Consts) : List EventAttr :=
  [ { Disabled := true
      Typ := C.PERF_TYPE_HARDWARE
      Config := C.PERF_COUNT_HW_INSTRUCTIONS
      SampleType := C.PERF_SAMPLE_TID ||| C.PERF_SAMPLE_READ
      Freq := true
      ReadFormat := C.PERF_FORMAT_GROUP ||| C.PERF_FORMAT_ID
      SampleFreq := sampleFreq
      Pinned := true
      Exclusive := true },
    { Disabled := true, Typ := C.PERF_TYPE_HW_CACHE, Config := llcReadAccess C },
    { Disabled := true, Typ := C.PERF_TYPE_HW_CACHE, Config := llcReadMiss C } ]

/-- The locals `i`, `cr`, `cm` of the handler. -/
structure Counts where
  i : Nat := 0
  cr : Nat := 0
  cm : Nat := 0
  deriving DecidableEq, Repr

/-- The locals `di`, `dcr`, `dcm` of the handler. -/
structure Deltas where
  di : Nat := 0
  dcr : Nat := 0
  dcm : Nat := 0
  deriving DecidableEq, Repr

/-- The slices `instructions`, `cacheReferences`, `cacheMisses` of `main`. -/
structure Totals where
  instructions : List Nat
  cacheReferences : List Nat
  cacheMisses : List Nat
  deriving DecidableEq, Repr

/-- The error of `glog.Fatalf("Unknown event attr config: %v", ...)`. -/
def unknownConfig : GoError := 0

/-- The body of the loop over `sr.V.Values` in the handler. -/
def attributeValue (C : Consts) (registry : eventAttrMap) (heap : Heap) (v : CounterValue)
    (c : Counts) : Status × Counts :=
  match registry.get v.ID with
  | none => (Status.crashed, c)
  | some ea =>
    match heap[ea]? with
    | none => (Status.crashed, c)
    | some a =>
      if a.Config = C.PERF_COUNT_HW_INSTRUCTIONS then (Status.running, { c with i := v.Value })
      else if a.Config = llcReadAccess C then (Status.running, { c with cr := v.Value })
      else if a.Config = llcReadMiss C then (Status.running, { c with cm := v.Value })
      else (Status.fatal unknownConfig, c)

/-- The function literal `main` passes to `p.Run`, up to the three stores
that end it: the counts read from the sample, the deltas against the totals of
the sample's CPU, and the new totals. The two `float32` rates and the log line
they guard change none of these and are left out. A record that is not a
`*perf.SampleRecord` leaves everything as it is. -/
def handler (C : Consts) (registry : eventAttrMap) (heap : Heap) (t : Totals) (sample : Sample) :
    Status × Totals × Counts × Deltas :=
  match sample.Record with
  | Record.other => (Status.running, t, {}, {})
  | Record.sample sr =>
    match forEach (attributeValue C registry heap) sr.Values {} with
    | (Status.running, c) =>
      let cpu := sample.CPU
      match t.instructions[cpu]?, t.cacheReferences[cpu]?, t.cacheMisses[cpu]? with
      | some pi, some pcr, some pcm =>
        (Status.running,
          { instructions := t.instructions.set cpu c.i
            cacheReferences := t.cacheReferences.set cpu c.cr
            cacheMisses := t.cacheMisses.set cpu c.cm },
          c,
          { di := sub64 c.i pi, dcr := sub64 c.cr pcr, dcm := sub64 c.cm pcm })
      | _, _, _ => (Status.crashed, t, c, {})
    | (r, c) => (r, t, c, {})

/-! ## Definitions used to state the properties -/

/-- The selector of the descriptor a grouped value resolves to through the
registry; `none` when the identifier is in no entry or the entry is nil. -/
def resolvedConfig (registry : eventAttrMap) (heap : Heap) (v : CounterValue) : Option Nat :=
  match registry.get v.ID with
  | none => none
  | some ea => (heap[ea]?).map (fun a => a.Config)

/-- The three selectors the handler tells apart. -/
def knownConfigs (C : Consts) : List (Option Nat) :=
  [some C.PERF_COUNT_HW_INSTRUCTIONS, some (llcReadAccess C), some (llcReadMiss C)]

/-- The store the handler makes for a value whose descriptor has selector `k`,
one of the three it knows. -/
def storeCount (C : Consts) (k : Nat) (val : Nat) (c : Counts) : Counts :=
  if k = C.PERF_COUNT_HW_INSTRUCTIONS then { c with i := val }
  else if k = llcReadAccess C then { c with cr := val }
  else { c with cm := val }

/-- A registry as `Open` leaves it for the three descriptors of `main`. -/
def demoRegistry : eventAttrMap := [(12, 2), (11, 1), (10, 0)]

/-- A sample of CPU 0 whose values come in the order misses, instructions, references. -/
def demoRecord : SampleRecord :=
  { Pid := 1, Tid := 1, Values := [⟨1, 12⟩, ⟨3, 10⟩, ⟨7, 11⟩] }

/-- The statuses of code that has no `return` of its own. -/
def Status.noReturn (s : Status) : Prop := ∀ e, s ≠ Status.returned e

/-- The events of one `rb.read(p.readSample)` that ran to its end: the read
of ring buffer `y.1`, then one call of the handler `h` per frame, in order,
each of which returned. -/
def readEvents (h : Nat) (y : RingBuffer × List (Frame × Sample)) : List Event :=
  Event.ringRead y.1 (y.2.map Prod.fst) :: y.2.map (fun fs => Event.onSample h fs.2 none)

/-- The handler writes neither the exported map nor a descriptor, as is the
case of the handler of `main.go`. -/
def Kernel.handlerReadsOnly {σ : Type} (K : Kernel σ) : Prop :=
  ∀ k h m hp s, (K.onSample k h m hp s).1.EventAttrsByFormatID = m ∧
    (K.onSample k h m hp s).1.heap = hp

/-- The status of a run after a call that came back (`none`) or ended the
process. -/
def endStatus : Option Ended → Status
  | none => Status.running
  | some (Ended.fatal e) => Status.fatal e
  | some Ended.crashed => Status.crashed

/-- The run state right after a call of the handler `h` on `s` from `st`. -/
def handledState {σ : Type} (K : Kernel σ) (h : Nat) (s : Sample) (st : St σ) : St σ :=
  { p := { st.p with
      EventAttrsByFormatID :=
        (K.onSample st.k h st.p.EventAttrsByFormatID st.heap s).1.EventAttrsByFormatID }
    heap := (K.onSample st.k h st.p.EventAttrsByFormatID st.heap s).1.heap
    k := (K.onSample st.k h st.p.EventAttrsByFormatID st.heap s).2
    trace := st.trace ++
      [Event.onSample h s (K.onSample st.k h st.p.EventAttrsByFormatID st.heap s).1.ended] }

/-- The entries of `p.ringBuffers` that `Run` indexes after a wait: those at
the positions whose `Revents` has `POLLIN`, by increasing position. -/
def readyBuffers (ringBuffers : List RingBuffer) (pollFds : List PollFd) :
    List (Option RingBuffer) :=
  (pollFds.enum.filter (fun x => x.2.Revents &&& POLLIN ≠ 0)).map (fun x => ringBuffers[x.1]?)

/-- The run state right after the wait `unix.Poll(pollFds, -1)` of one
iteration of the loop of `Run`. -/
def waitState {σ : Type} (K : Kernel σ) (pollFds : List PollFd) (st : St σ) : St σ :=
  { st with
    k := (K.poll st.k pollFds (-1)).2
    trace := st.trace ++ [Event.poll pollFds (-1) (K.poll st.k pollFds (-1)).1] }

/-- The local `pollFds` right after that wait. -/
def waitFds {σ : Type} (K : Kernel σ) (pollFds : List PollFd) (st : St σ) : List PollFd :=
  writeRevents pollFds (K.poll st.k pollFds (-1)).1.revents

/-- The calls of `a` are the first calls of `b`. -/
def St.continuedBy {σ : Type} (a b : St σ) : Prop := ∃ rest, b.trace = a.trace ++ rest

/-- A kernel for runs of `Run` on an opened `Perf`: every wait reports `n = 1`
with `POLLIN` on the second descriptor only, each read of a ring buffer yields
two frames, and every frame decodes. -/
def readyKernel : Kernel Nat where
  perfEventOpen := fun k _ _ _ _ _ => (Res.error 1, k)
  ioctlGetInt := fun k _ _ => (Res.error 1, k)
  newRingBuffer := fun k _ _ => (Res.error 1, k)
  enable := fun k _ => (none, k)
  poll := fun k _ _ => (⟨1, none, [0, POLLIN]⟩, k + 1)
  ringRead := fun k rb => ([[rb, 1], [rb, 2]], k)
  decode := fun f _ _ => Res.ok { CPU := f.headD 0 }
  onSample := fun k _ m heap _ => (⟨none, m, heap⟩, k)

/-- How a status ends the process; `none` for a status that does not. -/
def Status.ended : Status → Option Ended
  | Status.fatal e => some (Ended.fatal e)
  | Status.crashed => some Ended.crashed
  | _ => none

/-- A kernel for runs of `Run` with the handler of `main.go`, whose state is
the totals that handler keeps: every wait reports `n = 1` with `POLLIN` on the
first descriptor, each read of a ring buffer yields two frames, and a frame
`[id, value]` decodes to a sample of CPU 0 with that one grouped value. -/
def spectreKernel : Kernel Totals where
  perfEventOpen := fun t _ _ _ _ _ => (Res.error 1, t)
  ioctlGetInt := fun t _ _ => (Res.error 1, t)
  newRingBuffer := fun t _ _ => (Res.error 1, t)
  enable := fun t _ => (none, t)
  poll := fun t _ _ => (⟨1, none, [POLLIN]⟩, t)
  ringRead := fun t rb => ([[rb, 1], [rb, 2]], t)
  decode := fun f _ _ =>
    Res.ok { CPU := 0, Record := Record.sample { Values := [⟨f.getD 1 0, f.headD 0⟩] } }
  onSample := fun t _ m heap s =>
    (⟨(handler linuxConsts m heap t s).1.ended, m, heap⟩, (handler linuxConsts m heap t s).2.1)

/-- A `Perf` as `Open` leaves it on one CPU for the three descriptors of
`main`, and the totals of `main` for that CPU. -/
def spectreSt : St Totals :=
  { p := { groupFds := [3], fds := [3, 4, 5], ringBuffers := [30]
           EventAttrsByFormatID := [(12, 2), (11, 1), (10, 0)] }
    heap := spectreEventAttrs linuxConsts
    k := ⟨[0], [0], [0]⟩ }

/-- The same kernel with a decoder that rejects every frame with error 22. -/
def garbledKernel : Kernel Nat :=
  { readyKernel with decode := fun _ _ _ => Res.error 22 }

/-- A kernel whose first wait is interrupted (`EINTR`, `n = -1`) and whose
later waits fail with error 9. -/
def eintrKernel : Kernel Nat :=
  { readyKernel with
    poll := fun k _ _ => if k = 0 then (⟨-1, some EINTR, []⟩, 1) else (⟨-1, some 9, []⟩, k + 1) }

/-- A `Perf` as `Open` leaves it on two CPUs, with handler 7 installed. -/
def runSt : St Nat :=
  { p := { groupFds := [3, 6], fds := [3, 4, 6, 7], ringBuffers := [30, 60]
           EventAttrsByFormatID := [(13, 1), (12, 0), (11, 1), (10, 0)], onSample := some 7 }
    heap := [{}, {}]
    k := 0 }

/-- The local `pollFds` of `Run` on `runSt` when its loop starts. -/
def runPollFds : List PollFd := [{ Fd := 3, Events := POLLIN }, { Fd := 6, Events := POLLIN }]

/-- The state `openOne` reaches when all its calls succeed: the descriptor at
`ea` fixed up, the counter `fd` with identifier `streamID` recorded, and, for a
group leader, its ring buffer `rb` recorded and `fd` made the group handle. -/
def openedState {σ : Type} (C : Consts) (cpu : Nat) (ea : Ptr) (a : EventAttr) (g : Int)
    (fd : Fd) (streamID : Int) (rb : Option RingBuffer) (k : σ) (st : St σ) : St σ :=
  { p := { st.p with
      EventAttrsByFormatID := st.p.EventAttrsByFormatID.insert (toUint64 streamID) ea
      fds := st.p.fds ++ [(fd : Int)]
      ringBuffers := match rb with
        | some b => st.p.ringBuffers ++ [b]
        | none => st.p.ringBuffers
      groupFds := match rb with
        | some _ => st.p.groupFds.set cpu fd
        | none => st.p.groupFds }
    heap := st.heap.set ea (fixup C a)
    k := k
    trace := st.trace ++
      ([Event.perfEventOpen ea (fixup C a) (-1) cpu g (openFlags C st.p) (Res.ok fd),
        Event.ioctlGetInt fd C.PERF_EVENT_IOC_ID (Res.ok streamID)] ++
        match rb with
        | some b => [Event.newRingBuffer fd st.p.options.ringBufferNumPages (Res.ok b)]
        | none => []) }

/-- The error of a call that failed, `none` for every other event. -/
def Event.failure : Event → Option GoError
  | Event.perfEventOpen _ _ _ _ _ _ (Res.error e) => some e
  | Event.ioctlGetInt _ _ (Res.error e) => some e
  | Event.newRingBuffer _ _ (Res.error e) => some e
  | Event.enable _ (some e) => some e
  | _ => none

/-- The state in which `openOne` ends the process because `open` failed. -/
def failedOpen {σ : Type} (C : Consts) (cpu : Nat) (ea : Ptr) (a : EventAttr) (g : Int)
    (e : GoError) (k : σ) (st : St σ) : St σ :=
  { st with
    heap := st.heap.set ea (fixup C a)
    k := k
    trace := st.trace ++
      [Event.perfEventOpen ea (fixup C a) (-1) cpu g (openFlags C st.p) (Res.error e)] }

/-- The state in which `openOne` ends the process because the identifier query
on the counter `fd` failed. -/
def failedIoctl {σ : Type} (C : Consts) (cpu : Nat) (ea : Ptr) (a : EventAttr) (g : Int)
    (fd : Fd) (e : GoError) (k : σ) (st : St σ) : St σ :=
  { st with
    heap := st.heap.set ea (fixup C a)
    k := k
    trace := st.trace ++
      [Event.perfEventOpen ea (fixup C a) (-1) cpu g (openFlags C st.p) (Res.ok fd),
       Event.ioctlGetInt fd C.PERF_EVENT_IOC_ID (Res.error e)] }

/-- The state in which `openOne` ends the process because `newRingBuffer`
failed: the counter `fd` is already in the registry and in `fds`. -/
def failedRing {σ : Type} (C : Consts) (cpu : Nat) (ea : Ptr) (a : EventAttr) (g : Int)
    (fd : Fd) (streamID : Int) (e : GoError) (k : σ) (st : St σ) : St σ :=
  { p := { st.p with
      EventAttrsByFormatID := st.p.EventAttrsByFormatID.insert (toUint64 streamID) ea
      fds := st.p.fds ++ [(fd : Int)] }
    heap := st.heap.set ea (fixup C a)
    k := k
    trace := st.trace ++
      [Event.perfEventOpen ea (fixup C a) (-1) cpu g (openFlags C st.p) (Res.ok fd),
       Event.ioctlGetInt fd C.PERF_EVENT_IOC_ID (Res.ok streamID),
       Event.newRingBuffer fd st.p.options.ringBufferNumPages (Res.error e)] }

/-- Every object of `heap` is the object of `heap0` at the same address, as it
was or after the fixup of `Open`. -/
def fixedUp (C : Consts) (heap0 heap : Heap) : Prop :=
  ∀ ea : Ptr, heap[ea]? = heap0[ea]? ∨ ∃ a, heap0[ea]? = some a ∧ heap[ea]? = some (fixup C a)

/-- What `Open` keeps true of the descriptors, seen from the heap `heap0` it
started on: the heap is `heap0` up to fixups, every `open` call so far was
handed a fixed-up descriptor of `heap0`, and every registry entry points to a
fixed-up descriptor. -/
def descriptorsFixed {σ : Type} (C : Consts) (heap0 : Heap) (st : St σ) : Prop :=
  fixedUp C heap0 st.heap ∧
  (∀ ev ∈ st.trace, ∀ ea attr pid cpu g fl r, ev = Event.perfEventOpen ea attr pid cpu g fl r →
    ∃ a, heap0[ea]? = some a ∧ attr = fixup C a) ∧
  (∀ kv ∈ st.p.EventAttrsByFormatID,
    ∃ a, heap0[kv.2]? = some a ∧ st.heap[kv.2]? = some (fixup C a))

/-- The sample-field bitmask `result` is the caller's bitmask `caller` with the
four mandatory fields of `Open` added: it is their bitwise OR, so every bit of
the caller is kept and every bit of the four constants is set. -/
def augments (C : Consts) (caller result : Nat) : Prop :=
  result = caller ||| (C.PERF_SAMPLE_CPU ||| C.PERF_SAMPLE_STREAM_ID |||
    C.PERF_SAMPLE_IDENTIFIER ||| C.PERF_SAMPLE_TIME) ∧
  (∀ b, caller.testBit b = true → result.testBit b = true) ∧
  (∀ b, (C.PERF_SAMPLE_CPU.testBit b = true ∨ C.PERF_SAMPLE_STREAM_ID.testBit b = true ∨
      C.PERF_SAMPLE_IDENTIFIER.testBit b = true ∨ C.PERF_SAMPLE_TIME.testBit b = true) →
    result.testBit b = true)

/-- A kernel in which every call succeeds: the n-th `open` returns the
descriptor `3 + n`, the identifier of the counter `fd` is `100 + fd`, and the
ring buffer over `fd` is the object `fd`. -/
def countingKernel : Kernel Nat where
  perfEventOpen := fun k _ _ _ _ _ => (Res.ok ⟨(3 + k) % 2 ^ 31, Nat.mod_lt _ (by decide)⟩, k + 1)
  ioctlGetInt := fun k fd _ => (Res.ok (100 + fd), k)
  newRingBuffer := fun k fd _ => (Res.ok fd.toNat, k)
  enable := fun k _ => (none, k)
  poll := fun k _ _ => (⟨1, none, [0, POLLIN]⟩, k + 1)
  ringRead := fun k rb => ([[rb, 1], [rb, 2]], k)
  decode := fun f _ _ => Res.ok { CPU := f.headD 0 }
  onSample := fun k _ m heap _ => (⟨none, m, heap⟩, k)

/-- The start of `main`: a fresh `Perf` and the three descriptors of the
spectre example at the addresses 0, 1, 2. -/
def mainSt : St Nat :=
  { p := (NewPerf []).1, heap := spectreEventAttrs linuxConsts, k := 0 }

/-- The descriptors of the counters whose identifier query succeeded, in the
order of the queries. -/
def identified (tr : List Event) : List Int :=
  tr.filterMap (fun ev =>
    match ev with
    | Event.ioctlGetInt fd _ (Res.ok _) => some fd
    | _ => none)

/-- The registry keys made from the identifiers the kernel returned, in the
order of the queries. -/
def idKeys (tr : List Event) : List Nat :=
  tr.filterMap (fun ev =>
    match ev with
    | Event.ioctlGetInt _ _ (Res.ok streamID) => some (toUint64 streamID)
    | _ => none)

/-- No call of the trace failed. -/
def okTrace (tr : List Event) : Prop := ∀ ev ∈ tr, ev.failure = none

/-- How failures of calls and the end of a run go together: a run that goes on
or crashed has seen no call fail, a run ended by `glog.Fatal(e)` has seen
exactly its last call fail, with `e`. -/
def failFast {σ : Type} (r : Status × St σ) : Prop :=
  match r.1 with
  | Status.fatal e => ∃ init ev, r.2.trace = init ++ [ev] ∧ okTrace init ∧ ev.failure = some e
  | Status.returned _ => False
  | _ => okTrace r.2.trace

/-- Nothing is taken back: `fds` holds every counter identified so far, and
the keys of the registry are the identifiers returned so far. -/
def notRolledBack {σ : Type} (fds0 : List Int) (st : St σ) : Prop :=
  st.p.fds = fds0 ++ identified st.trace ∧
  ∀ k, (∃ v, (k, v) ∈ st.p.EventAttrsByFormatID) ↔ k ∈ idKeys st.trace

/-- A kernel like `countingKernel` whose second `open` fails with error 24. -/
def failingKernel : Kernel Nat :=
  { countingKernel with
    perfEventOpen := fun k _ _ _ _ _ =>
      if k = 1 then (Res.error 24, k + 1)
      else (Res.ok ⟨(3 + k) % 2 ^ 31, Nat.mod_lt _ (by decide)⟩, k + 1) }

/-- The answers of the kernel for one counter: the descriptor value `open` was
handed, the file descriptor it returned and the identifier of the counter. -/
structure Opened where
  attr : EventAttr
  fd : Fd
  streamID : Int
  deriving DecidableEq, Repr

/-- The answers of the kernel for the group of one CPU: those for the leader,
the ring buffer made over the leader, and those for the siblings in order. -/
structure Row where
  lead : Opened
  rb : RingBuffer
  sibs : List Opened
  deriving DecidableEq, Repr

/-- The answers for all counters of the group, leader first. -/
def Row.all (r : Row) : List Opened := r.lead :: r.sibs

/-- The two calls `Open` makes for every counter, when both succeed. -/
def stepEvents (C : Consts) (flags : Nat) (cpu : Nat) (g : Int) (ea : Ptr) (o : Opened) :
    List Event :=
  [Event.perfEventOpen ea o.attr (-1) cpu g flags (Res.ok o.fd),
   Event.ioctlGetInt o.fd C.PERF_EVENT_IOC_ID (Res.ok o.streamID)]

/-- The calls `Open` makes for one CPU on the descriptors `ea0 :: rest`, when
all succeed: the leader is opened with group handle `-1`, identified, and given
its ring buffer; every sibling is opened with the leader's descriptor as group
handle, and identified. -/
def rowEvents (C : Consts) (flags : Nat) (pages : Int) (ea0 : Ptr) (rest : List Ptr)
    (cpu : Nat) (row : Row) : List Event :=
  stepEvents C flags cpu (-1) ea0 row.lead ++
    [Event.newRingBuffer row.lead.fd pages (Res.ok row.rb)] ++
    (rest.zip row.sibs).flatMap (fun x => stepEvents C flags cpu row.lead.fd x.1 x.2)

/-- The registry entries made for descriptors and the answers for them: the
identifier as a `uint64` key, the descriptor as value. -/
def regPairs (eas : List Ptr) (os : List Opened) : List (Nat × Ptr) :=
  (eas.zip os).map (fun x => (toUint64 x.2.streamID, x.1))

/-- The map after the assignments `m[k] = v` for the pairs of `l`, in order. -/
def regAll (m : eventAttrMap) (l : List (Nat × Ptr)) : eventAttrMap :=
  l.foldl (fun m x => m.insert x.1 x.2) m

/-- The calls of a run of `Open` on `ncpu` CPUs in which every call succeeds:
the calls for CPU 0, then those for CPU 1, and so on. -/
def openTrace (C : Consts) (flags : Nat) (pages : Int) (ea0 : Ptr) (rest : List Ptr)
    (c0 : Nat) (rows : List Row) : List Event :=
  (rows.enumFrom c0).flatMap (fun x => rowEvents C flags pages ea0 rest x.1 x.2)

/-- The calls of a run of `Open` on the descriptors `eas` in which every call
succeeds; there are none when `eas` is empty. -/
def openTraceOf (C : Consts) (flags : Nat) (pages : Int) (eas : List Ptr) (rows : List Row) :
    List Event :=
  match eas with
  | [] => []
  | ea0 :: rest => openTrace C flags pages ea0 rest 0 rows

/-- A kernel like `countingKernel` that gives every counter the identifier 7. -/
def sameIdKernel : Kernel Nat :=
  { countingKernel with ioctlGetInt := fun k _ _ => (Res.ok 7, k) }

/-- The first loop of `Run`: the handler is stored, `pollFds` is made, every
group leader is enabled and entered in `pollFds`. The result is the state and
the local `pollFds` with which the endless loop of `Run` starts. -/
def enableAll {σ : Type} (K : Kernel σ) (onSample : Option Nat) (st : St σ) :
    Status × (St σ × List PollFd) :=
  forEach (enableOne K) ({ st with p := { st.p with onSample := onSample } } : St σ).p.groupFds.enum
    ({ st with p := { st.p with onSample := onSample } },
      List.replicate ({ st with p := { st.p with onSample := onSample } } : St σ).p.groupFds.length {})

/-- The calls `newRingBuffer(fd, pages)` of a trace, with their answers. -/
def ringCalls (tr : List Event) : List (Int × Int × Res RingBuffer) :=
  tr.filterMap (fun ev =>
    match ev with
    | Event.newRingBuffer fd pages res => some (fd, pages, res)
    | _ => none)

/-- One call `open(ea, pid, cpu, groupFd, flags)` of a trace: its arguments
(`attr` is `*ea` at the call) and its answer. -/
structure OpenCall where
  ea : Ptr
  attr : EventAttr
  pid : Int
  cpu : Int
  groupFd : Int
  flags : Nat
  res : Res Fd
  deriving DecidableEq, Repr

/-- The `open` calls of a trace, in order. -/
def openCalls (tr : List Event) : List OpenCall :=
  tr.filterMap (fun ev =>
    match ev with
    | Event.perfEventOpen ea attr pid cpu g flags res => some ⟨ea, attr, pid, cpu, g, flags, res⟩
    | _ => none)

/-- The descriptor an `open` call returned, `-1` when it failed. -/
def handleOf (r : Res Fd) : Int :=
  match r with
  | Res.ok fd => ((fd : Nat) : Int)
  | Res.error _ => -1

/-- The `open` calls for the descriptors `eas`, in list order, on `cpu` with
group handle `g`, one per answer of `rs` (the descriptor value handed over and
the result). -/
def groupCalls (flags : Nat) (cpu : Nat) (g : Int) (eas : List Ptr)
    (rs : List (EventAttr × Res Fd)) : List OpenCall :=
  (eas.zip rs).map (fun x => ⟨x.1, x.2.1, -1, cpu, g, flags, x.2.2⟩)

/-- The `open` calls `Open` makes for one CPU, given the answers `row` to them:
the first descriptor of the list is opened with group handle `-1`, every later
one, in list order, with the descriptor the first call returned. -/
def rowCalls (flags : Nat) (eas : List Ptr) (cpu : Nat) (row : List (EventAttr × Res Fd)) :
    List OpenCall :=
  match eas, row with
  | ea0 :: rest, r0 :: rs =>
    ⟨ea0, r0.1, -1, cpu, -1, flags, r0.2⟩ :: groupCalls flags cpu (handleOf r0.2) rest rs
  | _, _ => []

/-- Every answer of the list is a success. -/
def allOk (rs : List (EventAttr × Res Fd)) : Prop := ∀ r ∈ rs, ∃ fd, r.2 = Res.ok fd

/-- Siblings are opened only after the leader was: a row with more than one
answer starts with a success. -/
def leaderFirst (row : List (EventAttr × Res Fd)) : Prop :=
  ∀ r0 rs, row = r0 :: rs → rs ≠ [] → ∃ fd, r0.2 = Res.ok fd

/-- What holds of the answers to the `open` calls of any run of `Open`, one row
per CPU reached: a row has no more answers than there are descriptors, every
descriptor value handed over has the version-5 `Size`, and siblings come only
after a leader that was opened. -/
def rowsWellFormed (C : Consts) (eas : List Ptr) (rows : List (List (EventAttr × Res Fd))) :
    Prop :=
  ∀ row ∈ rows, row.length ≤ eas.length ∧
    (∀ r ∈ row, r.1.Size = C.sizeofPerfEventAttrVer5) ∧ leaderFirst row

/-- The answers of a run that went through all `n` CPUs: `n` rows, each with
one successful answer per descriptor. -/
def rowsComplete (eas : List Ptr) (n : Nat) (rows : List (List (EventAttr × Res Fd))) : Prop :=
  rows.length = n ∧ ∀ row ∈ rows, row.length = eas.length ∧ allOk row

/-- Every answer of the list but the last is a success. -/
def okButLast (rs : List (EventAttr × Res Fd)) : Prop :=
  ∀ j r, rs[j]? = some r → j + 1 < rs.length → ∃ fd, r.2 = Res.ok fd

/-- The answers of a run that went from one `open` call to the next only after
a success: every row but the last has one successful answer per descriptor,
and within a row every answer but the last is a success. -/
def rowsInOrder (eas : List Ptr) (rows : List (List (EventAttr × Res Fd))) : Prop :=
  (∀ i row, rows[i]? = some row → i + 1 < rows.length →
    row.length = eas.length ∧ allOk row) ∧
  ∀ row ∈ rows, okButLast row



/-- A run that has not crashed, on a heap of `len` objects with `n` group
handles. -/
def noCrash {σ : Type} (len n : Nat) (r : Status × St σ) : Prop :=
  r.1 ≠ Status.crashed ∧ r.2.heap.length = len ∧ r.2.p.groupFds.length = n

/-! # Proofs -/

/-! ## The sample handler of the spectre example -/

theorem sub64_wrap (p inc : Nat) (hp : p < 2 ^ 64) (hi : inc < 2 ^ 64) :
    sub64 ((p + inc) % 2 ^ 64) p = inc := by
  unfold sub64
  omega

theorem sub64_lt (a b : Nat) : sub64 a b < 2 ^ 64 := by
  unfold sub64
  omega

theorem attributeValue_of_config (C : Consts) (registry : eventAttrMap) (heap : Heap)
    (v : CounterValue) (c : Counts) (k : Nat)
    (h : resolvedConfig registry heap v = some k) :
    attributeValue C registry heap v c =
      if k = C.PERF_COUNT_HW_INSTRUCTIONS then (Status.running, { c with i := v.Value })
      else if k = llcReadAccess C then (Status.running, { c with cr := v.Value })
      else if k = llcReadMiss C then (Status.running, { c with cm := v.Value })
      else (Status.fatal unknownConfig, c) := by
  unfold resolvedConfig at h
  unfold attributeValue
  cases hg : registry.get v.ID with
  | none => simp [hg] at h
  | some ea =>
    simp only [hg] at h ⊢
    cases hh : heap[ea]? with
    | none => simp [hh] at h
    | some a =>
      simp only [hh, Option.map_some', Option.some.injEq] at h ⊢
      subst h
      rfl

theorem attributeValue_known (C : Consts) (registry : eventAttrMap) (heap : Heap)
    (v : CounterValue) (c : Counts)
    (h : resolvedConfig registry heap v ∈ knownConfigs C) :
    ∃ k, resolvedConfig registry heap v = some k ∧
      attributeValue C registry heap v c = (Status.running, storeCount C k v.Value c) := by
  simp only [knownConfigs, List.mem_cons, List.mem_singleton, List.not_mem_nil, or_false] at h
  rcases h with h | h | h
  all_goals
    refine ⟨_, h, ?_⟩
    rw [attributeValue_of_config C registry heap v c _ h]
    unfold storeCount
    split_ifs <;> first | rfl | (exfalso; simp_all)

theorem storeCount_comm (C : Consts) (k k' a b : Nat) (c : Counts) (h : k ≠ k')
    (hk : some k ∈ knownConfigs C) (hk' : some k' ∈ knownConfigs C) :
    storeCount C k a (storeCount C k' b c) = storeCount C k' b (storeCount C k a c) := by
  simp only [knownConfigs, List.mem_cons, List.mem_singleton, List.not_mem_nil, or_false,
    Option.some.injEq] at hk hk'
  unfold storeCount
  split_ifs <;> first | rfl | (exfalso; simp_all)

theorem attributeValue_swap (C : Consts) (registry : eventAttrMap) (heap : Heap)
    (x y : CounterValue) (rest : List CounterValue) (c : Counts)
    (hx : resolvedConfig registry heap x ∈ knownConfigs C)
    (hy : resolvedConfig registry heap y ∈ knownConfigs C)
    (hxy : resolvedConfig registry heap x ≠ resolvedConfig registry heap y) :
    forEach (attributeValue C registry heap) (y :: x :: rest) c =
      forEach (attributeValue C registry heap) (x :: y :: rest) c := by
  obtain ⟨ky, hky, hy1⟩ := attributeValue_known C registry heap y c hy
  obtain ⟨kx, hkx, hx1⟩ := attributeValue_known C registry heap x c hx
  obtain ⟨_, hkx', hx2⟩ := attributeValue_known C registry heap x (storeCount C ky y.Value c) hx
  obtain ⟨_, hky', hy2⟩ := attributeValue_known C registry heap y (storeCount C kx x.Value c) hy
  rw [hkx] at hkx'
  rw [hky] at hky'
  cases hkx'
  cases hky'
  have hne : kx ≠ ky := by
    intro h
    apply hxy
    rw [hkx, hky, h]
  simp only [forEach, hy1, hx1, hx2, hy2]
  rw [storeCount_comm C kx ky _ _ c hne (hkx ▸ hx) (hky ▸ hy)]

theorem forEach_attributeValue_perm (C : Consts) (registry : eventAttrMap) (heap : Heap)
    (vs vs' : List CounterValue) (hperm : vs.Perm vs')
    (hk : ∀ v ∈ vs, resolvedConfig registry heap v ∈ knownConfigs C)
    (hnd : (vs.map (resolvedConfig registry heap)).Nodup) (c : Counts) :
    forEach (attributeValue C registry heap) vs c =
      forEach (attributeValue C registry heap) vs' c := by
  induction hperm generalizing c with
  | nil => rfl
  | cons x _ ih =>
    simp only [List.map_cons, List.nodup_cons] at hnd
    simp only [forEach]
    cases hb : attributeValue C registry heap x c with
    | mk s c1 =>
      cases s <;> simp only []
      exact ih (fun v hv => hk v (List.mem_cons_of_mem _ hv)) hnd.2 c1
  | swap x y l =>
    apply attributeValue_swap
    · exact hk x (by simp)
    · exact hk y (by simp)
    · simp only [List.map_cons, List.nodup_cons, List.mem_cons, not_or] at hnd
      exact fun h => hnd.1.1 h.symm
  | trans h1 _ ih1 ih2 =>
    rw [ih1 hk hnd c]
    exact ih2 (fun v hv => hk v (h1.mem_iff.mpr hv))
      ((h1.map _).nodup_iff.mp hnd) c

theorem forEach_append {α τ : Type} (body : α → τ → Status × τ) (l1 l2 : List α) (s : τ) :
    forEach body (l1 ++ l2) s =
      match forEach body l1 s with
      | (Status.running, s1) => forEach body l2 s1
      | r => r := by
  induction l1 generalizing s with
  | nil => rfl
  | cons x xs ih =>
    simp only [List.cons_append, forEach]
    cases hb : body x s with
    | mk st s1 =>
      cases st <;> simp only []
      exact ih s1

theorem forEach_attributeValue_running (C : Consts) (registry : eventAttrMap) (heap : Heap)
    (vs : List CounterValue)
    (hk : ∀ v ∈ vs, resolvedConfig registry heap v ∈ knownConfigs C) (c : Counts) :
    ∃ c1, forEach (attributeValue C registry heap) vs c = (Status.running, c1) := by
  induction vs generalizing c with
  | nil => exact ⟨c, rfl⟩
  | cons x xs ih =>
    obtain ⟨k, _, hx⟩ := attributeValue_known C registry heap x c (hk x (by simp))
    simp only [forEach, hx]
    exact ih (fun v hv => hk v (List.mem_cons_of_mem _ hv)) _

theorem forEach_attributeValue_last (C : Consts) (registry : eventAttrMap) (heap : Heap)
    (vs : List CounterValue) (v : CounterValue) (hv : v ∈ vs)
    (hk : ∀ v ∈ vs, resolvedConfig registry heap v ∈ knownConfigs C)
    (hnd : (vs.map (resolvedConfig registry heap)).Nodup) (c : Counts) :
    ∃ k c1, resolvedConfig registry heap v = some k ∧
      forEach (attributeValue C registry heap) vs c =
        (Status.running, storeCount C k v.Value c1) := by
  have hp : vs.Perm (vs.erase v ++ [v]) :=
    (List.perm_cons_erase hv).trans (List.perm_append_singleton v (vs.erase v)).symm
  rw [forEach_attributeValue_perm C registry heap vs _ hp hk hnd c, forEach_append]
  obtain ⟨c1, hc1⟩ := forEach_attributeValue_running C registry heap (vs.erase v)
    (fun w hw => hk w (List.mem_of_mem_erase hw)) c
  obtain ⟨k, hk1, hk2⟩ := attributeValue_known C registry heap v c1 (hk v hv)
  refine ⟨k, c1, hk1, ?_⟩
  simp only [hc1, forEach, hk2]

/-- C8: the handler of the spectre example attributes the grouped values of a
sample by identifier, not by position. When every value of the sample resolves
through the registry and the selectors they resolve to are the three selectors
of `main`, each once (the three being different numbers), the handler returns
the same status, totals, counts and deltas for every permutation of the values;
and the count it stores for a descriptor is the value that carries that
descriptor's identifier. -/
theorem handler_attributes_by_identifier (C : Consts) (registry : eventAttrMap) (heap : Heap)
    (t : Totals) (cpu : Nat) (sr : SampleRecord) (vs' : List CounterValue)
    (hperm : sr.Values.Perm vs')
    (hres : (sr.Values.map (resolvedConfig registry heap)).Perm (knownConfigs C))
    (hdist : (knownConfigs C).Nodup) :
    handler C registry heap t { CPU := cpu, Record := Record.sample { sr with Values := vs' } } =
      handler C registry heap t { CPU := cpu, Record := Record.sample sr } ∧
    ∀ v ∈ sr.Values,
      (resolvedConfig registry heap v = some C.PERF_COUNT_HW_INSTRUCTIONS →
        (handler C registry heap t { CPU := cpu, Record := Record.sample sr }).2.2.1.i
          = v.Value) ∧
      (resolvedConfig registry heap v = some (llcReadAccess C) →
        (handler C registry heap t { CPU := cpu, Record := Record.sample sr }).2.2.1.cr
          = v.Value) ∧
      (resolvedConfig registry heap v = some (llcReadMiss C) →
        (handler C registry heap t { CPU := cpu, Record := Record.sample sr }).2.2.1.cm
          = v.Value) := by
  have hk : ∀ v ∈ sr.Values, resolvedConfig registry heap v ∈ knownConfigs C := fun v hv =>
    hres.mem_iff.mp (List.mem_map_of_mem _ hv)
  have hnd : (sr.Values.map (resolvedConfig registry heap)).Nodup := hres.nodup_iff.mpr hdist
  constructor
  · simp only [handler]
    rw [← forEach_attributeValue_perm C registry heap sr.Values vs' hperm hk hnd]
  · intro v hv
    obtain ⟨k, c1, hk1, hk2⟩ :=
      forEach_attributeValue_last C registry heap sr.Values v hv hk hnd {}
    simp only [knownConfigs, List.nodup_cons, List.mem_cons, List.mem_singleton,
      List.not_mem_nil, or_false, not_or, Option.some.injEq, List.nodup_nil, and_true,
      not_false_eq_true] at hdist
    obtain ⟨⟨h12, h13⟩, h23⟩ := hdist
    have hcounts : (handler C registry heap t
        { CPU := cpu, Record := Record.sample sr }).2.2.1 = storeCount C k v.Value c1 := by
      simp only [handler, hk2]
      split <;> rfl
    rw [hcounts, hk1]
    simp only [Option.some.injEq]
    refine ⟨?_, ?_, ?_⟩ <;> intro h <;> subst h <;> unfold storeCount
    · simp
    · rw [if_neg (Ne.symm h12), if_pos rfl]
    · rw [if_neg (Ne.symm h13), if_neg (Ne.symm h23)]

/-- C9: the handler computes each delta as current minus previous in `uint64`
arithmetic. Whenever it runs to its end on a sample record, for a previous
total `p` and a true increment `inc`, both below `2^64`, a count read as
`(p + inc) mod 2^64` gives the delta `inc`, also when the counter wrapped;
every delta is a `uint64`, never negative; and the counts read become the
previous totals of that CPU for its next sample. -/
theorem handler_delta_wraparound (C : Consts) (registry : eventAttrMap) (heap : Heap)
    (t t' : Totals) (sample : Sample) (sr : SampleRecord) (c : Counts) (d : Deltas)
    (hsr : sample.Record = Record.sample sr)
    (hrun : handler C registry heap t sample = (Status.running, t', c, d)) :
    (d.di < 2 ^ 64 ∧ d.dcr < 2 ^ 64 ∧ d.dcm < 2 ^ 64) ∧
    (t'.instructions[sample.CPU]? = some c.i ∧ t'.cacheReferences[sample.CPU]? = some c.cr ∧
      t'.cacheMisses[sample.CPU]? = some c.cm) ∧
    ∀ p inc : Nat, p < 2 ^ 64 → inc < 2 ^ 64 →
      (t.instructions[sample.CPU]? = some p → c.i = (p + inc) % 2 ^ 64 → d.di = inc) ∧
      (t.cacheReferences[sample.CPU]? = some p → c.cr = (p + inc) % 2 ^ 64 → d.dcr = inc) ∧
      (t.cacheMisses[sample.CPU]? = some p → c.cm = (p + inc) % 2 ^ 64 → d.dcm = inc) := by
  unfold handler at hrun
  rw [hsr] at hrun
  simp only [] at hrun
  split at hrun
  · split at hrun
    · rename_i c0 _ pi pcr pcm h1 h2 h3
      simp only [Prod.mk.injEq, true_and] at hrun
      obtain ⟨ht, hc, hd⟩ := hrun
      subst hc
      subst hd
      subst ht
      have l1 := (List.getElem?_eq_some.mp h1).1
      have l2 := (List.getElem?_eq_some.mp h2).1
      have l3 := (List.getElem?_eq_some.mp h3).1
      refine ⟨⟨sub64_lt _ _, sub64_lt _ _, sub64_lt _ _⟩, ⟨?_, ?_, ?_⟩, ?_⟩
      · simp [l1]
      · simp [l2]
      · simp [l3]
      intro p inc hp hinc
      refine ⟨?_, ?_, ?_⟩
      · intro hp1 hc1
        rw [h1, Option.some.injEq] at hp1
        subst hp1
        simp only [hc1]
        exact sub64_wrap _ inc hp hinc
      · intro hp1 hc1
        rw [h2, Option.some.injEq] at hp1
        subst hp1
        simp only [hc1]
        exact sub64_wrap _ inc hp hinc
      · intro hp1 hc1
        rw [h3, Option.some.injEq] at hp1
        subst hp1
        simp only [hc1]
        exact sub64_wrap _ inc hp hinc
    · simp at hrun
  · rename_i r c0 hne _
    simp only [Prod.mk.injEq] at hrun
    exact (hne hrun.1).elim

theorem handler_attributes_by_identifier_witness :
    handler linuxConsts demoRegistry (spectreEventAttrs linuxConsts) ⟨[0], [0], [0]⟩
        { CPU := 0, Record := Record.sample
            { demoRecord with Values := [⟨3, 10⟩, ⟨7, 11⟩, ⟨1, 12⟩] } } =
      handler linuxConsts demoRegistry (spectreEventAttrs linuxConsts) ⟨[0], [0], [0]⟩
        { CPU := 0, Record := Record.sample demoRecord } ∧
    (handler linuxConsts demoRegistry (spectreEventAttrs linuxConsts) ⟨[0], [0], [0]⟩
        { CPU := 0, Record := Record.sample demoRecord }).2.2.1.i = 3 :=
  have h := handler_attributes_by_identifier linuxConsts demoRegistry
    (spectreEventAttrs linuxConsts) ⟨[0], [0], [0]⟩ 0 demoRecord
    [⟨3, 10⟩, ⟨7, 11⟩, ⟨1, 12⟩] (by decide) (by decide) (by decide)
  ⟨h.1, (h.2 ⟨3, 10⟩ (by decide)).1 (by decide)⟩

theorem handler_delta_wraparound_witness :
    handler linuxConsts demoRegistry (spectreEventAttrs linuxConsts) ⟨[2 ^ 64 - 5], [0], [0]⟩
        { CPU := 0, Record := Record.sample demoRecord } =
      (Status.running, ⟨[3], [7], [1]⟩, ⟨3, 7, 1⟩, ⟨8, 7, 1⟩) ∧
    (3 = (2 ^ 64 - 5 + 8) % 2 ^ 64 → (⟨8, 7, 1⟩ : Deltas).di = 8) :=
  ⟨by decide,
    ((handler_delta_wraparound linuxConsts demoRegistry (spectreEventAttrs linuxConsts)
      ⟨[2 ^ 64 - 5], [0], [0]⟩ ⟨[3], [7], [1]⟩ { CPU := 0, Record := Record.sample demoRecord }
      demoRecord ⟨3, 7, 1⟩ ⟨8, 7, 1⟩ rfl (by decide)).2.2 (2 ^ 64 - 5) 8
      (by decide) (by decide)).1 (by decide)⟩

/-! ## The dispatcher: `Run` and `readSample` -/

theorem forEach_status {α τ : Type} (P : Status → Prop) (body : α → τ → Status × τ)
    (hrun : P Status.running) (hb : ∀ x s, P (body x s).1) (l : List α) (s : τ) :
    P (forEach body l s).1 := by
  induction l generalizing s with
  | nil => exact hrun
  | cons x xs ih =>
    simp only [forEach]
    have hx := hb x s
    cases hbx : body x s with
    | mk st s1 =>
      rw [hbx] at hx
      cases st with
      | running => exact ih s1
      | returned e => exact hx
      | fatal e => exact hx
      | crashed => exact hx

theorem readSample_noReturn {σ : Type} (K : Kernel σ) (data : Frame) (st : St σ) :
    (readSample K data st).1.noReturn := by
  intro e
  unfold readSample
  split
  · simp
  · split
    · simp
    · simp only []
      split <;> simp

theorem drainOne_noReturn {σ : Type} (K : Kernel σ) (ifd : Nat × PollFd) (st : St σ) :
    (drainOne K ifd st).1.noReturn := by
  unfold drainOne
  split
  · split
    · intro e; simp
    · exact forEach_status Status.noReturn _ (fun e => by simp) (readSample_noReturn K) _ _
  · intro e; simp

theorem enableOne_noReturn {σ : Type} (K : Kernel σ) (ifd : Nat × Int)
    (s : St σ × List PollFd) : (enableOne K ifd s).1.noReturn := by
  intro e
  unfold enableOne
  simp only []
  cases (K.enable s.1.k ifd.2).1 with
  | some e1 => simp
  | none => cases s.2[ifd.1]? <;> simp

theorem runLoop_returned {σ : Type} (K : Kernel σ) (fuel : Nat) (pollFds : List PollFd)
    (st st' : St σ) (e : Option GoError)
    (h : runLoop K fuel pollFds st = (Status.returned e, st')) :
    ∃ errno fds r, e = some errno ∧ errno ≠ EINTR ∧
      st'.trace.getLast? = some (Event.poll fds (-1) r) ∧ r.err = some errno := by
  induction fuel generalizing pollFds st with
  | zero => simp [runLoop] at h
  | succ n ih =>
    unfold runLoop at h
    simp only [] at h
    split_ifs at h with h1 h2
    · simp only [Prod.mk.injEq, Status.returned.injEq] at h
      obtain ⟨he, hst⟩ := h
      cases hr : (K.poll st.k pollFds (-1)).1.err with
      | none => exact absurd hr h1.1
      | some errno =>
        refine ⟨errno, pollFds, (K.poll st.k pollFds (-1)).1, ?_, ?_, ?_, hr⟩
        · rw [← he, hr]
        · intro hE
          apply h1.2
          rw [hr, hE]
        · rw [← hst]
          simp
    · split at h
      · exact ih _ _ h
      · rename_i res hne
        have hn := forEach_status Status.noReturn (drainOne K) (fun e => by simp)
          (drainOne_noReturn K)
          (writeRevents pollFds (K.poll st.k pollFds (-1)).1.revents).enum
          { st with k := (K.poll st.k pollFds (-1)).2,
                    trace := st.trace ++ [Event.poll pollFds (-1) (K.poll st.k pollFds (-1)).1] }
        rw [h] at hn
        exact absurd rfl (hn e)
    · exact ih _ _ h

theorem Run_returned {σ : Type} (K : Kernel σ) (onSample : Option Nat) (fuel : Nat)
    (st st' : St σ) (e : Option GoError)
    (h : Run K onSample fuel st = (Status.returned e, st')) :
    ∃ errno fds r, e = some errno ∧ errno ≠ EINTR ∧
      st'.trace.getLast? = some (Event.poll fds (-1) r) ∧ r.err = some errno := by
  unfold Run at h
  simp only [] at h
  split at h
  · exact runLoop_returned K fuel _ _ _ e h
  · rename_i r s hne heq
    have hn := forEach_status Status.noReturn (enableOne K) (fun e => by simp)
      (enableOne_noReturn K) ({ st with p := { st.p with onSample := onSample } }).p.groupFds.enum
      ({ st with p := { st.p with onSample := onSample } },
        List.replicate ({ st with p := { st.p with onSample := onSample } }).p.groupFds.length {})
    rw [heq] at hn
    simp only [Prod.mk.injEq] at h
    exact absurd h.1 (hn e)

theorem readSample_handled {σ : Type} (K : Kernel σ) (h : Nat) (f : Frame) (s : Sample)
    (st : St σ) (hh : st.p.onSample = some h)
    (hd : K.decode f st.p.EventAttrsByFormatID st.heap = Res.ok s) :
    readSample K f st =
      (endStatus (K.onSample st.k h st.p.EventAttrsByFormatID st.heap s).1.ended,
        handledState K h s st) := by
  unfold readSample
  simp only [hd, hh]
  cases hr : (K.onSample st.k h st.p.EventAttrsByFormatID st.heap s).1.ended with
  | none => simp only [endStatus, handledState, hr, hh]
  | some en => cases en <;> simp only [endStatus, handledState, hr, hh]

theorem readSample_ok {σ : Type} (K : Kernel σ) (h : Nat) (f : Frame) (s : Sample) (st : St σ)
    (hh : st.p.onSample = some h)
    (hd : K.decode f st.p.EventAttrsByFormatID st.heap = Res.ok s)
    (hr : (K.onSample st.k h st.p.EventAttrsByFormatID st.heap s).1.ended = none) :
    readSample K f st = (Status.running, handledState K h s st) := by
  rw [readSample_handled K h f s st hh hd, hr]
  rfl

theorem readSample_error {σ : Type} (K : Kernel σ) (f : Frame) (e : GoError) (st : St σ)
    (hd : K.decode f st.p.EventAttrsByFormatID st.heap = Res.error e) :
    readSample K f st = (Status.fatal e, st) := by
  unfold readSample
  simp only [hd]

theorem forEach_readSample_running {σ : Type} (K : Kernel σ) (h : Nat) (frames : List Frame)
    (st st2 : St σ) (hh : st.p.onSample = some h)
    (hrun : forEach (readSample K) frames st = (Status.running, st2)) :
    ∃ fs : List (Frame × Sample), fs.map Prod.fst = frames ∧
      (∀ x ∈ fs, ∃ m hp, K.decode x.1 m hp = Res.ok x.2) ∧
      st2.trace = st.trace ++ fs.map (fun x => Event.onSample h x.2 none) ∧
      st2.p.ringBuffers = st.p.ringBuffers ∧ st2.p.onSample = st.p.onSample ∧
      (K.handlerReadsOnly →
        st2.p.EventAttrsByFormatID = st.p.EventAttrsByFormatID ∧ st2.heap = st.heap ∧
        ∀ x ∈ fs, K.decode x.1 st.p.EventAttrsByFormatID st.heap = Res.ok x.2) := by
  induction frames generalizing st with
  | nil =>
    simp only [forEach, Prod.mk.injEq, true_and] at hrun
    subst hrun
    exact ⟨[], rfl, by simp, by simp, rfl, rfl, fun _ => ⟨rfl, rfl, by simp⟩⟩
  | cons f rest ih =>
    simp only [forEach] at hrun
    cases hd : K.decode f st.p.EventAttrsByFormatID st.heap with
    | error e => simp [readSample_error K f e st hd] at hrun
    | ok s =>
      rw [readSample_handled K h f s st hh hd] at hrun
      cases hr : (K.onSample st.k h st.p.EventAttrsByFormatID st.heap s).1.ended with
      | some en => cases en <;> simp [hr, endStatus] at hrun
      | none =>
        simp only [hr, endStatus] at hrun
        obtain ⟨fs, hfs, hdec, htr, hrb, hon, hfix⟩ := ih (handledState K h s st) hh hrun
        refine ⟨(f, s) :: fs, by simp [hfs], ?_, ?_, hrb, hon, ?_⟩
        · intro x hx
          rcases List.mem_cons.mp hx with rfl | hx
          · exact ⟨_, _, hd⟩
          · exact hdec x hx
        · rw [htr]
          simp [handledState, hr]
        · intro hro
          obtain ⟨e1, e2, e3⟩ := hfix hro
          have hm : (handledState K h s st).p.EventAttrsByFormatID =
              st.p.EventAttrsByFormatID := (hro _ _ _ _ _).1
          have hp : (handledState K h s st).heap = st.heap := (hro _ _ _ _ _).2
          refine ⟨e1.trans hm, e2.trans hp, ?_⟩
          intro x hx
          rcases List.mem_cons.mp hx with rfl | hx
          · exact hd
          · have h3 := e3 x hx
            rw [hm, hp] at h3
            exact h3

theorem forEach_drainOne_running {σ : Type} (K : Kernel σ) (h : Nat)
    (l : List (Nat × PollFd)) (st st2 : St σ) (hh : st.p.onSample = some h)
    (hrun : forEach (drainOne K) l st = (Status.running, st2)) :
    ∃ yields : List (RingBuffer × List (Frame × Sample)),
      st2.trace = st.trace ++ yields.flatMap (readEvents h) ∧
      st2.p.ringBuffers = st.p.ringBuffers ∧ st2.p.onSample = st.p.onSample ∧
      yields.map (fun y => some y.1) =
        (l.filter (fun x => x.2.Revents &&& POLLIN ≠ 0)).map
          (fun x => st.p.ringBuffers[x.1]?) ∧
      (∀ y ∈ yields, ∃ k, (K.ringRead k y.1).1 = y.2.map Prod.fst) ∧
      (∀ y ∈ yields, ∀ x ∈ y.2, ∃ m hp, K.decode x.1 m hp = Res.ok x.2) ∧
      (K.handlerReadsOnly →
        st2.p.EventAttrsByFormatID = st.p.EventAttrsByFormatID ∧ st2.heap = st.heap ∧
        ∀ y ∈ yields, ∀ x ∈ y.2,
          K.decode x.1 st.p.EventAttrsByFormatID st.heap = Res.ok x.2) := by
  induction l generalizing st with
  | nil =>
    simp only [forEach, Prod.mk.injEq, true_and] at hrun
    subst hrun
    exact ⟨[], by simp, rfl, rfl, by simp, by simp, by simp, fun _ => ⟨rfl, rfl, by simp⟩⟩
  | cons x rest ih =>
    simp only [forEach] at hrun
    cases hd : drainOne K x st with
    | mk s st1 =>
      rw [hd] at hrun
      cases s with
      | running =>
        simp only [] at hrun
        unfold drainOne at hd
        by_cases hp : x.2.Revents &&& POLLIN ≠ 0
        · rw [if_pos hp] at hd
          cases hrb : st.p.ringBuffers[x.1]? with
          | none => simp [hrb] at hd
          | some rb =>
            simp only [hrb] at hd
            obtain ⟨fs, hfs, hdec, htr1, hrb1, hon1, hfix1⟩ := forEach_readSample_running K h
              (K.ringRead st.k rb).1
              { st with k := (K.ringRead st.k rb).2,
                        trace := st.trace ++ [Event.ringRead rb (K.ringRead st.k rb).1] }
              st1 hh hd
            have hrb1 : st1.p.ringBuffers = st.p.ringBuffers := hrb1
            have hh1 : st1.p.onSample = some h := by rw [hon1]; exact hh
            obtain ⟨ys, htr, hrb2, hon2, hmap, hread2, hdec2, hfix2⟩ := ih st1 hh1 hrun
            refine ⟨(rb, fs) :: ys, ?_, hrb2.trans hrb1, hon2.trans hon1, ?_, ?_, ?_, ?_⟩
            · rw [htr, htr1]
              simp [readEvents, hfs]
            · rw [List.filter_cons_of_pos (by simpa using hp)]
              simp only [List.map_cons, hrb, hmap, hrb1]
            · intro y hy
              rcases List.mem_cons.mp hy with rfl | hy
              · exact ⟨st.k, hfs.symm⟩
              · exact hread2 y hy
            · intro y hy
              rcases List.mem_cons.mp hy with rfl | hy
              · exact hdec
              · exact hdec2 y hy
            · intro hro
              obtain ⟨a1, a2, a3⟩ := hfix1 hro
              obtain ⟨b1, b2, b3⟩ := hfix2 hro
              have a1 : st1.p.EventAttrsByFormatID = st.p.EventAttrsByFormatID := a1
              have a2 : st1.heap = st.heap := a2
              refine ⟨b1.trans a1, b2.trans a2, ?_⟩
              intro y hy
              rcases List.mem_cons.mp hy with rfl | hy
              · exact a3
              · intro z hz
                have h3 := b3 y hy z hz
                rw [a1, a2] at h3
                exact h3
        · rw [if_neg hp] at hd
          simp only [Prod.mk.injEq, true_and] at hd
          subst hd
          obtain ⟨ys, htr, hrb2, hon2, hmap, hread2, hdec2, hfix2⟩ := ih st hh hrun
          refine ⟨ys, htr, hrb2, hon2, ?_, hread2, hdec2, hfix2⟩
          rw [List.filter_cons_of_neg (by simpa using hp)]
          exact hmap
      | returned e => simp at hrun
      | fatal e => simp at hrun
      | crashed => simp at hrun

theorem forEach_readSample_completes {σ : Type} (K : Kernel σ)
    (hdec : ∀ f m hp, ∃ s, K.decode f m hp = Res.ok s)
    (hret : ∀ k h m hp s, (K.onSample k h m hp s).1.ended = none)
    (frames : List Frame) (st : St σ) :
    ∃ st2, forEach (readSample K) frames st = (Status.running, st2) ∧
      st2.p.ringBuffers = st.p.ringBuffers := by
  induction frames generalizing st with
  | nil => exact ⟨st, rfl, rfl⟩
  | cons f rest ih =>
    obtain ⟨s, hs⟩ := hdec f st.p.EventAttrsByFormatID st.heap
    simp only [forEach]
    cases hh : st.p.onSample with
    | none =>
      have h1 : readSample K f st = (Status.running, st) := by
        unfold readSample
        simp only [hs, hh]
      rw [h1]
      exact ih st
    | some h =>
      rw [readSample_ok K h f s st hh hs (hret _ _ _ _ _)]
      obtain ⟨st2, h2, h3⟩ := ih (handledState K h s st)
      exact ⟨st2, h2, h3⟩

theorem forEach_drainOne_completes {σ : Type} (K : Kernel σ)
    (hdec : ∀ f m hp, ∃ s, K.decode f m hp = Res.ok s)
    (hret : ∀ k h m hp s, (K.onSample k h m hp s).1.ended = none)
    (l : List (Nat × PollFd)) (st : St σ)
    (hl : ∀ x ∈ l, x.1 < st.p.ringBuffers.length) :
    ∃ st2, forEach (drainOne K) l st = (Status.running, st2) := by
  induction l generalizing st with
  | nil => exact ⟨st, rfl⟩
  | cons x rest ih =>
    simp only [forEach]
    have hx : x.1 < st.p.ringBuffers.length := hl x (by simp)
    by_cases hp : x.2.Revents &&& POLLIN ≠ 0
    · obtain ⟨st1, h1, h2⟩ := forEach_readSample_completes K hdec hret
        (K.ringRead st.k (st.p.ringBuffers[x.1])).1
        { st with k := (K.ringRead st.k (st.p.ringBuffers[x.1])).2,
                  trace := st.trace ++ [Event.ringRead (st.p.ringBuffers[x.1])
                    (K.ringRead st.k (st.p.ringBuffers[x.1])).1] }
      have h2 : st1.p.ringBuffers = st.p.ringBuffers := h2
      have hd : drainOne K x st = (Status.running, st1) := by
        unfold drainOne
        rw [if_pos hp]
        simp only [List.getElem?_eq_getElem hx]
        exact h1
      rw [hd]
      exact ih st1 (fun y hy => by rw [h2]; exact hl y (List.mem_cons_of_mem _ hy))
    · have hd : drainOne K x st = (Status.running, st) := by
        unfold drainOne
        rw [if_neg hp]
      rw [hd]
      exact ih st (fun y hy => hl y (List.mem_cons_of_mem _ hy))

theorem runLoop_succ_of_drain {σ : Type} (K : Kernel σ) (fuel : Nat) (pollFds : List PollFd)
    (st st2 : St σ)
    (hn : 0 < (K.poll st.k pollFds (-1)).1.n)
    (herr : (K.poll st.k pollFds (-1)).1.err = none ∨
      (K.poll st.k pollFds (-1)).1.err = some EINTR)
    (hrun : forEach (drainOne K) (waitFds K pollFds st).enum (waitState K pollFds st) =
      (Status.running, st2)) :
    runLoop K (fuel + 1) pollFds st = runLoop K fuel (waitFds K pollFds st) st2 := by
  have hc : ¬ ((K.poll st.k pollFds (-1)).1.err ≠ none ∧
      (K.poll st.k pollFds (-1)).1.err ≠ some EINTR) := by
    rintro ⟨h1, h2⟩
    rcases herr with h | h
    · exact h1 h
    · exact h2 h
  unfold waitFds waitState at hrun
  rw [runLoop, if_neg hc, if_pos hn, hrun]
  rfl

theorem writeRevents_length (pollFds : List PollFd) (revents : List Nat) :
    (writeRevents pollFds revents).length = pollFds.length := by
  simp [writeRevents]

/-- C7 (amended): one wakeup of the loop of `Run` with a handler `h`, a wait
that reports `n > 0` and no error other than `EINTR`. If the drain of that
wakeup runs to its end, which it does whenever every frame decodes, every call
of the handler returns and `ringBuffers` is as long as `pollFds`, then the
calls made after the wait are, for each position whose `Revents` has `POLLIN`
and by increasing position, the read of the ring buffer at that position
followed by one call of the handler per frame that read yields, in the order
it yields them, on the decoded frame, each of which returned; nothing else is
called, and the next wait starts from the state so reached. When the handler
writes neither the registry nor a descriptor, each frame is decoded against
the registry and the descriptors of the start of the wakeup. -/
theorem Run_wakeup_delivers {σ : Type} (K : Kernel σ) (fuel : Nat) (pollFds : List PollFd)
    (st : St σ) (h : Nat)
    (hh : st.p.onSample = some h)
    (hn : 0 < (K.poll st.k pollFds (-1)).1.n)
    (herr : (K.poll st.k pollFds (-1)).1.err = none ∨
      (K.poll st.k pollFds (-1)).1.err = some EINTR) :
    (∀ st2, forEach (drainOne K) (waitFds K pollFds st).enum (waitState K pollFds st) =
        (Status.running, st2) →
      runLoop K (fuel + 1) pollFds st = runLoop K fuel (waitFds K pollFds st) st2 ∧
      ∃ yields : List (RingBuffer × List (Frame × Sample)),
        st2.trace = st.trace ++ [Event.poll pollFds (-1) (K.poll st.k pollFds (-1)).1] ++
          yields.flatMap (readEvents h) ∧
        yields.map (fun y => some y.1) =
          readyBuffers st.p.ringBuffers (waitFds K pollFds st) ∧
        (∀ y ∈ yields, ∃ k, (K.ringRead k y.1).1 = y.2.map Prod.fst) ∧
        (∀ y ∈ yields, ∀ x ∈ y.2, ∃ m hp, K.decode x.1 m hp = Res.ok x.2) ∧
        (K.handlerReadsOnly → ∀ y ∈ yields, ∀ x ∈ y.2,
          K.decode x.1 st.p.EventAttrsByFormatID st.heap = Res.ok x.2)) ∧
    ((∀ f m hp, ∃ s, K.decode f m hp = Res.ok s) →
      (∀ k g m hp s, (K.onSample k g m hp s).1.ended = none) →
      pollFds.length ≤ st.p.ringBuffers.length →
      ∃ st2, forEach (drainOne K) (waitFds K pollFds st).enum (waitState K pollFds st) =
        (Status.running, st2)) := by
  constructor
  · intro st2 hrun
    refine ⟨runLoop_succ_of_drain K fuel pollFds st st2 hn herr hrun, ?_⟩
    obtain ⟨ys, htr, _, _, hmap, hread, hdec, hfix⟩ :=
      forEach_drainOne_running K h _ (waitState K pollFds st) st2 hh hrun
    exact ⟨ys, htr, hmap, hread, hdec, fun hro => (hfix hro).2.2⟩
  · intro hdec hret hlen
    apply forEach_drainOne_completes K hdec hret
    intro x hx
    have h1 := List.fst_lt_of_mem_enum hx
    rw [waitFds, writeRevents_length] at h1
    exact lt_of_lt_of_le h1 hlen

theorem St.continuedBy_refl {σ : Type} (a : St σ) : a.continuedBy a := ⟨[], by simp⟩

theorem St.continuedBy_trans {σ : Type} (a b c : St σ) (h1 : a.continuedBy b) (h2 : b.continuedBy c) :
    a.continuedBy c := by
  obtain ⟨r1, h1⟩ := h1
  obtain ⟨r2, h2⟩ := h2
  exact ⟨r1 ++ r2, by rw [h2, h1, List.append_assoc]⟩

theorem forEach_rel {α τ : Type} (R : τ → τ → Prop) (hrefl : ∀ s, R s s)
    (htrans : ∀ a b c, R a b → R b c → R a c) (body : α → τ → Status × τ)
    (hb : ∀ x s, R s (body x s).2) (l : List α) (s : τ) : R s (forEach body l s).2 := by
  induction l generalizing s with
  | nil => exact hrefl s
  | cons x xs ih =>
    simp only [forEach]
    have hx := hb x s
    cases hbx : body x s with
    | mk st s1 =>
      rw [hbx] at hx
      cases st with
      | running => exact htrans _ _ _ hx (ih s1)
      | returned e => exact hx
      | fatal e => exact hx
      | crashed => exact hx

theorem readSample_continuedBy {σ : Type} (K : Kernel σ) (data : Frame) (st : St σ) :
    st.continuedBy (readSample K data st).2 := by
  unfold readSample
  cases K.decode data st.p.EventAttrsByFormatID st.heap with
  | error e => exact St.continuedBy_refl st
  | ok s =>
    cases st.p.onSample with
    | none => exact St.continuedBy_refl st
    | some h =>
      simp only []
      split <;> exact ⟨_, rfl⟩

theorem drainOne_continuedBy {σ : Type} (K : Kernel σ) (ifd : Nat × PollFd) (st : St σ) :
    st.continuedBy (drainOne K ifd st).2 := by
  unfold drainOne
  split
  · cases st.p.ringBuffers[ifd.1]? with
    | none => exact St.continuedBy_refl st
    | some rb =>
      simp only []
      refine St.continuedBy_trans _ _ _ ?_
        (forEach_rel St.continuedBy St.continuedBy_refl St.continuedBy_trans _ (readSample_continuedBy K) _ _)
      exact ⟨[Event.ringRead rb (K.ringRead st.k rb).1], rfl⟩
  · exact St.continuedBy_refl st

theorem runLoop_continuedBy {σ : Type} (K : Kernel σ) (fuel : Nat) (pollFds : List PollFd)
    (st : St σ) : st.continuedBy (runLoop K fuel pollFds st).2 := by
  induction fuel generalizing pollFds st with
  | zero => exact St.continuedBy_refl st
  | succ n ih =>
    have h0 : st.continuedBy (waitState K pollFds st) := ⟨_, rfl⟩
    rw [runLoop]
    split_ifs with h1 h2
    · exact h0
    · have hd := forEach_rel St.continuedBy St.continuedBy_refl St.continuedBy_trans _ (drainOne_continuedBy K)
        (writeRevents pollFds (K.poll st.k pollFds (-1)).1.revents).enum
        (waitState K pollFds st)
      unfold waitState at hd h0
      split
      · rename_i st2 heq
        rw [heq] at hd
        exact St.continuedBy_trans _ _ _ h0 (St.continuedBy_trans _ _ _ hd (ih _ _))
      · exact St.continuedBy_trans _ _ _ h0 hd
    · exact St.continuedBy_trans _ _ _ h0 (ih _ _)

theorem runLoop_eintr {σ : Type} (K : Kernel σ) (fuel : Nat) (pollFds : List PollFd) (st : St σ)
    (he : (K.poll st.k pollFds (-1)).1.err = some EINTR)
    (hn : (K.poll st.k pollFds (-1)).1.n = -1) :
    runLoop K (fuel + 1) pollFds st =
      runLoop K fuel (waitFds K pollFds st) (waitState K pollFds st) := by
  have hc : ¬ ((K.poll st.k pollFds (-1)).1.err ≠ none ∧
      (K.poll st.k pollFds (-1)).1.err ≠ some EINTR) := fun h => h.2 he
  have hn0 : ¬ 0 < (K.poll st.k pollFds (-1)).1.n := by rw [hn]; decide
  rw [runLoop, if_neg hc, if_neg hn0]
  rfl

theorem runLoop_error {σ : Type} (K : Kernel σ) (fuel : Nat) (pollFds : List PollFd) (st : St σ)
    (errno : GoError) (he : (K.poll st.k pollFds (-1)).1.err = some errno)
    (hne : errno ≠ EINTR) :
    runLoop K (fuel + 1) pollFds st =
      (Status.returned (some errno), waitState K pollFds st) := by
  have hc : (K.poll st.k pollFds (-1)).1.err ≠ none ∧
      (K.poll st.k pollFds (-1)).1.err ≠ some EINTR := by
    rw [he]
    exact ⟨by simp, by simpa using hne⟩
  rw [runLoop, if_pos hc, he]
  rfl

theorem runLoop_succ_continuedBy {σ : Type} (K : Kernel σ) (fuel : Nat) (pollFds : List PollFd)
    (st : St σ) : (waitState K pollFds st).continuedBy (runLoop K (fuel + 1) pollFds st).2 := by
  rw [runLoop]
  split_ifs with h1 h2
  · exact St.continuedBy_refl _
  · have hd := forEach_rel St.continuedBy St.continuedBy_refl St.continuedBy_trans _ (drainOne_continuedBy K)
      (writeRevents pollFds (K.poll st.k pollFds (-1)).1.revents).enum
      (waitState K pollFds st)
    unfold waitState at hd
    split
    · rename_i st2 heq
      rw [heq] at hd
      exact St.continuedBy_trans _ _ _ hd (runLoop_continuedBy K _ _ _)
    · exact hd
  · exact runLoop_continuedBy K _ _ _

/-- C6: `Run` returns only when a wait failed with an error other than `EINTR`,
and it returns that error: the last call before any return of `Run` is such a
wait, and a wait that fails so makes the loop return its error at once. A wait
that fails with `EINTR` and `n = -1` is followed by no read of a ring buffer
and no call of the handler, returns nothing, and the loop goes on to the next
iteration, whose first call is again the wait. -/
theorem Run_returns_only_on_wait_error {σ : Type} (K : Kernel σ) :
    (∀ onSample fuel (st st' : St σ) e, Run K onSample fuel st = (Status.returned e, st') →
      ∃ errno fds r, e = some errno ∧ errno ≠ EINTR ∧
        st'.trace.getLast? = some (Event.poll fds (-1) r) ∧ r.err = some errno) ∧
    (∀ fuel pollFds (st : St σ) errno,
      (K.poll st.k pollFds (-1)).1.err = some errno → errno ≠ EINTR →
      runLoop K (fuel + 1) pollFds st =
        (Status.returned (some errno), waitState K pollFds st)) ∧
    (∀ fuel pollFds (st : St σ),
      (K.poll st.k pollFds (-1)).1.err = some EINTR → (K.poll st.k pollFds (-1)).1.n = -1 →
      runLoop K (fuel + 1) pollFds st =
        runLoop K fuel (waitFds K pollFds st) (waitState K pollFds st) ∧
      (waitState K pollFds st).trace =
        st.trace ++ [Event.poll pollFds (-1) (K.poll st.k pollFds (-1)).1] ∧
      (waitState K (waitFds K pollFds st) (waitState K pollFds st)).continuedBy
        (runLoop K (fuel + 2) pollFds st).2) := by
  refine ⟨fun onSample fuel st st' e h => Run_returned K onSample fuel st st' e h,
    fun fuel pollFds st errno he hne => runLoop_error K fuel pollFds st errno he hne,
    fun fuel pollFds st he hn => ⟨runLoop_eintr K fuel pollFds st he hn, rfl, ?_⟩⟩
  rw [runLoop_eintr K (fuel + 1) pollFds st he hn]
  exact runLoop_succ_continuedBy K fuel _ _

theorem Run_returns_only_on_wait_error_witness :
    (Run eintrKernel none 2 runSt).1 = Status.returned (some 9) ∧
    (∃ errno fds r, some 9 = some errno ∧ errno ≠ EINTR ∧
      (Run eintrKernel none 2 runSt).2.trace.getLast? = some (Event.poll fds (-1) r) ∧
      r.err = some errno) ∧
    runLoop eintrKernel 2 runPollFds runSt =
      runLoop eintrKernel 1 (waitFds eintrKernel runPollFds runSt)
        (waitState eintrKernel runPollFds runSt) ∧
    runLoop eintrKernel 1 runPollFds (waitState eintrKernel runPollFds runSt) =
      (Status.returned (some 9),
        waitState eintrKernel runPollFds (waitState eintrKernel runPollFds runSt)) :=
  ⟨by decide,
    (Run_returns_only_on_wait_error eintrKernel).1 none 2 runSt
      (Run eintrKernel none 2 runSt).2 (some 9) (Prod.ext (by decide) rfl),
    ((Run_returns_only_on_wait_error eintrKernel).2.2 1 runPollFds runSt rfl rfl).1,
    (Run_returns_only_on_wait_error eintrKernel).2.1 0 runPollFds
      (waitState eintrKernel runPollFds runSt) 9 rfl (by decide)⟩

theorem Run_wakeup_delivers_witness :
    (runLoop readyKernel 1 runPollFds runSt).2.trace =
      [Event.poll runPollFds (-1) ⟨1, none, [0, POLLIN]⟩,
       Event.ringRead 60 [[60, 1], [60, 2]],
       Event.onSample 7 { CPU := 60 } none, Event.onSample 7 { CPU := 60 } none] ∧
    ∃ st2, forEach (drainOne readyKernel) (waitFds readyKernel runPollFds runSt).enum
        (waitState readyKernel runPollFds runSt) = (Status.running, st2) ∧
      runLoop readyKernel 1 runPollFds runSt =
        runLoop readyKernel 0 (waitFds readyKernel runPollFds runSt) st2 ∧
      ∃ yields : List (RingBuffer × List (Frame × Sample)),
        st2.trace = runSt.trace ++
            [Event.poll runPollFds (-1) (readyKernel.poll runSt.k runPollFds (-1)).1] ++
          yields.flatMap (readEvents 7) ∧
        yields.map (fun y => some y.1) =
          readyBuffers runSt.p.ringBuffers (waitFds readyKernel runPollFds runSt) ∧
        (∀ y ∈ yields, ∃ k, (readyKernel.ringRead k y.1).1 = y.2.map Prod.fst) ∧
        ∀ y ∈ yields, ∀ x ∈ y.2,
          readyKernel.decode x.1 runSt.p.EventAttrsByFormatID runSt.heap = Res.ok x.2 :=
  have h := Run_wakeup_delivers readyKernel 0 runPollFds runSt 7 rfl (by decide) (Or.inl rfl)
  ⟨by decide, (h.2 (fun _ _ _ => ⟨_, rfl⟩) (fun _ _ _ _ _ => rfl) (by decide)).elim
    (fun st2 h2 => ⟨st2, h2, (h.1 st2 h2).1,
      (h.1 st2 h2).2.elim (fun ys hy => ⟨ys, hy.1, hy.2.1, hy.2.2.1,
        hy.2.2.2.2 (fun _ _ _ _ _ => ⟨rfl, rfl⟩)⟩)⟩)⟩

/-- C7 as stated fails: the wait reports `n = 1` with `POLLIN` on the second
CPU, the ring buffer of that CPU yields two frames, the first does not decode,
and the process ends in `glog.Fatal` without one call of the handler. -/
theorem Run_wakeup_undecodable_frame :
    (Run garbledKernel (some 7) 1 runSt).1 = Status.fatal 22 ∧
    (Run garbledKernel (some 7) 1 runSt).2.trace =
      [Event.enable 3 none, Event.enable 6 none,
       Event.poll runPollFds (-1) ⟨1, none, [0, POLLIN]⟩,
       Event.ringRead 60 [[60, 1], [60, 2]]] := by
  decide

theorem readSample_handler_ends {σ : Type} (K : Kernel σ) (h : Nat) (f : Frame) (s : Sample)
    (st : St σ) (en : Ended) (hh : st.p.onSample = some h)
    (hd : K.decode f st.p.EventAttrsByFormatID st.heap = Res.ok s)
    (hr : (K.onSample st.k h st.p.EventAttrsByFormatID st.heap s).1.ended = some en) :
    (readSample K f st).1 ≠ Status.running ∧ (readSample K f st).1 = endStatus (some en) ∧
      (readSample K f st).2.trace = st.trace ++ [Event.onSample h s (some en)] := by
  rw [readSample_handled K h f s st hh hd, hr]
  refine ⟨?_, rfl, ?_⟩
  · cases en <;> simp [endStatus]
  · simp [handledState, hr]

/-- A handler that does not come back ends the drain: with the handler of
`main.go` and a frame whose identifier 30 is in no entry of the registry, the
handler dereferences nil on the first frame, the process crashes, and the
second frame of the ring buffer is never handed over. -/
theorem Run_wakeup_handler_panics :
    (Run spectreKernel (some 7) 1 spectreSt).1 = Status.crashed ∧
    (Run spectreKernel (some 7) 1 spectreSt).2.trace =
      [Event.enable 3 none,
       Event.poll [{ Fd := 3, Events := POLLIN }] (-1) ⟨1, none, [POLLIN]⟩,
       Event.ringRead 30 [[30, 1], [30, 2]],
       Event.onSample 7
         { CPU := 0, Record := Record.sample { Values := [⟨1, 30⟩] } }
         (some Ended.crashed)] := by
  decide

/-! ## The group manager: `Open` -/

theorem openOne_running {σ : Type} (K : Kernel σ) (C : Consts) (cpu : Nat) (ea : Ptr)
    (st st' : St σ) (h : openOne K C cpu ea st = (Status.running, st')) :
    ∃ a g fd streamID rb k, st.heap[ea]? = some a ∧ st.p.groupFds[cpu]? = some g ∧
      (g < 0 ↔ rb ≠ none) ∧
      st' = openedState C cpu ea a g fd streamID rb k st := by
  unfold openOne at h
  cases ha : st.heap[ea]? with
  | none => simp [ha] at h
  | some a =>
    cases hg : st.p.groupFds[cpu]? with
    | none => simp [ha, hg] at h
    | some g =>
      simp only [ha, hg] at h
      cases h1 : (K.perfEventOpen st.k (fixup C a) (-1) cpu g (openFlags C st.p)).1 with
      | error e => simp [h1] at h
      | ok fd =>
        simp only [h1] at h
        cases h2 : (K.ioctlGetInt (K.perfEventOpen st.k (fixup C a) (-1) cpu g
            (openFlags C st.p)).2 fd C.PERF_EVENT_IOC_ID).1 with
        | error e => simp [h2] at h
        | ok sid =>
          simp only [h2] at h
          by_cases hlt : g < 0
          · rw [if_pos hlt] at h
            cases h3 : (K.newRingBuffer (K.ioctlGetInt (K.perfEventOpen st.k (fixup C a) (-1)
                cpu g (openFlags C st.p)).2 fd C.PERF_EVENT_IOC_ID).2 fd
                st.p.options.ringBufferNumPages).1 with
            | error e => simp [h3] at h
            | ok rb =>
              simp only [h3, Prod.mk.injEq, true_and] at h
              refine ⟨a, g, fd, sid, some rb, (K.newRingBuffer (K.ioctlGetInt (K.perfEventOpen st.k
                (fixup C a) (-1) cpu g (openFlags C st.p)).2 fd C.PERF_EVENT_IOC_ID).2 fd
                st.p.options.ringBufferNumPages).2, rfl, rfl, by simp [hlt], ?_⟩
              rw [← h]
              simp [openedState]
          · rw [if_neg hlt] at h
            simp only [Prod.mk.injEq, true_and] at h
            refine ⟨a, g, fd, sid, none, (K.ioctlGetInt (K.perfEventOpen st.k (fixup C a) (-1)
              cpu g (openFlags C st.p)).2 fd C.PERF_EVENT_IOC_ID).2, rfl, rfl, by simp [hlt], ?_⟩
            rw [← h]
            simp [openedState]

theorem openOne_outcome {σ : Type} (K : Kernel σ) (C : Consts) (cpu : Nat) (ea : Ptr)
    (st : St σ) :
    (st.heap[ea]? = none ∧ openOne K C cpu ea st = (Status.crashed, st)) ∨
    ∃ a, st.heap[ea]? = some a ∧
      ((st.p.groupFds[cpu]? = none ∧
          openOne K C cpu ea st =
            (Status.crashed, { st with heap := st.heap.set ea (fixup C a) })) ∨
       ∃ g, st.p.groupFds[cpu]? = some g ∧
        ((∃ e k, openOne K C cpu ea st = (Status.fatal e, failedOpen C cpu ea a g e k st)) ∨
         (∃ fd e k, openOne K C cpu ea st =
            (Status.fatal e, failedIoctl C cpu ea a g fd e k st)) ∨
         (∃ fd sid e k, g < 0 ∧ openOne K C cpu ea st =
            (Status.fatal e, failedRing C cpu ea a g fd sid e k st)) ∨
         (∃ fd sid rb k, (g < 0 ↔ rb ≠ none) ∧ openOne K C cpu ea st =
            (Status.running, openedState C cpu ea a g fd sid rb k st)))) := by
  unfold openOne
  cases ha : st.heap[ea]? with
  | none => exact Or.inl ⟨rfl, rfl⟩
  | some a =>
    refine Or.inr ⟨a, rfl, ?_⟩
    cases hg : st.p.groupFds[cpu]? with
    | none => exact Or.inl ⟨rfl, rfl⟩
    | some g =>
      refine Or.inr ⟨g, rfl, ?_⟩
      simp only []
      cases h1 : (K.perfEventOpen st.k (fixup C a) (-1) cpu g (openFlags C st.p)).1 with
      | error e => exact Or.inl ⟨e, _, rfl⟩
      | ok fd =>
        refine Or.inr ?_
        simp only []
        cases h2 : (K.ioctlGetInt (K.perfEventOpen st.k (fixup C a) (-1) cpu g
            (openFlags C st.p)).2 fd C.PERF_EVENT_IOC_ID).1 with
        | error e =>
          refine Or.inl ⟨fd, e, (K.ioctlGetInt (K.perfEventOpen st.k (fixup C a) (-1) cpu g
            (openFlags C st.p)).2 fd C.PERF_EVENT_IOC_ID).2, ?_⟩
          simp [failedIoctl]
        | ok sid =>
          refine Or.inr ?_
          simp only []
          by_cases hlt : g < 0
          · rw [if_pos hlt]
            cases h3 : (K.newRingBuffer (K.ioctlGetInt (K.perfEventOpen st.k (fixup C a) (-1)
                cpu g (openFlags C st.p)).2 fd C.PERF_EVENT_IOC_ID).2 fd
                st.p.options.ringBufferNumPages).1 with
            | error e =>
              refine Or.inl ⟨fd, sid, e, (K.newRingBuffer (K.ioctlGetInt (K.perfEventOpen st.k
                (fixup C a) (-1) cpu g (openFlags C st.p)).2 fd C.PERF_EVENT_IOC_ID).2 fd
                st.p.options.ringBufferNumPages).2, hlt, ?_⟩
              simp [failedRing]
            | ok rb =>
              refine Or.inr ⟨fd, sid, some rb, (K.newRingBuffer (K.ioctlGetInt
                (K.perfEventOpen st.k (fixup C a) (-1) cpu g (openFlags C st.p)).2 fd
                C.PERF_EVENT_IOC_ID).2 fd st.p.options.ringBufferNumPages).2,
                by simp [hlt], ?_⟩
              simp [openedState]
          · rw [if_neg hlt]
            refine Or.inr ⟨fd, sid, none, (K.ioctlGetInt (K.perfEventOpen st.k (fixup C a) (-1)
              cpu g (openFlags C st.p)).2 fd C.PERF_EVENT_IOC_ID).2, by simp [hlt], ?_⟩
            simp [openedState]

theorem forEach_inv {α τ : Type} (J : Status × τ → Prop) (body : α → τ → Status × τ)
    (l : List α) (hb : ∀ x ∈ l, ∀ s, J (Status.running, s) → J (body x s)) (s : τ)
    (h0 : J (Status.running, s)) : J (forEach body l s) := by
  induction l generalizing s with
  | nil => exact h0
  | cons x xs ih =>
    simp only [forEach]
    have hx := hb x (by simp) s h0
    cases hbx : body x s with
    | mk st s1 =>
      rw [hbx] at hx
      cases st with
      | running => exact ih (fun y hy => hb y (List.mem_cons_of_mem _ hy)) s1 hx
      | returned e => exact hx
      | fatal e => exact hx
      | crashed => exact hx

theorem fixup_fixup (C : Consts) (a : EventAttr) : fixup C (fixup C a) = fixup C a := by
  simp [fixup, Nat.lor_assoc]

theorem eventAttrMap.mem_insert (m : eventAttrMap) (k : Nat) (v : Ptr) (kv : Nat × Ptr)
    (h : kv ∈ m.insert k v) : kv = (k, v) ∨ kv ∈ m := by
  unfold eventAttrMap.insert at h
  rcases List.mem_cons.mp h with h | h
  · exact Or.inl h
  · exact Or.inr (List.mem_filter.mp h).1

theorem fixedUp_lookup (C : Consts) (heap0 heap : Heap) (ea : Ptr) (a : EventAttr)
    (hf : fixedUp C heap0 heap) (ha : heap[ea]? = some a) :
    ∃ a0, heap0[ea]? = some a0 ∧ fixup C a = fixup C a0 := by
  rcases hf ea with h | ⟨a0, h0, h1⟩
  · exact ⟨a, by rw [← h, ha], rfl⟩
  · refine ⟨a0, h0, ?_⟩
    rw [ha, Option.some.injEq] at h1
    rw [h1, fixup_fixup]

theorem fixedUp_set (C : Consts) (heap0 heap : Heap) (ea : Ptr) (a : EventAttr)
    (hf : fixedUp C heap0 heap) (ha : heap[ea]? = some a) :
    fixedUp C heap0 (heap.set ea (fixup C a)) := by
  obtain ⟨a0, h0, h1⟩ := fixedUp_lookup C heap0 heap ea a hf ha
  intro ea'
  by_cases he : ea = ea'
  · subst he
    refine Or.inr ⟨a0, h0, ?_⟩
    have hlt : ea < heap.length := (List.getElem?_eq_some.mp ha).1
    rw [List.getElem?_set_self hlt, h1]
  · rw [List.getElem?_set_ne he]
    exact hf ea'

theorem fixedUp_set_entry (C : Consts) (heap : Heap) (ea : Ptr) (a : EventAttr)
    (ha : heap[ea]? = some a) (ea' : Ptr) (a' : EventAttr)
    (h' : heap[ea']? = some (fixup C a')) :
    (heap.set ea (fixup C a))[ea']? = some (fixup C a') := by
  by_cases he : ea = ea'
  · subst he
    have hlt : ea < heap.length := (List.getElem?_eq_some.mp ha).1
    rw [List.getElem?_set_self hlt]
    rw [ha, Option.some.injEq] at h'
    rw [h', fixup_fixup]
  · rw [List.getElem?_set_ne he]
    exact h'

theorem fixedUp_set_self (C : Consts) (heap0 heap : Heap) (ea : Ptr) (a : EventAttr)
    (hf : fixedUp C heap0 heap) (ha : heap[ea]? = some a) :
    ∃ a0, heap0[ea]? = some a0 ∧ fixup C a = fixup C a0 ∧
      (heap.set ea (fixup C a))[ea]? = some (fixup C a0) := by
  obtain ⟨a0, h0, h1⟩ := fixedUp_lookup C heap0 heap ea a hf ha
  have hlt : ea < heap.length := (List.getElem?_eq_some.mp ha).1
  exact ⟨a0, h0, h1, by rw [List.getElem?_set_self hlt, h1]⟩

theorem openOne_descriptorsFixed {σ : Type} (K : Kernel σ) (C : Consts) (heap0 : Heap)
    (cpu : Nat) (ea : Ptr) (st : St σ) (h : descriptorsFixed C heap0 st) :
    descriptorsFixed C heap0 (openOne K C cpu ea st).2 := by
  obtain ⟨hf, htr, hreg⟩ := h
  rcases openOne_outcome K C cpu ea st with ⟨_, h⟩ | ⟨a, ha, h⟩
  · rw [h]
    exact ⟨hf, htr, hreg⟩
  · obtain ⟨a0, h0, hfa, hself⟩ := fixedUp_set_self C heap0 st.heap ea a hf ha
    have hheap := fixedUp_set C heap0 st.heap ea a hf ha
    have hreg1 : ∀ kv ∈ st.p.EventAttrsByFormatID,
        ∃ b, heap0[kv.2]? = some b ∧ (st.heap.set ea (fixup C a))[kv.2]? = some (fixup C b) := by
      intro kv hkv
      obtain ⟨b, hb0, hb1⟩ := hreg kv hkv
      exact ⟨b, hb0, fixedUp_set_entry C st.heap ea a ha kv.2 b hb1⟩
    have hreg2 : ∀ sid, ∀ kv ∈ st.p.EventAttrsByFormatID.insert (toUint64 sid) ea,
        ∃ b, heap0[kv.2]? = some b ∧ (st.heap.set ea (fixup C a))[kv.2]? = some (fixup C b) := by
      intro sid kv hkv
      rcases eventAttrMap.mem_insert _ _ _ _ hkv with rfl | hkv
      · exact ⟨a0, h0, hself⟩
      · exact hreg1 kv hkv
    have hev : ∀ g fl r ev, ev = Event.perfEventOpen ea (fixup C a) (-1) cpu g fl r →
        ∀ ea' attr pid cpu' g' fl' r', ev = Event.perfEventOpen ea' attr pid cpu' g' fl' r' →
        ∃ b, heap0[ea']? = some b ∧ attr = fixup C b := by
      intro g fl r ev hev ea' attr pid cpu' g' fl' r' hev'
      rw [hev] at hev'
      cases hev'
      exact ⟨a0, h0, hfa⟩
    rcases h with ⟨_, h⟩ | ⟨g, _, ⟨e, k, h⟩ | ⟨fd, e, k, h⟩ | ⟨fd, sid, e, k, _, h⟩ |
      ⟨fd, sid, rb, k, _, h⟩⟩
    · rw [h]
      exact ⟨hheap, htr, hreg1⟩
    · rw [h]
      refine ⟨hheap, ?_, hreg1⟩
      intro ev hmem
      simp only [failedOpen, List.mem_append, List.mem_singleton] at hmem
      rcases hmem with hmem | hmem
      · exact htr ev hmem
      · exact hev _ _ _ ev hmem
    · rw [h]
      refine ⟨hheap, ?_, hreg1⟩
      intro ev hmem
      simp only [failedIoctl, List.mem_append, List.mem_cons, List.mem_singleton,
        List.not_mem_nil, or_false] at hmem
      rcases hmem with hmem | hmem | hmem
      · exact htr ev hmem
      · exact hev _ _ _ ev hmem
      · intro ea' attr pid cpu' g' fl' r' hev'
        rw [hmem] at hev'
        cases hev'
    · rw [h]
      refine ⟨hheap, ?_, hreg2 sid⟩
      intro ev hmem
      simp only [failedRing, List.mem_append, List.mem_cons, List.mem_singleton,
        List.not_mem_nil, or_false] at hmem
      rcases hmem with hmem | hmem | hmem | hmem
      · exact htr ev hmem
      · exact hev _ _ _ ev hmem
      · intro ea' attr pid cpu' g' fl' r' hev'
        rw [hmem] at hev'
        cases hev'
      · intro ea' attr pid cpu' g' fl' r' hev'
        rw [hmem] at hev'
        cases hev'
    · rw [h]
      refine ⟨hheap, ?_, ?_⟩
      · intro ev hmem
        cases rb with
        | none =>
          simp only [openedState, List.mem_append, List.mem_cons, List.mem_singleton,
            List.not_mem_nil, or_false] at hmem
          rcases hmem with hmem | hmem | hmem
          · exact htr ev hmem
          · exact hev _ _ _ ev hmem
          · intro ea' attr pid cpu' g' fl' r' hev'
            rw [hmem] at hev'
            cases hev'
        | some b =>
          simp only [openedState, List.mem_append, List.mem_cons, List.mem_singleton,
            List.not_mem_nil, or_false] at hmem
          rcases hmem with hmem | (hmem | hmem) | hmem
          · exact htr ev hmem
          · exact hev _ _ _ ev hmem
          · intro ea' attr pid cpu' g' fl' r' hev'
            rw [hmem] at hev'
            cases hev'
          · intro ea' attr pid cpu' g' fl' r' hev'
            rw [hmem] at hev'
            cases hev'
      · exact hreg2 sid

theorem augments_fixup (C : Consts) (a : EventAttr) :
    augments C a.SampleType (fixup C a).SampleType := by
  refine ⟨rfl, ?_, ?_⟩
  · intro b hb
    simp [fixup, mandatorySampleType, Nat.testBit_lor, hb]
  · intro b hb
    simp only [fixup, mandatorySampleType, Nat.testBit_lor, Bool.or_eq_true]
    tauto

theorem forEach_state_inv {α τ : Type} (I : τ → Prop) (body : α → τ → Status × τ)
    (hb : ∀ x s, I s → I (body x s).2) (l : List α) (s : τ) (h0 : I s) :
    I (forEach body l s).2 :=
  forEach_inv (fun r => I r.2) body l (fun x _ s h => hb x s h) s h0

theorem openCpu_descriptorsFixed {σ : Type} (K : Kernel σ) (C : Consts) (heap0 : Heap)
    (eas : List Ptr) (cpu : Nat) (st : St σ) (h : descriptorsFixed C heap0 st) :
    descriptorsFixed C heap0 (openCpu K C eas cpu st).2 := by
  have h1 := forEach_state_inv (descriptorsFixed C heap0) (openOne K C cpu)
    (fun ea s hs => openOne_descriptorsFixed K C heap0 cpu ea s hs) eas
    { st with p := { st.p with groupFds := st.p.groupFds.set cpu (-1) } } h
  unfold openCpu
  simp only []
  split
  · rename_i st2 heq
    rw [heq] at h1
    split
    · exact h1
    · exact h1
  · exact h1

theorem Open_descriptorsFixed {σ : Type} (K : Kernel σ) (C : Consts) (ncpu : Nat)
    (eas : List Ptr) (st : St σ) (ht : st.trace = []) :
    descriptorsFixed C st.heap (Open K C ncpu eas st).2 := by
  have h0 : descriptorsFixed C st.heap
      ({ st with p := { st.p with
          EventAttrsByFormatID := newEventAttrMap
          groupFds := List.replicate ncpu 0 } } : St σ) := by
    refine ⟨fun ea => Or.inl rfl, ?_, ?_⟩
    · intro ev hev
      simp only [ht, List.not_mem_nil] at hev
    · intro kv hkv
      simp only [newEventAttrMap, List.not_mem_nil] at hkv
  have h1 := forEach_state_inv (descriptorsFixed C st.heap) (openCpu K C eas)
    (fun cpu s hs => openCpu_descriptorsFixed K C st.heap eas cpu s hs) (List.range ncpu) _ h0
  unfold Open
  simp only []
  split
  · rename_i st1 heq
    rw [heq] at h1
    exact h1
  · exact h1

theorem eventAttrMap.mem_of_get (m : eventAttrMap) (k : Nat) (v : Ptr)
    (h : m.get k = some v) : (k, v) ∈ m := by
  unfold eventAttrMap.get at h
  induction m with
  | nil => simp at h
  | cons x xs ih =>
    obtain ⟨k', v'⟩ := x
    simp only [List.lookup] at h
    by_cases hk : k = k'
    · subst hk
      simp only [beq_self_eq_true, Option.some.injEq] at h
      subst h
      exact List.mem_cons_self _ _
    · have : (k == k') = false := by simpa using hk
      rw [this] at h
      exact List.mem_cons_of_mem _ (ih h)

/-- C3: `Open` hands to every counter-open call, and leaves behind every
registry entry, a descriptor whose `SampleType` is the bitmask the caller set
OR-ed with `PERF_SAMPLE_CPU`, `PERF_SAMPLE_STREAM_ID`, `PERF_SAMPLE_IDENTIFIER`
and `PERF_SAMPLE_TIME`: the four mandatory bits are set and no bit of the
caller is cleared, whatever the caller asked for and however the run ends. -/
theorem Open_augments_SampleType {σ : Type} (K : Kernel σ) (C : Consts) (ncpu : Nat)
    (eas : List Ptr) (st : St σ) (ht : st.trace = []) :
    (∀ ev ∈ (Open K C ncpu eas st).2.trace, ∀ ea attr pid cpu g fl r,
      ev = Event.perfEventOpen ea attr pid cpu g fl r →
      ∃ a, st.heap[ea]? = some a ∧ augments C a.SampleType attr.SampleType) ∧
    (∀ k ea, (Open K C ncpu eas st).2.p.EventAttrsByFormatID.get k = some ea →
      ∃ a a', st.heap[ea]? = some a ∧ (Open K C ncpu eas st).2.heap[ea]? = some a' ∧
        augments C a.SampleType a'.SampleType) := by
  obtain ⟨_, htr, hreg⟩ := Open_descriptorsFixed K C ncpu eas st ht
  constructor
  · intro ev hev ea attr pid cpu g fl r he
    obtain ⟨a, ha, hattr⟩ := htr ev hev ea attr pid cpu g fl r he
    exact ⟨a, ha, hattr ▸ augments_fixup C a⟩
  · intro k ea hget
    obtain ⟨a, ha, ha'⟩ := hreg (k, ea) (eventAttrMap.mem_of_get _ k ea hget)
    exact ⟨a, fixup C a, ha, ha', augments_fixup C a⟩

theorem Open_augments_SampleType_witness :
    (Open countingKernel linuxConsts 2 [0, 1, 2] mainSt).2.p.EventAttrsByFormatID.get 104
      = some 1 ∧
    ∃ a a', mainSt.heap[1]? = some a ∧
      (Open countingKernel linuxConsts 2 [0, 1, 2] mainSt).2.heap[1]? = some a' ∧
      augments linuxConsts a.SampleType a'.SampleType :=
  ⟨by decide,
    (Open_augments_SampleType countingKernel linuxConsts 2 [0, 1, 2] mainSt rfl).2 104 1
      (by decide)⟩

theorem okTrace_append (a b : List Event) (ha : okTrace a) (hb : okTrace b) :
    okTrace (a ++ b) := by
  intro ev hev
  rcases List.mem_append.mp hev with h | h
  · exact ha ev h
  · exact hb ev h

theorem eventAttrMap.mem_insert_iff (m : eventAttrMap) (k : Nat) (v : Ptr) (kv : Nat × Ptr) :
    kv ∈ m.insert k v ↔ kv = (k, v) ∨ (kv ∈ m ∧ kv.1 ≠ k) := by
  unfold eventAttrMap.insert
  simp [List.mem_filter]

theorem eventAttrMap.key_mem_insert (m : eventAttrMap) (k : Nat) (v : Ptr) (k' : Nat) :
    (∃ v', (k', v') ∈ m.insert k v) ↔ k' = k ∨ ∃ v', (k', v') ∈ m := by
  constructor
  · rintro ⟨v', h⟩
    rcases (eventAttrMap.mem_insert_iff m k v _).mp h with h | h
    · exact Or.inl (congrArg Prod.fst h)
    · exact Or.inr ⟨v', h.1⟩
  · rintro (h | ⟨v', h⟩)
    · exact ⟨v, (eventAttrMap.mem_insert_iff m k v _).mpr (Or.inl (by rw [h]))⟩
    · by_cases hk : k' = k
      · exact ⟨v, (eventAttrMap.mem_insert_iff m k v _).mpr (Or.inl (by rw [hk]))⟩
      · exact ⟨v', (eventAttrMap.mem_insert_iff m k v _).mpr (Or.inr ⟨h, hk⟩)⟩

theorem openOne_failFast {σ : Type} (K : Kernel σ) (C : Consts) (cpu : Nat) (ea : Ptr)
    (st : St σ) (h : failFast (Status.running, st)) : failFast (openOne K C cpu ea st) := by
  have hok : okTrace st.trace := h
  rcases openOne_outcome K C cpu ea st with ⟨_, h⟩ | ⟨a, ha, ⟨_, h⟩ | ⟨g, _, ⟨e, k, h⟩ |
    ⟨fd, e, k, h⟩ | ⟨fd, sid, e, k, _, h⟩ | ⟨fd, sid, rb, k, _, h⟩⟩⟩
  · rw [h]; exact hok
  · rw [h]; exact hok
  · rw [h]
    exact ⟨st.trace, _, rfl, hok, rfl⟩
  · rw [h]
    refine ⟨st.trace ++ [Event.perfEventOpen ea (fixup C a) (-1) cpu g (openFlags C st.p)
      (Res.ok fd)], Event.ioctlGetInt fd C.PERF_EVENT_IOC_ID (Res.error e), ?_, ?_, rfl⟩
    · simp [failedIoctl]
    · exact okTrace_append _ _ hok (by intro ev hev; simp at hev; subst hev; rfl)
  · rw [h]
    refine ⟨st.trace ++ [Event.perfEventOpen ea (fixup C a) (-1) cpu g (openFlags C st.p)
      (Res.ok fd), Event.ioctlGetInt fd C.PERF_EVENT_IOC_ID (Res.ok sid)],
      Event.newRingBuffer fd st.p.options.ringBufferNumPages (Res.error e), ?_, ?_, rfl⟩
    · simp [failedRing]
    · apply okTrace_append _ _ hok
      intro ev hev
      simp only [List.mem_cons, List.mem_singleton, List.not_mem_nil, or_false] at hev
      rcases hev with rfl | rfl <;> rfl
  · rw [h]
    show okTrace _
    apply okTrace_append _ _ hok
    intro ev hev
    cases rb with
    | none =>
      simp only [List.append_nil, List.mem_cons, List.mem_singleton, List.not_mem_nil,
        or_false] at hev
      rcases hev with rfl | rfl <;> rfl
    | some b =>
      simp only [List.mem_append, List.mem_cons, List.mem_singleton, List.not_mem_nil,
        or_false] at hev
      rcases hev with (rfl | rfl) | rfl <;> rfl

theorem openCpu_failFast {σ : Type} (K : Kernel σ) (C : Consts) (eas : List Ptr) (cpu : Nat)
    (st : St σ) (h : failFast (Status.running, st)) : failFast (openCpu K C eas cpu st) := by
  have h1 := forEach_inv failFast (openOne K C cpu) eas
    (fun ea _ s hs => openOne_failFast K C cpu ea s hs)
    { st with p := { st.p with groupFds := st.p.groupFds.set cpu (-1) } } h
  unfold openCpu
  simp only []
  split
  · rename_i st2 heq
    rw [heq] at h1
    split
    · exact h1
    · exact h1
  · exact h1

theorem identified_append (a b : List Event) :
    identified (a ++ b) = identified a ++ identified b := by
  simp [identified, List.filterMap_append]

theorem idKeys_append (a b : List Event) : idKeys (a ++ b) = idKeys a ++ idKeys b := by
  simp [idKeys, List.filterMap_append]

theorem openedState_identified {σ : Type} (C : Consts) (cpu : Nat) (ea : Ptr) (a : EventAttr)
    (g : Int) (fd : Fd) (sid : Int) (rb : Option RingBuffer) (k : σ) (st : St σ) :
    identified (openedState C cpu ea a g fd sid rb k st).trace =
        identified st.trace ++ [(fd : Int)] ∧
      idKeys (openedState C cpu ea a g fd sid rb k st).trace =
        idKeys st.trace ++ [toUint64 sid] := by
  cases rb <;> exact ⟨by rw [openedState, identified_append]; rfl,
    by rw [openedState, idKeys_append]; rfl⟩

theorem failedRing_identified {σ : Type} (C : Consts) (cpu : Nat) (ea : Ptr) (a : EventAttr)
    (g : Int) (fd : Fd) (sid : Int) (e : GoError) (k : σ) (st : St σ) :
    identified (failedRing C cpu ea a g fd sid e k st).trace =
        identified st.trace ++ [(fd : Int)] ∧
      idKeys (failedRing C cpu ea a g fd sid e k st).trace =
        idKeys st.trace ++ [toUint64 sid] :=
  ⟨by rw [failedRing, identified_append]; rfl, by rw [failedRing, idKeys_append]; rfl⟩

theorem failedIoctl_identified {σ : Type} (C : Consts) (cpu : Nat) (ea : Ptr) (a : EventAttr)
    (g : Int) (fd : Fd) (e : GoError) (k : σ) (st : St σ) :
    identified (failedIoctl C cpu ea a g fd e k st).trace = identified st.trace ∧
      idKeys (failedIoctl C cpu ea a g fd e k st).trace = idKeys st.trace :=
  ⟨by rw [failedIoctl, identified_append]; exact List.append_nil _,
    by rw [failedIoctl, idKeys_append]; exact List.append_nil _⟩

theorem failedOpen_identified {σ : Type} (C : Consts) (cpu : Nat) (ea : Ptr) (a : EventAttr)
    (g : Int) (e : GoError) (k : σ) (st : St σ) :
    identified (failedOpen C cpu ea a g e k st).trace = identified st.trace ∧
      idKeys (failedOpen C cpu ea a g e k st).trace = idKeys st.trace :=
  ⟨by rw [failedOpen, identified_append]; exact List.append_nil _,
    by rw [failedOpen, idKeys_append]; exact List.append_nil _⟩

theorem openOne_notRolledBack {σ : Type} (K : Kernel σ) (C : Consts) (fds0 : List Int)
    (cpu : Nat) (ea : Ptr) (st : St σ) (h : notRolledBack fds0 st) :
    notRolledBack fds0 (openOne K C cpu ea st).2 := by
  obtain ⟨hfds, hreg⟩ := h
  rcases openOne_outcome K C cpu ea st with ⟨_, h⟩ | ⟨a, ha, ⟨_, h⟩ | ⟨g, _, ⟨e, k, h⟩ |
    ⟨fd, e, k, h⟩ | ⟨fd, sid, e, k, _, h⟩ | ⟨fd, sid, rb, k, _, h⟩⟩⟩
  · rw [h]; exact ⟨hfds, hreg⟩
  · rw [h]; exact ⟨hfds, hreg⟩
  · rw [h]
    obtain ⟨h1, h2⟩ := failedOpen_identified C cpu ea a g e k st
    exact ⟨by rw [h1]; exact hfds, fun k' => by rw [h2]; exact hreg k'⟩
  · rw [h]
    obtain ⟨h1, h2⟩ := failedIoctl_identified C cpu ea a g fd e k st
    exact ⟨by rw [h1]; exact hfds, fun k' => by rw [h2]; exact hreg k'⟩
  · rw [h]
    obtain ⟨h1, h2⟩ := failedRing_identified C cpu ea a g fd sid e k st
    refine ⟨?_, ?_⟩
    · rw [h1, ← List.append_assoc, ← hfds]
      rfl
    · intro k'
      rw [h2, show (failedRing C cpu ea a g fd sid e k st).p.EventAttrsByFormatID =
        st.p.EventAttrsByFormatID.insert (toUint64 sid) ea from rfl,
        eventAttrMap.key_mem_insert, hreg k', List.mem_append, List.mem_singleton]
      tauto
  · rw [h]
    obtain ⟨h1, h2⟩ := openedState_identified C cpu ea a g fd sid rb k st
    refine ⟨?_, ?_⟩
    · rw [h1, ← List.append_assoc, ← hfds]
      rfl
    · intro k'
      rw [h2, show (openedState C cpu ea a g fd sid rb k st).p.EventAttrsByFormatID =
        st.p.EventAttrsByFormatID.insert (toUint64 sid) ea from rfl,
        eventAttrMap.key_mem_insert, hreg k', List.mem_append, List.mem_singleton]
      tauto

theorem openCpu_notRolledBack {σ : Type} (K : Kernel σ) (C : Consts) (fds0 : List Int)
    (eas : List Ptr) (cpu : Nat) (st : St σ) (h : notRolledBack fds0 st) :
    notRolledBack fds0 (openCpu K C eas cpu st).2 := by
  have h1 := forEach_state_inv (notRolledBack fds0) (openOne K C cpu)
    (fun ea s hs => openOne_notRolledBack K C fds0 cpu ea s hs) eas
    { st with p := { st.p with groupFds := st.p.groupFds.set cpu (-1) } } h
  unfold openCpu
  simp only []
  split
  · rename_i st2 heq
    rw [heq] at h1
    split
    · exact h1
    · exact h1
  · exact h1

theorem Open_eq {σ : Type} (K : Kernel σ) (C : Consts) (ncpu : Nat) (eas : List Ptr)
    (st : St σ) (s1 : Status) (st1 : St σ)
    (h : forEach (openCpu K C eas) (List.range ncpu)
      { st with p := { st.p with
          EventAttrsByFormatID := newEventAttrMap
          groupFds := List.replicate ncpu 0 } } = (s1, st1)) :
    Open K C ncpu eas st =
      (match s1 with
        | Status.running => Status.returned none
        | s => s, st1) := by
  unfold Open
  simp only [h]
  cases s1 <;> rfl

/-- The ways a run of `Open` ends: it returns `nil` or crashes, having seen no
call fail, or it is ended by `glog.Fatal(e)` right after the one call that
failed, with `e`. -/
theorem Open_failFast {σ : Type} (K : Kernel σ) (C : Consts) (ncpu : Nat)
    (eas : List Ptr) (st : St σ) (ht : st.trace = []) :
    ((Open K C ncpu eas st).1 = Status.returned none ∧
        okTrace (Open K C ncpu eas st).2.trace) ∨
      ((Open K C ncpu eas st).1 = Status.crashed ∧ okTrace (Open K C ncpu eas st).2.trace) ∨
      ∃ e init ev, (Open K C ncpu eas st).1 = Status.fatal e ∧
        (Open K C ncpu eas st).2.trace = init ++ [ev] ∧ okTrace init ∧ ev.failure = some e := by
  have h0 : failFast (Status.running, ({ st with p := { st.p with
      EventAttrsByFormatID := newEventAttrMap
      groupFds := List.replicate ncpu 0 } } : St σ)) := by
    show okTrace _
    intro ev hev
    simp only [ht, List.not_mem_nil] at hev
  have hJ := forEach_inv failFast (openCpu K C eas) (List.range ncpu)
    (fun cpu _ s hs => openCpu_failFast K C eas cpu s hs) _ h0
  cases hfe : forEach (openCpu K C eas) (List.range ncpu)
      { st with p := { st.p with
          EventAttrsByFormatID := newEventAttrMap
          groupFds := List.replicate ncpu 0 } } with
  | mk s1 st1 =>
    rw [hfe] at hJ
    rw [Open_eq K C ncpu eas st s1 st1 hfe]
    cases s1 with
    | running => exact Or.inl ⟨rfl, hJ⟩
    | returned e => exact hJ.elim
    | crashed => exact Or.inr (Or.inl ⟨rfl, hJ⟩)
    | fatal e =>
      obtain ⟨init, ev0, htr, hinit, hev0⟩ := hJ
      exact Or.inr (Or.inr ⟨e, init, ev0, rfl, htr, hinit, hev0⟩)

theorem Open_notRolledBack {σ : Type} (K : Kernel σ) (C : Consts) (ncpu : Nat)
    (eas : List Ptr) (st : St σ) (ht : st.trace = []) :
    notRolledBack st.p.fds (Open K C ncpu eas st).2 := by
  have hN0 : notRolledBack st.p.fds ({ st with p := { st.p with
      EventAttrsByFormatID := newEventAttrMap
      groupFds := List.replicate ncpu 0 } } : St σ) := by
    refine ⟨?_, ?_⟩
    · simp [ht, identified]
    · intro k
      simp [ht, idKeys, newEventAttrMap]
  have hN := forEach_state_inv (notRolledBack st.p.fds) (openCpu K C eas)
    (fun cpu s hs => openCpu_notRolledBack K C st.p.fds eas cpu s hs) (List.range ncpu) _ hN0
  unfold Open
  simp only []
  split
  · rename_i st1 heq
    rw [heq] at hN
    exact hN
  · exact hN

theorem openOne_noCrash {σ : Type} (K : Kernel σ) (C : Consts) (len n : Nat) (cpu : Nat)
    (ea : Ptr) (hea : ea < len) (hcpu : cpu < n) (st : St σ)
    (h : noCrash len n (Status.running, st)) : noCrash len n (openOne K C cpu ea st) := by
  obtain ⟨_, hl, hg⟩ := h
  have hl' : st.heap.length = len := hl
  have hg' : st.p.groupFds.length = n := hg
  have hea' : @LT.lt Nat _ ea len := hea
  rcases openOne_outcome K C cpu ea st with ⟨hnone, _⟩ | ⟨a, ha, ⟨hgn, _⟩ | ⟨g, _, ⟨e, k, h⟩ |
    ⟨fd, e, k, h⟩ | ⟨fd, sid, e, k, _, h⟩ | ⟨fd, sid, rb, k, _, h⟩⟩⟩
  · rw [List.getElem?_eq_none_iff] at hnone
    omega
  · rw [List.getElem?_eq_none_iff] at hgn
    omega
  · rw [h]
    exact ⟨by simp, by simp [failedOpen, hl'], by simp [failedOpen, hg']⟩
  · rw [h]
    exact ⟨by simp, by simp [failedIoctl, hl'], by simp [failedIoctl, hg']⟩
  · rw [h]
    exact ⟨by simp, by simp [failedRing, hl'], by simp [failedRing, hg']⟩
  · rw [h]
    refine ⟨by simp, by simp [openedState, hl'], ?_⟩
    cases rb <;> simp [openedState, hg']

theorem openCpu_noCrash {σ : Type} (K : Kernel σ) (C : Consts) (len n : Nat) (eas : List Ptr)
    (heas : ∀ ea ∈ eas, ea < len) (cpu : Nat) (hcpu : cpu < n) (st : St σ)
    (h : noCrash len n (Status.running, st)) : noCrash len n (openCpu K C eas cpu st) := by
  have h0 : noCrash len n (Status.running,
      ({ st with p := { st.p with groupFds := st.p.groupFds.set cpu (-1) } } : St σ)) := by
    obtain ⟨h1, h2, h3⟩ := h
    exact ⟨h1, h2, by simpa using h3⟩
  have h1 := forEach_inv (noCrash len n) (openOne K C cpu) eas
    (fun ea hea s hs => openOne_noCrash K C len n cpu ea (heas ea hea) hcpu s hs) _ h0
  unfold openCpu
  simp only []
  split
  · rename_i st2 heq
    rw [heq] at h1
    split
    · exact h1
    · exact h1
  · exact h1

theorem Open_noCrash {σ : Type} (K : Kernel σ) (C : Consts) (ncpu : Nat) (eas : List Ptr)
    (st : St σ) (heas : ∀ ea ∈ eas, ea < st.heap.length) :
    (Open K C ncpu eas st).1 ≠ Status.crashed := by
  have h0 : noCrash st.heap.length ncpu (Status.running, ({ st with p := { st.p with
      EventAttrsByFormatID := newEventAttrMap
      groupFds := List.replicate ncpu 0 } } : St σ)) :=
    ⟨by simp, rfl, by simp⟩
  have h1 := forEach_inv (noCrash st.heap.length ncpu) (openCpu K C eas) (List.range ncpu)
    (fun cpu hcpu s hs =>
      openCpu_noCrash K C st.heap.length ncpu eas heas cpu (List.mem_range.mp hcpu) s hs) _ h0
  cases hfe : forEach (openCpu K C eas) (List.range ncpu)
      { st with p := { st.p with
          EventAttrsByFormatID := newEventAttrMap
          groupFds := List.replicate ncpu 0 } } with
  | mk s1 st1 =>
    rw [hfe] at h1
    rw [Open_eq K C ncpu eas st s1 st1 hfe]
    cases s1 with
    | running => simp
    | returned e => simp
    | fatal e => simp
    | crashed => exact absurd rfl h1.1

theorem Open_returns_of_ok {σ : Type} (K : Kernel σ) (C : Consts) (ncpu : Nat) (eas : List Ptr)
    (st : St σ) (ht : st.trace = []) (heas : ∀ ea ∈ eas, ea < st.heap.length)
    (hok : okTrace (Open K C ncpu eas st).2.trace) :
    Open K C ncpu eas st = (Status.returned none, (Open K C ncpu eas st).2) := by
  rcases Open_failFast K C ncpu eas st ht with ⟨h, _⟩ | ⟨h, _⟩ | ⟨e, init, ev, _, htr, _, hev⟩
  · exact Prod.ext h rfl
  · exact absurd h (Open_noCrash K C ncpu eas st heas)
  · have := hok ev (by rw [htr]; simp)
    rw [hev] at this
    simp at this

/-- C5 (amended): a call of `Open` that fails does not make `Open` return an
error. `Open` ends in one of three ways: it returns `nil`, and then no call
failed; or the process is ended by `glog.Fatal(e)`, and then the last call made
is the one call that failed, with `e`; or it crashes. So a failing call ends
the process at once, with its error, and no call follows it. Nothing is rolled
back: in the state so reached `fds` still holds every counter identified
before, and the registry still has a key for every identifier returned. -/
theorem Open_failure_ends_process {σ : Type} (K : Kernel σ) (C : Consts) (ncpu : Nat)
    (eas : List Ptr) (st : St σ) (ht : st.trace = []) :
    ((Open K C ncpu eas st).1 = Status.returned none ∨
      (Open K C ncpu eas st).1 = Status.crashed ∨
      ∃ e, (Open K C ncpu eas st).1 = Status.fatal e) ∧
    ((Open K C ncpu eas st).1 = Status.returned none →
      okTrace (Open K C ncpu eas st).2.trace) ∧
    (∀ e, (Open K C ncpu eas st).1 = Status.fatal e →
      ∃ init ev, (Open K C ncpu eas st).2.trace = init ++ [ev] ∧ okTrace init ∧
        ev.failure = some e) ∧
    (∀ ev ∈ (Open K C ncpu eas st).2.trace, ∀ e, ev.failure = some e →
      (Open K C ncpu eas st).1 = Status.fatal e ∧
        (Open K C ncpu eas st).2.trace.getLast? = some ev) ∧
    notRolledBack st.p.fds (Open K C ncpu eas st).2 := by
  refine ⟨?_, ?_, ?_, ?_, Open_notRolledBack K C ncpu eas st ht⟩
  · rcases Open_failFast K C ncpu eas st ht with ⟨h, _⟩ | ⟨h, _⟩ | ⟨e, _, _, h, _⟩
    · exact Or.inl h
    · exact Or.inr (Or.inl h)
    · exact Or.inr (Or.inr ⟨e, h⟩)
  · intro hret
    rcases Open_failFast K C ncpu eas st ht with ⟨_, h⟩ | ⟨_, h⟩ | ⟨e, _, _, h, _⟩
    · exact h
    · exact h
    · rw [hret] at h
      simp at h
  · intro e he
    rcases Open_failFast K C ncpu eas st ht with ⟨h, _⟩ | ⟨h, _⟩ | ⟨e', init, ev, h, htr, hinit, hev⟩
    · rw [he] at h
      simp at h
    · rw [he] at h
      simp at h
    · rw [he, Status.fatal.injEq] at h
      subst h
      exact ⟨init, ev, htr, hinit, hev⟩
  · intro ev hev e he
    rcases Open_failFast K C ncpu eas st ht with ⟨_, h⟩ | ⟨_, h⟩ | ⟨e', init, ev0, h, htr, hinit, hev0⟩
    · rw [h ev hev] at he
      simp at he
    · rw [h ev hev] at he
      simp at he
    · rw [htr, List.mem_append, List.mem_singleton] at hev
      rcases hev with hev | hev
      · rw [hinit ev hev] at he
        simp at he
      · subst hev
        rw [hev0, Option.some.injEq] at he
        subst he
        exact ⟨h, by rw [htr]; simp⟩

theorem Open_failure_ends_process_witness :
    mainSt.trace = [] ∧
    (Open failingKernel linuxConsts 1 [0, 1, 2] mainSt).1 = Status.fatal 24 ∧
    notRolledBack mainSt.p.fds (Open failingKernel linuxConsts 1 [0, 1, 2] mainSt).2 :=
  ⟨rfl, by decide,
    (Open_failure_ends_process failingKernel linuxConsts 1 [0, 1, 2] mainSt rfl).2.2.2.2⟩

/-- C5 as stated fails: on one CPU with the three descriptors of `main`, the
second `open` fails; the process ends there and the `Perf` still holds the
first counter in its registry, in `fds` and in `ringBuffers`. -/
theorem Open_failure_keeps_entries :
    (Open failingKernel linuxConsts 1 [0, 1, 2] mainSt).1 = Status.fatal 24 ∧
    (Open failingKernel linuxConsts 1 [0, 1, 2] mainSt).2.p.EventAttrsByFormatID = [(103, 0)] ∧
    (Open failingKernel linuxConsts 1 [0, 1, 2] mainSt).2.p.fds = [3] ∧
    (Open failingKernel linuxConsts 1 [0, 1, 2] mainSt).2.p.ringBuffers = [3] := by
  decide

theorem regAll_append (m : eventAttrMap) (l1 l2 : List (Nat × Ptr)) :
    regAll m (l1 ++ l2) = regAll (regAll m l1) l2 := by
  simp [regAll, List.foldl_append]

theorem forEach_openOne_siblings {σ : Type} (K : Kernel σ) (C : Consts) (cpu : Nat) (g : Int)
    (hg0 : 0 ≤ g) (eas : List Ptr) (st st' : St σ)
    (hg : st.p.groupFds[cpu]? = some g)
    (hrun : forEach (openOne K C cpu) eas st = (Status.running, st')) :
    ∃ os : List Opened, os.length = eas.length ∧
      st'.p = { st.p with
        EventAttrsByFormatID := regAll st.p.EventAttrsByFormatID (regPairs eas os)
        fds := st.p.fds ++ os.map (fun o => (o.fd : Int)) } ∧
      st'.trace = st.trace ++
        (eas.zip os).flatMap (fun x => stepEvents C (openFlags C st.p) cpu g x.1 x.2) := by
  induction eas generalizing st with
  | nil =>
    simp only [forEach, Prod.mk.injEq, true_and] at hrun
    subst hrun
    exact ⟨[], rfl, by simp [regAll, regPairs], by simp⟩
  | cons ea rest ih =>
    simp only [forEach] at hrun
    cases h1 : openOne K C cpu ea st with
    | mk s1 st1 =>
      rw [h1] at hrun
      cases s1 with
      | running =>
        simp only [] at hrun
        obtain ⟨a, g', fd, sid, rb, k, _, hg', hrb, hst1⟩ := openOne_running K C cpu ea st st1 h1
        rw [hg, Option.some.injEq] at hg'
        subst hg'
        have hrbn : rb = none := by
          by_contra hne
          exact absurd (hrb.mpr hne) (not_lt.mpr hg0)
        subst hrbn
        have hg1 : st1.p.groupFds[cpu]? = some g := by rw [hst1]; exact hg
        obtain ⟨os, hlen, hp, htr⟩ := ih st1 hg1 hrun
        refine ⟨⟨fixup C a, fd, sid⟩ :: os, by simp [hlen], ?_, ?_⟩
        · rw [hp, hst1]
          simp [openedState, regAll, regPairs]
        · rw [htr, hst1]
          simp [openedState, stepEvents, openFlags]
      | returned e => simp at hrun
      | fatal e => simp at hrun
      | crashed => simp at hrun

theorem openCpu_running {σ : Type} (K : Kernel σ) (C : Consts) (ea0 : Ptr) (rest : List Ptr)
    (cpu : Nat) (st st' : St σ) (hlen : cpu < st.p.groupFds.length)
    (hrun : openCpu K C (ea0 :: rest) cpu st = (Status.running, st')) :
    ∃ row : Row, row.sibs.length = rest.length ∧
      st'.p.fds = st.p.fds ++ row.all.map (fun o => (o.fd : Int)) ∧
      st'.p.EventAttrsByFormatID =
        regAll st.p.EventAttrsByFormatID (regPairs (ea0 :: rest) row.all) ∧
      st'.p.ringBuffers = st.p.ringBuffers ++ [row.rb] ∧
      st'.p.groupFds = st.p.groupFds.set cpu row.lead.fd ∧
      st'.p.options = st.p.options ∧
      st'.trace = st.trace ++
        rowEvents C (openFlags C st.p) st.p.options.ringBufferNumPages ea0 rest cpu row := by
  unfold openCpu at hrun
  simp only [forEach] at hrun
  cases h1 : openOne K C cpu ea0
      { st with p := { st.p with groupFds := st.p.groupFds.set cpu (-1) } } with
  | mk s1 st1 =>
    rw [h1] at hrun
    cases s1 with
    | running =>
      simp only [] at hrun
      obtain ⟨a, g, fd, sid, rb, k, _, hg, hrb, hst1⟩ := openOne_running K C cpu ea0 _ st1 h1
      have hg1 : g = -1 := by
        simp only [List.getElem?_set_self hlen, Option.some.injEq] at hg
        exact hg.symm
      subst hg1
      cases rb with
      | none => exact absurd (hrb.mp (by decide)) (by simp)
      | some b =>
        have hgf : st1.p.groupFds[cpu]? = some (fd : Int) := by
          rw [hst1]
          simp [openedState, hlen]
        cases h2 : forEach (openOne K C cpu) rest st1 with
        | mk s2 st2 =>
          rw [h2] at hrun
          cases s2 with
          | running =>
            obtain ⟨os, hl, hp, htr⟩ := forEach_openOne_siblings K C cpu fd
              (Int.ofNat_nonneg _) rest st1 st2 hgf h2
            simp only [Prod.mk.injEq, true_and] at hrun
            have hp' : st'.p.fds = st2.p.fds ∧
                st'.p.EventAttrsByFormatID = st2.p.EventAttrsByFormatID ∧
                st'.p.ringBuffers = st2.p.ringBuffers ∧ st'.p.groupFds = st2.p.groupFds ∧
                st'.p.options = st2.p.options ∧ st'.trace = st2.trace := by
              rw [← hrun]
              split <;> exact ⟨rfl, rfl, rfl, rfl, rfl, rfl⟩
            obtain ⟨e1, e2, e3, e4, e5, e6⟩ := hp'
            refine ⟨⟨⟨fixup C a, fd, sid⟩, b, os⟩, hl, ?_, ?_, ?_, ?_, ?_, ?_⟩
            · rw [e1, hp, hst1]
              simp [openedState, Row.all]
            · rw [e2, hp, hst1]
              simp [openedState, Row.all, regAll, regPairs]
            · rw [e3, hp, hst1]
              simp [openedState]
            · rw [e4, hp, hst1]
              simp [openedState]
            · rw [e5, hp, hst1]
              simp [openedState]
            · rw [e6, htr, hst1]
              simp [openedState, rowEvents, stepEvents, openFlags]
          | returned e => simp at hrun
          | fatal e => simp at hrun
          | crashed => simp at hrun
    | returned e => simp at hrun
    | fatal e => simp at hrun
    | crashed => simp at hrun

theorem forEach_openCpu_running {σ : Type} (K : Kernel σ) (C : Consts) (ea0 : Ptr)
    (rest : List Ptr) (n c0 : Nat) (st st' : St σ) (hlen : c0 + n ≤ st.p.groupFds.length)
    (hrun : forEach (openCpu K C (ea0 :: rest)) (List.range' c0 n) st = (Status.running, st')) :
    ∃ rows : List Row, rows.length = n ∧ (∀ r ∈ rows, r.sibs.length = rest.length) ∧
      st'.p.fds = st.p.fds ++ rows.flatMap (fun r => r.all.map (fun o => (o.fd : Int))) ∧
      st'.p.EventAttrsByFormatID = regAll st.p.EventAttrsByFormatID
        (rows.flatMap (fun r => regPairs (ea0 :: rest) r.all)) ∧
      st'.p.ringBuffers = st.p.ringBuffers ++ rows.map (fun r => r.rb) ∧
      st'.p.groupFds.length = st.p.groupFds.length ∧
      (∀ i, i < n → st'.p.groupFds[c0 + i]? = (rows[i]?).map (fun r => (r.lead.fd : Int))) ∧
      (∀ i, i < c0 → st'.p.groupFds[i]? = st.p.groupFds[i]?) ∧
      st'.p.options = st.p.options ∧
      st'.trace = st.trace ++
        openTrace C (openFlags C st.p) st.p.options.ringBufferNumPages ea0 rest c0 rows := by
  induction n generalizing c0 st with
  | zero =>
    simp only [List.range', forEach, Prod.mk.injEq, true_and] at hrun
    subst hrun
    exact ⟨[], rfl, by simp, by simp, by simp [regAll], by simp, rfl, by simp,
      fun _ _ => rfl, rfl, by simp [openTrace]⟩
  | succ n ih =>
    simp only [List.range', forEach] at hrun
    cases h1 : openCpu K C (ea0 :: rest) c0 st with
    | mk s1 st1 =>
      rw [h1] at hrun
      cases s1 with
      | running =>
        simp only [] at hrun
        obtain ⟨row, hs, hfds, hreg, hrbs, hgf, hopt, htr⟩ :=
          openCpu_running K C ea0 rest c0 st st1 (by omega) h1
        have hlen1 : c0 + 1 + n ≤ st1.p.groupFds.length := by
          rw [hgf, List.length_set]
          omega
        obtain ⟨rows, hn, hsibs, hfds', hreg', hrbs', hgl', hgi', hgb', hopt', htr'⟩ :=
          ih (c0 + 1) st1 hlen1 hrun
        have hflags : openFlags C st1.p = openFlags C st.p := by
          simp [openFlags, hopt]
        refine ⟨row :: rows, by simp [hn], ?_, ?_, ?_, ?_, ?_, ?_, ?_, ?_, ?_⟩
        · intro r hr
          rcases List.mem_cons.mp hr with rfl | hr
          · exact hs
          · exact hsibs r hr
        · rw [hfds', hfds]
          simp
        · rw [hreg', hreg, List.flatMap_cons, regAll_append]
        · rw [hrbs', hrbs]
          simp
        · rw [hgl', hgf, List.length_set]
        · intro i hi
          cases i with
          | zero =>
            rw [Nat.add_zero, hgb' c0 (by omega), hgf, List.getElem?_set_self (by omega)]
            simp
          | succ j =>
            have := hgi' j (by omega)
            rw [show c0 + (j + 1) = c0 + 1 + j by omega, this]
            simp
        · intro i hi
          rw [hgb' i (by omega), hgf, List.getElem?_set_ne (by omega)]
        · rw [hopt', hopt]
        · rw [htr', htr, hflags, hopt]
          simp [openTrace, List.enumFrom_cons]
      | returned e => simp at hrun
      | fatal e => simp at hrun
      | crashed => simp at hrun

theorem openOne_noReturn {σ : Type} (K : Kernel σ) (C : Consts) (cpu : Nat) (ea : Ptr)
    (st : St σ) : (openOne K C cpu ea st).1.noReturn := by
  intro e
  rcases openOne_outcome K C cpu ea st with ⟨_, h⟩ | ⟨a, ha, ⟨_, h⟩ | ⟨g, _, ⟨e, k, h⟩ |
    ⟨fd, e, k, h⟩ | ⟨fd, sid, e, k, _, h⟩ | ⟨fd, sid, rb, k, _, h⟩⟩⟩ <;> rw [h] <;> simp

theorem openCpu_noReturn {σ : Type} (K : Kernel σ) (C : Consts) (eas : List Ptr) (cpu : Nat)
    (st : St σ) : (openCpu K C eas cpu st).1.noReturn := by
  have h1 := forEach_status Status.noReturn (openOne K C cpu) (fun e => by simp)
    (openOne_noReturn K C cpu) eas
    { st with p := { st.p with groupFds := st.p.groupFds.set cpu (-1) } }
  unfold openCpu
  simp only []
  split
  · intro e
    simp
  · exact h1

theorem Open_returned {σ : Type} (K : Kernel σ) (C : Consts) (ncpu : Nat) (ea0 : Ptr)
    (rest : List Ptr) (st st' : St σ) (e : Option GoError)
    (hrun : Open K C ncpu (ea0 :: rest) st = (Status.returned e, st')) :
    ∃ rows : List Row, rows.length = ncpu ∧ (∀ r ∈ rows, r.sibs.length = rest.length) ∧
      st'.p.fds = st.p.fds ++ rows.flatMap (fun r => r.all.map (fun o => (o.fd : Int))) ∧
      st'.p.EventAttrsByFormatID = regAll []
        (rows.flatMap (fun r => regPairs (ea0 :: rest) r.all)) ∧
      st'.p.ringBuffers = st.p.ringBuffers ++ rows.map (fun r => r.rb) ∧
      st'.p.groupFds = rows.map (fun r => (r.lead.fd : Int)) ∧
      st'.trace = st.trace ++
        openTrace C (openFlags C st.p) st.p.options.ringBufferNumPages ea0 rest 0 rows := by
  cases hfe : forEach (openCpu K C (ea0 :: rest)) (List.range ncpu)
      { st with p := { st.p with
          EventAttrsByFormatID := newEventAttrMap
          groupFds := List.replicate ncpu 0 } } with
  | mk s1 st1 =>
    rw [Open_eq K C ncpu (ea0 :: rest) st s1 st1 hfe] at hrun
    cases s1 with
    | running =>
      simp only [Prod.mk.injEq, Status.returned.injEq] at hrun
      obtain ⟨_, hst⟩ := hrun
      subst hst
      rw [List.range_eq_range'] at hfe
      obtain ⟨rows, hn, hsibs, hfds, hreg, hrbs, hgl, hgi, _, _, htr⟩ :=
        forEach_openCpu_running K C ea0 rest ncpu 0 _ st1 (by simp) hfe
      refine ⟨rows, hn, hsibs, hfds, hreg, hrbs, ?_, htr⟩
      apply List.ext_getElem?
      intro i
      by_cases hi : i < ncpu
      · have := hgi i hi
        rw [Nat.zero_add] at this
        rw [this, List.getElem?_map]
      · have h1 : st1.p.groupFds.length ≤ i := by
          rw [hgl]
          simp
          omega
        have h2 : (rows.map (fun r => (r.lead.fd : Int))).length ≤ i := by
          simp [hn]
          omega
        rw [List.getElem?_eq_none h1, List.getElem?_eq_none h2]
    | returned e' =>
      have hn := forEach_status Status.noReturn (openCpu K C (ea0 :: rest)) (fun e => by simp)
        (openCpu_noReturn K C (ea0 :: rest)) (List.range ncpu)
        { st with p := { st.p with
            EventAttrsByFormatID := newEventAttrMap
            groupFds := List.replicate ncpu 0 } }
      rw [hfe] at hn
      exact absurd rfl (hn e')
    | fatal e' => simp at hrun
    | crashed => simp at hrun

theorem eventAttrMap.keys_insert (m : eventAttrMap) (k : Nat) (v : Ptr) :
    (m.insert k v).map Prod.fst = k :: (m.filter (fun e => e.1 != k)).map Prod.fst := rfl

theorem eventAttrMap.nodup_insert (m : eventAttrMap) (k : Nat) (v : Ptr)
    (h : (m.map Prod.fst).Nodup) : ((m.insert k v).map Prod.fst).Nodup := by
  rw [eventAttrMap.keys_insert, List.nodup_cons]
  constructor
  · intro hk
    obtain ⟨x, hx, hxk⟩ := List.mem_map.mp hk
    have := (List.mem_filter.mp hx).2
    simp [hxk] at this
  · exact h.sublist ((List.filter_sublist m).map Prod.fst)

theorem eventAttrMap.length_insert (m : eventAttrMap) (k : Nat) (v : Ptr)
    (h : k ∉ m.map Prod.fst) : (m.insert k v).length = m.length + 1 := by
  unfold eventAttrMap.insert
  rw [List.length_cons, List.filter_eq_self.mpr]
  intro x hx
  have : x.1 ≠ k := fun hxk => h (List.mem_map.mpr ⟨x, hx, hxk⟩)
  simpa using this

theorem eventAttrMap.get_insert_self (m : eventAttrMap) (k : Nat) (v : Ptr) :
    (m.insert k v).get k = some v := by
  simp [eventAttrMap.insert, eventAttrMap.get, List.lookup]

theorem eventAttrMap.get_filter_ne (m : eventAttrMap) (k k' : Nat) (h : k' ≠ k) :
    List.lookup k' (m.filter (fun e => e.1 != k)) = List.lookup k' m := by
  induction m with
  | nil => rfl
  | cons x xs ih =>
    obtain ⟨a, b⟩ := x
    by_cases ha : a = k
    · subst ha
      have h1 : (k' == a) = false := by simpa using h
      simp [List.filter, List.lookup, h1, ih]
    · have h2 : (a != k) = true := by simpa using ha
      simp only [List.filter, h2, List.lookup]
      cases (k' == a) with
      | true => rfl
      | false => exact ih

theorem eventAttrMap.get_insert_ne (m : eventAttrMap) (k : Nat) (v : Ptr) (k' : Nat)
    (h : k' ≠ k) : (m.insert k v).get k' = m.get k' := by
  have h1 : (k' == k) = false := by simpa using h
  simp only [eventAttrMap.insert, eventAttrMap.get, List.lookup, h1]
  exact eventAttrMap.get_filter_ne m k k' h

theorem regAll_nodup (m : eventAttrMap) (l : List (Nat × Ptr)) (h : (m.map Prod.fst).Nodup) :
    ((regAll m l).map Prod.fst).Nodup := by
  induction l generalizing m with
  | nil => exact h
  | cons x xs ih => exact ih _ (eventAttrMap.nodup_insert m x.1 x.2 h)

theorem regAll_get_of_not_mem (m : eventAttrMap) (l : List (Nat × Ptr)) (k : Nat)
    (h : k ∉ l.map Prod.fst) : (regAll m l).get k = m.get k := by
  induction l generalizing m with
  | nil => rfl
  | cons x xs ih =>
    simp only [List.map_cons, List.mem_cons, not_or] at h
    simp only [regAll, List.foldl_cons]
    have := ih (m.insert x.1 x.2) h.2
    simp only [regAll] at this
    rw [this, eventAttrMap.get_insert_ne m x.1 x.2 k h.1]

theorem regAll_get (m : eventAttrMap) (l : List (Nat × Ptr)) (k : Nat) (v : Ptr)
    (hnd : (l.map Prod.fst).Nodup) (hmem : (k, v) ∈ l) : (regAll m l).get k = some v := by
  induction l generalizing m with
  | nil => simp at hmem
  | cons x xs ih =>
    simp only [List.map_cons, List.nodup_cons] at hnd
    rcases List.mem_cons.mp hmem with rfl | hmem
    · have := regAll_get_of_not_mem (m.insert k v) xs k hnd.1
      simp only [regAll, List.foldl_cons] at this ⊢
      rw [this, eventAttrMap.get_insert_self]
    · exact ih (m.insert x.1 x.2) hnd.2 hmem

theorem regAll_length (l : List (Nat × Ptr)) (hnd : (l.map Prod.fst).Nodup) :
    (regAll [] l).length = l.length := by
  have key : ∀ (l : List (Nat × Ptr)) (m : eventAttrMap), (l.map Prod.fst).Nodup →
      (∀ k ∈ l.map Prod.fst, k ∉ m.map Prod.fst) →
      (regAll m l).length = m.length + l.length := by
    intro l
    induction l with
    | nil => intro m _ _; rfl
    | cons x xs ih =>
      intro m hnd hdis
      simp only [List.map_cons, List.nodup_cons] at hnd
      have hx : x.1 ∉ m.map Prod.fst := hdis x.1 (by simp)
      have h1 := ih (m.insert x.1 x.2) hnd.2 (by
        intro k hk hk'
        rw [eventAttrMap.keys_insert, List.mem_cons] at hk'
        rcases hk' with rfl | hk'
        · exact hnd.1 hk
        · have hsub := (List.filter_sublist (p := fun e : Nat × Ptr => e.1 != x.1) (l := m)).map Prod.fst
          exact hdis k (List.mem_cons_of_mem _ hk) (hsub.subset hk'))
      simp only [regAll, List.foldl_cons] at h1 ⊢
      rw [h1, eventAttrMap.length_insert m x.1 x.2 hx, List.length_cons]
      omega
  have := key l [] hnd (by simp)
  simpa using this

theorem idKeys_stepEvents_flatMap (C : Consts) (flags : Nat) (cpu : Nat) (g : Int)
    (l : List (Ptr × Opened)) :
    idKeys (l.flatMap (fun x => stepEvents C flags cpu g x.1 x.2)) =
      l.map (fun x => toUint64 x.2.streamID) := by
  induction l with
  | nil => rfl
  | cons x xs ih =>
    rw [List.flatMap_cons, idKeys_append, ih]
    rfl

theorem idKeys_rowEvents (C : Consts) (flags : Nat) (pages : Int) (ea0 : Ptr) (rest : List Ptr)
    (cpu : Nat) (row : Row) :
    idKeys (rowEvents C flags pages ea0 rest cpu row) =
      (regPairs (ea0 :: rest) row.all).map Prod.fst := by
  rw [rowEvents, idKeys_append, idKeys_append, idKeys_stepEvents_flatMap]
  simp [regPairs, Row.all, stepEvents, idKeys]

theorem idKeys_openTrace (C : Consts) (flags : Nat) (pages : Int) (ea0 : Ptr) (rest : List Ptr)
    (c0 : Nat) (rows : List Row) :
    idKeys (openTrace C flags pages ea0 rest c0 rows) =
      (rows.flatMap (fun r => regPairs (ea0 :: rest) r.all)).map Prod.fst := by
  induction rows generalizing c0 with
  | nil => rfl
  | cons r rs ih =>
    have h := ih (c0 + 1)
    simp only [openTrace] at h ⊢
    rw [List.enumFrom_cons, List.flatMap_cons, idKeys_append, h, idKeys_rowEvents,
      List.flatMap_cons, List.map_append]

theorem length_regPairs (eas : List Ptr) (os : List Opened) (h : os.length = eas.length) :
    (regPairs eas os).length = eas.length := by
  simp [regPairs, h]

theorem length_flatMap_const {α β : Type} (f : α → List β) (n : Nat) (l : List α)
    (h : ∀ x ∈ l, (f x).length = n) : (l.flatMap f).length = l.length * n := by
  induction l with
  | nil => simp
  | cons x xs ih =>
    rw [List.flatMap_cons, List.length_append, h x (by simp),
      ih (fun y hy => h y (List.mem_cons_of_mem _ hy)), List.length_cons]
    ring

/-- C1 (amended): for a non-empty list `eas` of K descriptors (none of them
nil) and N CPUs, when every counter open, identifier query and ring-buffer
creation of the run succeeds and the kernel returns a different identifier for
each counter, `Open` on a freshly created `Perf` returns `nil` and leaves
exactly N×K handles in `fds`, exactly N ring buffers in `ringBuffers`, and
exactly N×K entries in `EventAttrsByFormatID`, with pairwise distinct keys. -/
theorem Open_counts {σ : Type} (K : Kernel σ) (C : Consts) (ncpu : Nat) (eas : List Ptr)
    (options : List EventMonitorOption) (st : St σ)
    (hne : eas ≠ []) (hfresh : st.p = (NewPerf options).1) (ht : st.trace = [])
    (heas : ∀ ea ∈ eas, ea < st.heap.length)
    (hok : okTrace (Open K C ncpu eas st).2.trace)
    (hids : (idKeys (Open K C ncpu eas st).2.trace).Nodup) :
    (Open K C ncpu eas st).1 = Status.returned none ∧
    (Open K C ncpu eas st).2.p.fds.length = ncpu * eas.length ∧
    (Open K C ncpu eas st).2.p.ringBuffers.length = ncpu ∧
    (Open K C ncpu eas st).2.p.EventAttrsByFormatID.length = ncpu * eas.length ∧
    ((Open K C ncpu eas st).2.p.EventAttrsByFormatID.map Prod.fst).Nodup := by
  have hrun := Open_returns_of_ok K C ncpu eas st ht heas hok
  generalize (Open K C ncpu eas st).2 = st' at hrun hids ⊢
  refine ⟨congrArg Prod.fst hrun, ?_⟩
  cases eas with
  | nil => exact absurd rfl hne
  | cons ea0 rest =>
    obtain ⟨rows, hn, hsibs, hfds, hreg, hrbs, _, htr⟩ :=
      Open_returned K C ncpu ea0 rest st st' none hrun
    have hall : ∀ r ∈ rows, r.all.length = (ea0 :: rest).length := by
      intro r hr
      simp [Row.all, hsibs r hr]
    rw [ht, List.nil_append] at htr
    rw [htr, idKeys_openTrace] at hids
    have hf0 : st.p.fds = [] := by rw [hfresh]; rfl
    have hr0 : st.p.ringBuffers = [] := by rw [hfresh]; rfl
    refine ⟨?_, ?_, ?_, ?_⟩
    · rw [hfds, hf0, List.nil_append,
        length_flatMap_const _ (ea0 :: rest).length rows
          (fun r hr => by rw [List.length_map]; exact hall r hr), hn]
    · rw [hrbs, hr0, List.nil_append, List.length_map, hn]
    · rw [hreg, regAll_length _ hids,
        length_flatMap_const _ (ea0 :: rest).length rows
          (fun r hr => length_regPairs _ _ (hall r hr)), hn]
    · rw [hreg]
      exact regAll_nodup [] _ (by simp)

theorem Open_counts_witness :
    (Open countingKernel linuxConsts 2 [0, 1, 2] mainSt).1 = Status.returned none ∧
    (Open countingKernel linuxConsts 2 [0, 1, 2] mainSt).2.p.fds.length = 2 * 3 ∧
    (Open countingKernel linuxConsts 2 [0, 1, 2] mainSt).2.p.ringBuffers.length = 2 ∧
    (Open countingKernel linuxConsts 2 [0, 1, 2] mainSt).2.p.EventAttrsByFormatID.length
      = 2 * 3 ∧
    ((Open countingKernel linuxConsts 2 [0, 1, 2] mainSt).2.p.EventAttrsByFormatID.map
      Prod.fst).Nodup :=
  Open_counts countingKernel linuxConsts 2 [0, 1, 2] [] mainSt (by decide) rfl rfl
    (by decide) (by unfold okTrace; decide) (by decide)

/-- C1 as stated fails for the empty descriptor list: on two CPUs every call
(there is none) succeeds and `Open` returns, but no ring buffer is made, so
`ringBuffers` has 0 entries and not 2. -/
theorem Open_empty_list_no_ring_buffer :
    (Open countingKernel linuxConsts 2 [] mainSt).1 = Status.returned none ∧
    (Open countingKernel linuxConsts 2 [] mainSt).2.trace = [] ∧
    (Open countingKernel linuxConsts 2 [] mainSt).2.p.ringBuffers.length = 0 ∧
    (Open countingKernel linuxConsts 2 [] mainSt).2.p.groupFds = [-1, -1] := by
  decide

theorem openCpu_nil_trace {σ : Type} (K : Kernel σ) (C : Consts) (tr : List Event) (cpu : Nat)
    (st : St σ) (h : st.trace = tr) : (openCpu K C [] cpu st).2.trace = tr := by
  unfold openCpu
  simp only [forEach]
  split <;> exact h

theorem Open_nil_trace {σ : Type} (K : Kernel σ) (C : Consts) (ncpu : Nat) (st : St σ) :
    (Open K C ncpu [] st).2.trace = st.trace := by
  have h1 := forEach_state_inv (fun s : St σ => s.trace = st.trace) (openCpu K C [])
    (fun cpu s hs => openCpu_nil_trace K C st.trace cpu s hs) (List.range ncpu)
    { st with p := { st.p with
        EventAttrsByFormatID := newEventAttrMap
        groupFds := List.replicate ncpu 0 } } rfl
  unfold Open
  simp only []
  split
  · rename_i st1 heq
    rw [heq] at h1
    exact h1
  · exact h1

theorem mem_regPairs (eas : List Ptr) (os : List Opened) (j : Nat) (ea : Ptr) (o : Opened)
    (hea : eas[j]? = some ea) (ho : os[j]? = some o) :
    (toUint64 o.streamID, ea) ∈ regPairs eas os := by
  have hz : (eas.zip os)[j]? = some (ea, o) := List.getElem?_zip_eq_some.mpr ⟨hea, ho⟩
  exact List.mem_map.mpr ⟨(ea, o), List.getElem?_mem hz, rfl⟩

/-- C2 (amended): when every call of a run of `Open` succeeds (no descriptor
being nil) and the kernel gives a different identifier to each counter, `Open`
returns `nil`, the calls made are those of `openTraceOf` for some answers
`rows` of the kernel (one row per CPU, one answer per descriptor, when the list
is not empty), and the registry maps the identifier answered for the j-th
descriptor on any CPU to that j-th descriptor. When no descriptor occurs twice
in the list, the identifiers of two different counters of the group of one CPU
resolve to different descriptors. -/
theorem Open_registry_resolves {σ : Type} (K : Kernel σ) (C : Consts) (ncpu : Nat)
    (eas : List Ptr) (st : St σ) (ht : st.trace = [])
    (heas : ∀ ea ∈ eas, ea < st.heap.length)
    (hok : okTrace (Open K C ncpu eas st).2.trace)
    (hids : (idKeys (Open K C ncpu eas st).2.trace).Nodup) :
    (Open K C ncpu eas st).1 = Status.returned none ∧
    ∃ rows : List Row,
      (Open K C ncpu eas st).2.trace =
        openTraceOf C (openFlags C st.p) st.p.options.ringBufferNumPages eas rows ∧
      (eas ≠ [] → rows.length = ncpu ∧ ∀ r ∈ rows, r.all.length = eas.length) ∧
      (∀ (c : Nat) (row : Row) (j : Nat) (o : Opened) (ea : Ptr), rows[c]? = some row →
        row.all[j]? = some o → eas[j]? = some ea →
        (Open K C ncpu eas st).2.p.EventAttrsByFormatID.get (toUint64 o.streamID) = some ea) ∧
      (eas.Nodup → ∀ (c : Nat) (row : Row) (j j' : Nat) (o o' : Opened),
        rows[c]? = some row → row.all[j]? = some o → row.all[j']? = some o' → j ≠ j' →
        (Open K C ncpu eas st).2.p.EventAttrsByFormatID.get (toUint64 o.streamID) ≠
          (Open K C ncpu eas st).2.p.EventAttrsByFormatID.get (toUint64 o'.streamID)) := by
  have hrun := Open_returns_of_ok K C ncpu eas st ht heas hok
  generalize (Open K C ncpu eas st).2 = st' at hrun hids ⊢
  refine ⟨congrArg Prod.fst hrun, ?_⟩
  cases eas with
  | nil =>
    refine ⟨[], ?_, fun h => absurd rfl h, ?_, ?_⟩
    · have := Open_nil_trace K C ncpu st
      rw [hrun, ht] at this
      exact this
    · intro c row j o ea h
      simp at h
    · intro _ c row j j' o o' h
      simp at h
  | cons ea0 rest =>
    obtain ⟨rows, hn, hsibs, _, hreg, _, _, htr⟩ :=
      Open_returned K C ncpu ea0 rest st st' none hrun
    rw [ht, List.nil_append] at htr
    rw [htr, idKeys_openTrace] at hids
    have hget : ∀ (c : Nat) (row : Row) (j : Nat) (o : Opened) (ea : Ptr),
        rows[c]? = some row → row.all[j]? = some o →
        (ea0 :: rest)[j]? = some ea →
        st'.p.EventAttrsByFormatID.get (toUint64 o.streamID) = some ea := by
      intro c row j o ea hrow ho hea
      rw [hreg]
      apply regAll_get [] _ _ _ hids
      exact List.mem_flatMap.mpr ⟨row, List.getElem?_mem hrow, mem_regPairs _ _ j ea o hea ho⟩
    have hlens : ∀ r ∈ rows, r.all.length = (ea0 :: rest).length := by
      intro r hr
      simp [Row.all, hsibs r hr]
    refine ⟨rows, htr, fun _ => ⟨hn, hlens⟩, hget, ?_⟩
    intro hnd c row j j' o o' hrow ho ho' hjj
    have hall : row.all.length = (ea0 :: rest).length := hlens row (List.getElem?_mem hrow)
    have hj : j < (ea0 :: rest).length := by
      rw [← hall]
      exact (List.getElem?_eq_some.mp ho).1
    have hj' : j' < (ea0 :: rest).length := by
      rw [← hall]
      exact (List.getElem?_eq_some.mp ho').1
    rw [hget c row j o _ hrow ho (List.getElem?_eq_getElem hj),
      hget c row j' o' _ hrow ho' (List.getElem?_eq_getElem hj')]
    intro heq
    rw [Option.some.injEq] at heq
    exact hjj ((List.Nodup.getElem_inj_iff hnd).mp heq)

theorem Open_registry_resolves_witness :
    (Open countingKernel linuxConsts 2 [0, 1, 2] mainSt).1 = Status.returned none ∧
    ∃ rows : List Row,
      (Open countingKernel linuxConsts 2 [0, 1, 2] mainSt).2.trace =
        openTraceOf linuxConsts (openFlags linuxConsts mainSt.p)
          mainSt.p.options.ringBufferNumPages [0, 1, 2] rows ∧
      (([0, 1, 2] : List Ptr) ≠ [] → rows.length = 2 ∧
        ∀ r ∈ rows, r.all.length = ([0, 1, 2] : List Ptr).length) ∧
      (∀ (c : Nat) (row : Row) (j : Nat) (o : Opened) (ea : Ptr), rows[c]? = some row →
        row.all[j]? = some o → [0, 1, 2][j]? = some ea →
        (Open countingKernel linuxConsts 2 [0, 1, 2] mainSt).2.p.EventAttrsByFormatID.get
          (toUint64 o.streamID) = some ea) ∧
      (([0, 1, 2] : List Ptr).Nodup → ∀ (c : Nat) (row : Row) (j j' : Nat) (o o' : Opened),
        rows[c]? = some row → row.all[j]? = some o → row.all[j']? = some o' → j ≠ j' →
        (Open countingKernel linuxConsts 2 [0, 1, 2] mainSt).2.p.EventAttrsByFormatID.get
            (toUint64 o.streamID) ≠
          (Open countingKernel linuxConsts 2 [0, 1, 2] mainSt).2.p.EventAttrsByFormatID.get
            (toUint64 o'.streamID)) :=
  Open_registry_resolves countingKernel linuxConsts 2 [0, 1, 2] mainSt rfl (by decide)
    (by unfold okTrace; decide) (by decide)

/-- C2 as stated fails when a descriptor is passed twice: on one CPU with the
list `[0, 0]` every call succeeds, the kernel gives the two counters of the
group the different identifiers 103 and 104, and both resolve to the same
descriptor 0. -/
theorem Open_repeated_descriptor_resolves_same :
    (Open countingKernel linuxConsts 1 [0, 0] mainSt).1 = Status.returned none ∧
    idKeys (Open countingKernel linuxConsts 1 [0, 0] mainSt).2.trace = [103, 104] ∧
    (Open countingKernel linuxConsts 1 [0, 0] mainSt).2.p.EventAttrsByFormatID.get 103
      = some 0 ∧
    (Open countingKernel linuxConsts 1 [0, 0] mainSt).2.p.EventAttrsByFormatID.get 104
      = some 0 := by
  decide

theorem Run_eq_enableAll {σ : Type} (K : Kernel σ) (onSample : Option Nat) (fuel : Nat)
    (st : St σ) :
    Run K onSample fuel st =
      match enableAll K onSample st with
      | (Status.running, s) => runLoop K fuel s.2 s.1
      | (r, s) => (r, s.1) := rfl

theorem toInt32_fd (fd : Fd) : toInt32 ((fd : Nat) : Int) = ((fd : Nat) : Int) := by
  have h := fd.isLt
  unfold toInt32
  omega

theorem enableOne_running {σ : Type} (K : Kernel σ) (i : Nat) (fd : Int) (st st' : St σ)
    (pfs pfs' : List PollFd)
    (h : enableOne K (i, fd) (st, pfs) = (Status.running, (st', pfs'))) :
    st'.p = st.p ∧ ∃ f, pfs[i]? = some f ∧
      pfs' = pfs.set i { f with Fd := toInt32 fd, Events := POLLIN } := by
  unfold enableOne at h
  simp only [] at h
  cases h1 : (K.enable st.k fd).1 with
  | some e => simp [h1] at h
  | none =>
    simp only [h1] at h
    cases h2 : pfs[i]? with
    | none => simp [h2] at h
    | some f =>
      simp only [h2, Prod.mk.injEq, true_and] at h
      obtain ⟨hst, hpfs⟩ := h
      exact ⟨by rw [← hst], f, rfl, hpfs.symm⟩

theorem forEach_enableOne_running {σ : Type} (K : Kernel σ) (gf : List Int) (c0 : Nat)
    (st st' : St σ) (pfs pfs' : List PollFd)
    (h : forEach (enableOne K) (gf.enumFrom c0) (st, pfs) = (Status.running, (st', pfs'))) :
    st'.p = st.p ∧ pfs'.length = pfs.length ∧
      (∀ i, i < c0 → pfs'[i]? = pfs[i]?) ∧
      ∀ i fd, gf[i]? = some fd → ∃ f, pfs[c0 + i]? = some f ∧
        pfs'[c0 + i]? = some { f with Fd := toInt32 fd, Events := POLLIN } := by
  induction gf generalizing c0 st pfs with
  | nil =>
    simp only [List.enumFrom_nil, forEach, Prod.mk.injEq, true_and] at h
    obtain ⟨h1, h2⟩ := h
    subst h1
    subst h2
    exact ⟨rfl, rfl, fun _ _ => rfl, fun i fd hi => by simp at hi⟩
  | cons fd0 rest ih =>
    simp only [List.enumFrom_cons, forEach] at h
    cases h1 : enableOne K (c0, fd0) (st, pfs) with
    | mk s1 r1 =>
      obtain ⟨st1, pfs1⟩ := r1
      rw [h1] at h
      cases s1 with
      | running =>
        simp only [] at h
        obtain ⟨hp1, f, hf, hpfs1⟩ := enableOne_running K c0 fd0 st st1 pfs pfs1 h1
        obtain ⟨hp, hl, hbelow, hat⟩ := ih (c0 + 1) st1 pfs1 h
        have hc0 : c0 < pfs.length := (List.getElem?_eq_some.mp hf).1
        refine ⟨hp.trans hp1, ?_, ?_, ?_⟩
        · rw [hl, hpfs1, List.length_set]
        · intro i hi
          rw [hbelow i (by omega), hpfs1, List.getElem?_set_ne (by omega)]
        · intro i fd hi
          cases i with
          | zero =>
            simp only [List.getElem?_cons_zero, Option.some.injEq] at hi
            subst hi
            refine ⟨f, hf, ?_⟩
            rw [Nat.add_zero, hbelow c0 (by omega), hpfs1, List.getElem?_set_self hc0]
          | succ j =>
            simp only [List.getElem?_cons_succ] at hi
            obtain ⟨f', hf', hat'⟩ := hat j fd hi
            rw [hpfs1, List.getElem?_set_ne (by omega)] at hf'
            rw [show c0 + (j + 1) = c0 + 1 + j by omega]
            exact ⟨f', hf', hat'⟩
      | returned e => simp at h
      | fatal e => simp at h
      | crashed => simp at h

theorem enableAll_running {σ : Type} (K : Kernel σ) (onSample : Option Nat) (st s : St σ)
    (pollFds : List PollFd)
    (h : enableAll K onSample st = (Status.running, (s, pollFds))) :
    s.p = { st.p with onSample := onSample } ∧
      pollFds = st.p.groupFds.map (fun fd => { Fd := toInt32 fd, Events := POLLIN }) := by
  unfold enableAll at h
  rw [List.enum] at h
  obtain ⟨hp, hl, _, hat⟩ := forEach_enableOne_running K _ 0 _ s _ pollFds h
  refine ⟨hp, ?_⟩
  apply List.ext_getElem?
  intro i
  rw [List.getElem?_map]
  cases hi : st.p.groupFds[i]? with
  | none =>
    have h1 : st.p.groupFds.length ≤ i := List.getElem?_eq_none_iff.mp hi
    rw [Option.map_none']
    apply List.getElem?_eq_none
    rw [hl, List.length_replicate]
    exact h1
  | some fd =>
    obtain ⟨f, hf, hat'⟩ := hat i fd hi
    rw [Nat.zero_add] at hf hat'
    have hf0 : f = {} := by
      have hlt := (List.getElem?_eq_some.mp hf).1
      rw [List.getElem?_eq_getElem hlt, List.getElem_replicate] at hf
      exact (Option.some.inj hf).symm
    rw [hat', hf0]
    rfl

theorem ringCalls_append (a b : List Event) : ringCalls (a ++ b) = ringCalls a ++ ringCalls b := by
  simp [ringCalls, List.filterMap_append]

theorem ringCalls_stepEvents_flatMap (C : Consts) (flags : Nat) (cpu : Nat) (g : Int)
    (l : List (Ptr × Opened)) :
    ringCalls (l.flatMap (fun x => stepEvents C flags cpu g x.1 x.2)) = [] := by
  induction l with
  | nil => rfl
  | cons x xs ih =>
    rw [List.flatMap_cons, ringCalls_append, ih]
    rfl

theorem ringCalls_openTrace (C : Consts) (flags : Nat) (pages : Int) (ea0 : Ptr)
    (rest : List Ptr) (c0 : Nat) (rows : List Row) :
    ringCalls (openTrace C flags pages ea0 rest c0 rows) =
      rows.map (fun r => (((r.lead.fd : Nat) : Int), pages, Res.ok r.rb)) := by
  induction rows generalizing c0 with
  | nil => rfl
  | cons r rs ih =>
    have h := ih (c0 + 1)
    simp only [openTrace] at h ⊢
    rw [List.enumFrom_cons, List.flatMap_cons, ringCalls_append, h, rowEvents,
      ringCalls_append, ringCalls_append, ringCalls_stepEvents_flatMap]
    rfl

theorem zipWith_map_map {α β γ δ : Type} (f : β → γ → δ) (a : α → β) (b : α → γ)
    (l : List α) : List.zipWith f (l.map a) (l.map b) = l.map (fun x => f (a x) (b x)) := by
  induction l with
  | nil => rfl
  | cons x xs ih => simp [ih]

theorem drainOne_reads {σ : Type} (K : Kernel σ) (i : Nat) (pf : PollFd) (st : St σ)
    (rb : RingBuffer) (hrb : st.p.ringBuffers[i]? = some rb)
    (hin : pf.Revents &&& POLLIN ≠ 0) :
    ∃ rest, (drainOne K (i, pf) st).2.trace =
      st.trace ++ Event.ringRead rb (K.ringRead st.k rb).1 :: rest := by
  unfold drainOne
  rw [if_pos hin]
  simp only [hrb]
  obtain ⟨rest, hrest⟩ := forEach_rel St.continuedBy St.continuedBy_refl St.continuedBy_trans _
    (readSample_continuedBy K) (K.ringRead st.k rb).1
    { st with k := (K.ringRead st.k rb).2,
              trace := st.trace ++ [Event.ringRead rb (K.ringRead st.k rb).1] }
  exact ⟨rest, by rw [hrest]; simp⟩

/-- C10: when every call of a run of `Open` succeeds, on a freshly created
`Perf` with a non-empty list of descriptors (none of them nil), `Open` returns
`nil`; `groupFds` and `ringBuffers` both have one entry per CPU; `groupFds[i]`
is the descriptor the leader of CPU `i` was opened with in the trace, never
negative; the ring buffers were created over the entries of `groupFds`,
position by position. So when `Run` has enabled the leaders, `pollFds[i].Fd`
is `groupFds[i]`, every index of `pollFds` is an index of `ringBuffers`, and
the drain of a ready position `i` reads `ringBuffers[i]`. -/
theorem Open_leaders_and_ring_buffers {σ : Type} (K : Kernel σ) (C : Consts) (ncpu : Nat)
    (eas : List Ptr) (options : List EventMonitorOption) (st : St σ)
    (hne : eas ≠ []) (hfresh : st.p = (NewPerf options).1) (ht : st.trace = [])
    (heas : ∀ ea ∈ eas, ea < st.heap.length)
    (hok : okTrace (Open K C ncpu eas st).2.trace) :
    (Open K C ncpu eas st).1 = Status.returned none ∧
    (Open K C ncpu eas st).2.p.groupFds.length = ncpu ∧
    (Open K C ncpu eas st).2.p.ringBuffers.length = ncpu ∧
    (∃ rows : List Row,
      (Open K C ncpu eas st).2.trace =
        openTraceOf C (openFlags C st.p) st.p.options.ringBufferNumPages eas rows ∧
      (Open K C ncpu eas st).2.p.groupFds = rows.map (fun r => ((r.lead.fd : Nat) : Int)) ∧
      (Open K C ncpu eas st).2.p.ringBuffers = rows.map (fun r => r.rb)) ∧
    (∀ (i : Nat) (fd : Int), (Open K C ncpu eas st).2.p.groupFds[i]? = some fd →
      0 ≤ fd ∧ fd ≠ -1) ∧
    ringCalls (Open K C ncpu eas st).2.trace =
      List.zipWith (fun fd rb => (fd, st.p.options.ringBufferNumPages, Res.ok rb))
        (Open K C ncpu eas st).2.p.groupFds (Open K C ncpu eas st).2.p.ringBuffers ∧
    (∀ onSample (s : St σ) (pollFds : List PollFd),
      enableAll K onSample (Open K C ncpu eas st).2 = (Status.running, (s, pollFds)) →
      s.p.ringBuffers = (Open K C ncpu eas st).2.p.ringBuffers ∧
      pollFds =
        (Open K C ncpu eas st).2.p.groupFds.map (fun fd => { Fd := fd, Events := POLLIN }) ∧
      ∀ i, i < pollFds.length → ∃ rb, s.p.ringBuffers[i]? = some rb ∧
        ∀ (pf : PollFd) (s2 : St σ), s2.p.ringBuffers = s.p.ringBuffers →
          pf.Revents &&& POLLIN ≠ 0 →
          ∃ rest, (drainOne K (i, pf) s2).2.trace =
            s2.trace ++ Event.ringRead rb (K.ringRead s2.k rb).1 :: rest) := by
  have hrun := Open_returns_of_ok K C ncpu eas st ht heas hok
  generalize (Open K C ncpu eas st).2 = st' at hrun ⊢
  refine ⟨congrArg Prod.fst hrun, ?_⟩
  cases eas with
  | nil => exact absurd rfl hne
  | cons ea0 rest =>
    obtain ⟨rows, hn, _, _, _, hrbs, hgf, htr⟩ := Open_returned K C ncpu ea0 rest st st' none hrun
    rw [ht, List.nil_append] at htr
    have hr0 : st.p.ringBuffers = [] := by rw [hfresh]; rfl
    rw [hr0, List.nil_append] at hrbs
    have hnonneg : ∀ (i : Nat) (fd : Int), st'.p.groupFds[i]? = some fd → 0 ≤ fd ∧ fd ≠ -1 := by
      intro i fd hi
      rw [hgf, List.getElem?_map] at hi
      cases hrow : rows[i]? with
      | none => simp [hrow] at hi
      | some row =>
        simp only [hrow, Option.map_some', Option.some.injEq] at hi
        subst hi
        have := Int.ofNat_nonneg (row.lead.fd : Nat)
        constructor
        · exact this
        · intro h
          rw [h] at this
          exact absurd this (by decide)
    refine ⟨by rw [hgf, List.length_map, hn], by rw [hrbs, List.length_map, hn],
      ⟨rows, htr, hgf, hrbs⟩, hnonneg, ?_, ?_⟩
    · rw [htr, hgf, hrbs, zipWith_map_map]
      exact ringCalls_openTrace C _ _ ea0 rest 0 rows
    · intro onSample s pollFds hen
      obtain ⟨hp, hpfs⟩ := enableAll_running K onSample st' s pollFds hen
      have hsrb : s.p.ringBuffers = st'.p.ringBuffers := by rw [hp]
      have hpfs' : pollFds = st'.p.groupFds.map (fun fd => { Fd := fd, Events := POLLIN }) := by
        rw [hpfs, hgf, List.map_map, List.map_map]
        apply List.map_congr_left
        intro r _
        simp only [Function.comp, toInt32_fd]
      refine ⟨hsrb, hpfs', ?_⟩
      intro i hi
      have hi' : i < st'.p.ringBuffers.length := by
        rw [hpfs', List.length_map, hgf, List.length_map] at hi
        rw [hrbs, List.length_map]
        exact hi
      refine ⟨st'.p.ringBuffers[i], by rw [hsrb]; exact List.getElem?_eq_getElem hi', ?_⟩
      intro pf s2 hs2 hin
      exact drainOne_reads K i pf s2 _ (by rw [hs2, hsrb]; exact List.getElem?_eq_getElem hi') hin

theorem Open_leaders_and_ring_buffers_witness :
    (Open countingKernel linuxConsts 2 [0, 1, 2] mainSt).1 = Status.returned none ∧
    (Open countingKernel linuxConsts 2 [0, 1, 2] mainSt).2.p.groupFds.length = 2 ∧
    (Open countingKernel linuxConsts 2 [0, 1, 2] mainSt).2.p.ringBuffers.length = 2 ∧
    ringCalls (Open countingKernel linuxConsts 2 [0, 1, 2] mainSt).2.trace =
      List.zipWith (fun fd rb => (fd, mainSt.p.options.ringBufferNumPages, Res.ok rb))
        (Open countingKernel linuxConsts 2 [0, 1, 2] mainSt).2.p.groupFds
        (Open countingKernel linuxConsts 2 [0, 1, 2] mainSt).2.p.ringBuffers :=
  have h := Open_leaders_and_ring_buffers countingKernel linuxConsts 2 [0, 1, 2] [] mainSt
    (by decide) rfl rfl (by decide) (by unfold okTrace; decide)
  ⟨h.1, h.2.1, h.2.2.1, h.2.2.2.2.2.1⟩

theorem openCalls_append (a b : List Event) : openCalls (a ++ b) = openCalls a ++ openCalls b := by
  simp [openCalls, List.filterMap_append]

theorem openOne_calls {σ : Type} (K : Kernel σ) (C : Consts) (cpu : Nat) (ea : Ptr) (st : St σ)
    (g : Int) (hg : st.p.groupFds[cpu]? = some g) :
    ∃ rs : List (EventAttr × Res Fd), rs.length ≤ 1 ∧
      openCalls (openOne K C cpu ea st).2.trace =
        openCalls st.trace ++ groupCalls (openFlags C st.p) cpu g [ea] rs ∧
      (∀ r ∈ rs, r.1.Size = C.sizeofPerfEventAttrVer5) ∧
      (openOne K C cpu ea st).2.p.options = st.p.options ∧
      (openOne K C cpu ea st).2.p.groupFds.length = st.p.groupFds.length ∧
      ((openOne K C cpu ea st).1 = Status.running → ∃ a fd, rs = [(a, Res.ok fd)] ∧
        (openOne K C cpu ea st).2.p.groupFds =
          if g < 0 then st.p.groupFds.set cpu ((fd : Nat) : Int) else st.p.groupFds) := by
  rcases openOne_outcome K C cpu ea st with ⟨_, h⟩ | ⟨a, ha, ⟨hgn, h⟩ | ⟨g', hg', ⟨e, k, h⟩ |
    ⟨fd, e, k, h⟩ | ⟨fd, sid, e, k, _, h⟩ | ⟨fd, sid, rb, k, hrb, h⟩⟩⟩
  · rw [h]
    exact ⟨[], by simp, by simp [groupCalls], by simp, rfl, rfl, fun h => by simp at h⟩
  · rw [hg] at hgn
    simp at hgn
  · rw [hg, Option.some.injEq] at hg'
    subst hg'
    rw [h]
    refine ⟨[(fixup C a, Res.error e)], by simp, ?_, by simp [fixup], rfl, rfl,
      fun h => by simp at h⟩
    simp only [failedOpen, openCalls_append]
    rfl
  · rw [hg, Option.some.injEq] at hg'
    subst hg'
    rw [h]
    refine ⟨[(fixup C a, Res.ok fd)], by simp, ?_, by simp [fixup], rfl, rfl,
      fun h => by simp at h⟩
    simp only [failedIoctl, openCalls_append]
    rfl
  · rw [hg, Option.some.injEq] at hg'
    subst hg'
    rw [h]
    refine ⟨[(fixup C a, Res.ok fd)], by simp, ?_, by simp [fixup], rfl, rfl,
      fun h => by simp at h⟩
    simp only [failedRing, openCalls_append]
    rfl
  · rw [hg, Option.some.injEq] at hg'
    subst hg'
    rw [h]
    refine ⟨[(fixup C a, Res.ok fd)], by simp, ?_, by simp [fixup], rfl, ?_, ?_⟩
    · cases rb <;> (simp only [openedState, openCalls_append]; rfl)
    · cases rb <;> simp [openedState]
    · intro _
      refine ⟨fixup C a, fd, rfl, ?_⟩
      cases rb with
      | none =>
        have : ¬ g < 0 := fun hlt => absurd rfl (hrb.mp hlt)
        rw [if_neg this]
        rfl
      | some b =>
        have : g < 0 := hrb.mpr (by simp)
        rw [if_pos this]
        rfl

theorem okButLast_of_length_le_one (rs : List (EventAttr × Res Fd)) (h : rs.length ≤ 1) :
    okButLast rs := by
  intro j r _ hj
  omega

theorem okButLast_cons (a : EventAttr) (fd : Fd) (rs : List (EventAttr × Res Fd))
    (h : okButLast rs) : okButLast ((a, Res.ok fd) :: rs) := by
  intro j r hjr hj
  cases j with
  | zero =>
    simp only [List.getElem?_cons_zero, Option.some.injEq] at hjr
    exact ⟨fd, by rw [← hjr]⟩
  | succ j =>
    simp only [List.getElem?_cons_succ] at hjr
    simp only [List.length_cons] at hj
    exact h j r hjr (by omega)

theorem forEach_openOne_calls {σ : Type} (K : Kernel σ) (C : Consts) (cpu : Nat) (g : Int)
    (hg0 : 0 ≤ g) (eas : List Ptr) (st : St σ) (hg : st.p.groupFds[cpu]? = some g) :
    ∃ rs : List (EventAttr × Res Fd), rs.length ≤ eas.length ∧
      openCalls (forEach (openOne K C cpu) eas st).2.trace =
        openCalls st.trace ++ groupCalls (openFlags C st.p) cpu g eas rs ∧
      (∀ r ∈ rs, r.1.Size = C.sizeofPerfEventAttrVer5) ∧
      (forEach (openOne K C cpu) eas st).2.p.options = st.p.options ∧
      (forEach (openOne K C cpu) eas st).2.p.groupFds.length = st.p.groupFds.length ∧
      ((forEach (openOne K C cpu) eas st).1 = Status.running →
        rs.length = eas.length ∧ allOk rs) ∧
      okButLast rs := by
  induction eas generalizing st with
  | nil =>
    exact ⟨[], by simp, by simp [forEach, groupCalls], by simp, rfl, rfl,
      fun _ => ⟨rfl, fun r hr => by simp at hr⟩, okButLast_of_length_le_one [] (by simp)⟩
  | cons ea rest ih =>
    obtain ⟨rs1, hl1, hc1, hs1, ho1, hgl1, hr1⟩ := openOne_calls K C cpu ea st g hg
    simp only [forEach]
    cases h1 : openOne K C cpu ea st with
    | mk s1 st1 =>
      rw [h1] at hc1 ho1 hgl1 hr1
      have hstop : s1 ≠ Status.running →
          ∃ rs : List (EventAttr × Res Fd), rs.length ≤ (ea :: rest).length ∧
          openCalls st1.trace =
            openCalls st.trace ++ groupCalls (openFlags C st.p) cpu g (ea :: rest) rs ∧
          (∀ r ∈ rs, r.1.Size = C.sizeofPerfEventAttrVer5) ∧
          st1.p.options = st.p.options ∧ st1.p.groupFds.length = st.p.groupFds.length ∧
          okButLast rs := by
        intro _
        refine ⟨rs1, by simp; omega, ?_, hs1, ho1, hgl1, okButLast_of_length_le_one rs1 hl1⟩
        rw [hc1]
        match rs1, hl1 with
        | [], _ => simp [groupCalls]
        | [x], _ => simp [groupCalls]
      cases s1 with
      | running =>
        obtain ⟨a, fd, hrs1, hgf⟩ := hr1 rfl
        rw [if_neg (not_lt.mpr hg0)] at hgf
        have hg1 : st1.p.groupFds[cpu]? = some g := by
          have : st1.p.groupFds = st.p.groupFds := hgf
          rw [this]
          exact hg
        obtain ⟨rs, hl, hc, hs, ho, hgl, hr, hob⟩ := ih st1 hg1
        have hfl : openFlags C st1.p = openFlags C st.p := by
          have : st1.p.options = st.p.options := ho1
          simp [openFlags, this]
        refine ⟨(a, Res.ok fd) :: rs, by simp; omega, ?_, ?_, ?_, ?_, ?_,
          okButLast_cons a fd rs hob⟩
        · rw [hc, hc1, hrs1, hfl]
          simp [groupCalls]
        · intro r hr'
          rcases List.mem_cons.mp hr' with rfl | hr'
          · exact hs1 _ (by rw [hrs1]; simp)
          · exact hs r hr'
        · exact ho.trans ho1
        · exact hgl.trans hgl1
        · intro hrun
          obtain ⟨h2, h3⟩ := hr hrun
          refine ⟨by simp [h2], ?_⟩
          intro r hr'
          rcases List.mem_cons.mp hr' with rfl | hr'
          · exact ⟨fd, rfl⟩
          · exact h3 r hr'
      | returned e =>
        obtain ⟨rs, h⟩ := hstop (by simp)
        exact ⟨rs, h.1, h.2.1, h.2.2.1, h.2.2.2.1, h.2.2.2.2.1, fun h => by simp at h,
          h.2.2.2.2.2⟩
      | fatal e =>
        obtain ⟨rs, h⟩ := hstop (by simp)
        exact ⟨rs, h.1, h.2.1, h.2.2.1, h.2.2.2.1, h.2.2.2.2.1, fun h => by simp at h,
          h.2.2.2.2.2⟩
      | crashed =>
        obtain ⟨rs, h⟩ := hstop (by simp)
        exact ⟨rs, h.1, h.2.1, h.2.2.1, h.2.2.2.1, h.2.2.2.2.1, fun h => by simp at h,
          h.2.2.2.2.2⟩

theorem openCpu_proj {σ : Type} (K : Kernel σ) (C : Consts) (eas : List Ptr) (cpu : Nat)
    (st : St σ) :
    (openCpu K C eas cpu st).1 = (forEach (openOne K C cpu) eas
        { st with p := { st.p with groupFds := st.p.groupFds.set cpu (-1) } }).1 ∧
    (openCpu K C eas cpu st).2.trace = (forEach (openOne K C cpu) eas
        { st with p := { st.p with groupFds := st.p.groupFds.set cpu (-1) } }).2.trace ∧
    (openCpu K C eas cpu st).2.p.options = (forEach (openOne K C cpu) eas
        { st with p := { st.p with groupFds := st.p.groupFds.set cpu (-1) } }).2.p.options ∧
    (openCpu K C eas cpu st).2.p.groupFds = (forEach (openOne K C cpu) eas
        { st with p := { st.p with groupFds := st.p.groupFds.set cpu (-1) } }).2.p.groupFds := by
  unfold openCpu
  simp only []
  split
  · rename_i st2 heq
    rw [heq]
    split <;> exact ⟨rfl, rfl, rfl, rfl⟩
  · exact ⟨rfl, rfl, rfl, rfl⟩

theorem forEach_openOne_leader_calls {σ : Type} (K : Kernel σ) (C : Consts) (eas : List Ptr)
    (cpu : Nat) (st : St σ) (hlen : cpu < st.p.groupFds.length)
    (hg : st.p.groupFds[cpu]? = some (-1)) :
    ∃ row : List (EventAttr × Res Fd), row.length ≤ eas.length ∧
      openCalls (forEach (openOne K C cpu) eas st).2.trace =
        openCalls st.trace ++ rowCalls (openFlags C st.p) eas cpu row ∧
      (∀ r ∈ row, r.1.Size = C.sizeofPerfEventAttrVer5) ∧ leaderFirst row ∧
      (forEach (openOne K C cpu) eas st).2.p.options = st.p.options ∧
      (forEach (openOne K C cpu) eas st).2.p.groupFds.length = st.p.groupFds.length ∧
      ((forEach (openOne K C cpu) eas st).1 = Status.running →
        row.length = eas.length ∧ allOk row) ∧
      okButLast row := by
  cases eas with
  | nil =>
    exact ⟨[], by simp, by simp [forEach, rowCalls], by simp, fun r0 rs h => by simp at h,
      rfl, rfl, fun _ => ⟨rfl, fun r hr => by simp at hr⟩,
      okButLast_of_length_le_one [] (by simp)⟩
  | cons ea0 rest =>
    obtain ⟨rs1, hl1, hc1, hs1, ho1, hgl1, hr1⟩ := openOne_calls K C cpu ea0 st (-1) hg
    simp only [forEach]
    cases h1 : openOne K C cpu ea0 st with
    | mk s1 st1 =>
      rw [h1] at hc1 ho1 hgl1 hr1
      have hstop : s1 ≠ Status.running →
          ∃ row : List (EventAttr × Res Fd), row.length ≤ (ea0 :: rest).length ∧
          openCalls st1.trace =
            openCalls st.trace ++ rowCalls (openFlags C st.p) (ea0 :: rest) cpu row ∧
          (∀ r ∈ row, r.1.Size = C.sizeofPerfEventAttrVer5) ∧ leaderFirst row ∧
          st1.p.options = st.p.options ∧ st1.p.groupFds.length = st.p.groupFds.length ∧
          okButLast row := by
        intro _
        refine ⟨rs1, by simp; omega, ?_, hs1, ?_, ho1, hgl1,
          okButLast_of_length_le_one rs1 hl1⟩
        · rw [hc1]
          match rs1, hl1 with
          | [], _ => simp [groupCalls, rowCalls]
          | [x], _ => simp [groupCalls, rowCalls]
        · intro r0 rs hrow hne
          rw [hrow] at hl1
          cases rs with
          | nil => exact absurd rfl hne
          | cons y ys => simp at hl1
      cases s1 with
      | running =>
        obtain ⟨a, fd, hrs1, hgf⟩ := hr1 rfl
        rw [if_pos (by decide)] at hgf
        have hgf' : st1.p.groupFds = st.p.groupFds.set cpu ((fd : Nat) : Int) := hgf
        have hg1 : st1.p.groupFds[cpu]? = some ((fd : Nat) : Int) := by
          rw [hgf', List.getElem?_set_self hlen]
        obtain ⟨rs, hl, hc, hs, ho, hgl, hr, hob⟩ :=
          forEach_openOne_calls K C cpu fd (Int.ofNat_nonneg _) rest st1 hg1
        have hfl : openFlags C st1.p = openFlags C st.p := by
          have : st1.p.options = st.p.options := ho1
          simp [openFlags, this]
        refine ⟨(a, Res.ok fd) :: rs, by simp; omega, ?_, ?_, ?_, ?_, ?_, ?_,
          okButLast_cons a fd rs hob⟩
        · rw [hc, hc1, hrs1, hfl]
          simp [groupCalls, rowCalls, handleOf]
        · intro r hr'
          rcases List.mem_cons.mp hr' with rfl | hr'
          · exact hs1 _ (by rw [hrs1]; simp)
          · exact hs r hr'
        · intro r0 rs' hrow _
          simp only [List.cons.injEq] at hrow
          exact ⟨fd, by rw [← hrow.1]⟩
        · exact ho.trans ho1
        · exact hgl.trans hgl1
        · intro hrun
          obtain ⟨h2, h3⟩ := hr hrun
          refine ⟨by simp [h2], ?_⟩
          intro r hr'
          rcases List.mem_cons.mp hr' with rfl | hr'
          · exact ⟨fd, rfl⟩
          · exact h3 r hr'
      | returned e =>
        obtain ⟨row, h⟩ := hstop (by simp)
        exact ⟨row, h.1, h.2.1, h.2.2.1, h.2.2.2.1, h.2.2.2.2.1, h.2.2.2.2.2.1,
          fun h => by simp at h, h.2.2.2.2.2.2⟩
      | fatal e =>
        obtain ⟨row, h⟩ := hstop (by simp)
        exact ⟨row, h.1, h.2.1, h.2.2.1, h.2.2.2.1, h.2.2.2.2.1, h.2.2.2.2.2.1,
          fun h => by simp at h, h.2.2.2.2.2.2⟩
      | crashed =>
        obtain ⟨row, h⟩ := hstop (by simp)
        exact ⟨row, h.1, h.2.1, h.2.2.1, h.2.2.2.1, h.2.2.2.2.1, h.2.2.2.2.2.1,
          fun h => by simp at h, h.2.2.2.2.2.2⟩

theorem openCpu_calls {σ : Type} (K : Kernel σ) (C : Consts) (eas : List Ptr) (cpu : Nat)
    (st : St σ) (hlen : cpu < st.p.groupFds.length) :
    ∃ row : List (EventAttr × Res Fd), row.length ≤ eas.length ∧
      openCalls (openCpu K C eas cpu st).2.trace =
        openCalls st.trace ++ rowCalls (openFlags C st.p) eas cpu row ∧
      (∀ r ∈ row, r.1.Size = C.sizeofPerfEventAttrVer5) ∧ leaderFirst row ∧
      (openCpu K C eas cpu st).2.p.options = st.p.options ∧
      (openCpu K C eas cpu st).2.p.groupFds.length = st.p.groupFds.length ∧
      ((openCpu K C eas cpu st).1 = Status.running → row.length = eas.length ∧ allOk row) ∧
      okButLast row := by
  obtain ⟨e1, e2, e3, e4⟩ := openCpu_proj K C eas cpu st
  obtain ⟨row, h1, h2, h3, h4, h5, h6, h7, h8⟩ := forEach_openOne_leader_calls K C eas cpu
    { st with p := { st.p with groupFds := st.p.groupFds.set cpu (-1) } }
    (by simp; exact hlen) (by simp [hlen])
  refine ⟨row, h1, ?_, h3, h4, ?_, ?_, ?_, h8⟩
  · rw [e2, h2]
    rfl
  · rw [e3, h5]
  · rw [e4, h6]
    simp
  · rw [e1]
    exact h7

theorem rowsInOrder_nil (eas : List Ptr) : rowsInOrder eas [] :=
  ⟨fun i row h => by simp at h, fun row h => by simp at h⟩

theorem rowsInOrder_singleton (eas : List Ptr) (row : List (EventAttr × Res Fd))
    (h : okButLast row) : rowsInOrder eas [row] := by
  refine ⟨fun i r _ hi => ?_, fun r hr => ?_⟩
  · simp only [List.length_singleton] at hi
    omega
  · rw [List.mem_singleton] at hr
    rw [hr]
    exact h

theorem rowsInOrder_cons (eas : List Ptr) (row : List (EventAttr × Res Fd))
    (rows : List (List (EventAttr × Res Fd))) (hl : row.length = eas.length) (hok : allOk row)
    (hb : okButLast row) (h : rowsInOrder eas rows) : rowsInOrder eas (row :: rows) := by
  refine ⟨fun i r hir hi => ?_, fun r hr => ?_⟩
  · cases i with
    | zero =>
      simp only [List.getElem?_cons_zero, Option.some.injEq] at hir
      rw [← hir]
      exact ⟨hl, hok⟩
    | succ i =>
      simp only [List.getElem?_cons_succ] at hir
      simp only [List.length_cons] at hi
      exact h.1 i r hir (by omega)
  · rcases List.mem_cons.mp hr with rfl | hr
    · exact hb
    · exact h.2 r hr

theorem forEach_openCpu_calls {σ : Type} (K : Kernel σ) (C : Consts) (eas : List Ptr)
    (n c0 : Nat) (st : St σ) (hlen : c0 + n ≤ st.p.groupFds.length) :
    ∃ rows : List (List (EventAttr × Res Fd)), rows.length ≤ n ∧ rowsWellFormed C eas rows ∧
      openCalls (forEach (openCpu K C eas) (List.range' c0 n) st).2.trace =
        openCalls st.trace ++
          (rows.enumFrom c0).flatMap (fun x => rowCalls (openFlags C st.p) eas x.1 x.2) ∧
      ((forEach (openCpu K C eas) (List.range' c0 n) st).1 = Status.running →
        rowsComplete eas n rows) ∧
      rowsInOrder eas rows := by
  induction n generalizing c0 st with
  | zero =>
    exact ⟨[], by simp, fun r hr => by simp at hr, by simp [List.range', forEach],
      fun _ => ⟨rfl, fun r hr => by simp at hr⟩, rowsInOrder_nil eas⟩
  | succ n ih =>
    obtain ⟨row, h1, h2, h3, h4, h5, h6, h7, h8⟩ := openCpu_calls K C eas c0 st (by omega)
    simp only [List.range', forEach]
    cases hc : openCpu K C eas c0 st with
    | mk s1 st1 =>
      rw [hc] at h2 h5 h6 h7
      have hstop : s1 ≠ Status.running →
          ∃ rows : List (List (EventAttr × Res Fd)), rows.length ≤ n + 1 ∧
            rowsWellFormed C eas rows ∧
            openCalls st1.trace = openCalls st.trace ++
              (rows.enumFrom c0).flatMap (fun x => rowCalls (openFlags C st.p) eas x.1 x.2) ∧
            rowsInOrder eas rows := by
        intro _
        refine ⟨[row], by simp, ?_, ?_, rowsInOrder_singleton eas row h8⟩
        · intro r hr
          rw [List.mem_singleton] at hr
          subst hr
          exact ⟨h1, h3, h4⟩
        · rw [h2]
          simp
      cases s1 with
      | running =>
        have hl1 : c0 + 1 + n ≤ st1.p.groupFds.length := by
          have : st1.p.groupFds.length = st.p.groupFds.length := h6
          omega
        obtain ⟨rows, hn, hwf, hcalls, hcomp, hord⟩ := ih (c0 + 1) st1 hl1
        have hfl : openFlags C st1.p = openFlags C st.p := by
          have : st1.p.options = st.p.options := h5
          simp [openFlags, this]
        obtain ⟨hrl, hrok⟩ := h7 rfl
        refine ⟨row :: rows, by simp; omega, ?_, ?_, ?_,
          rowsInOrder_cons eas row rows hrl hrok h8 hord⟩
        · intro r hr
          rcases List.mem_cons.mp hr with rfl | hr
          · exact ⟨h1, h3, h4⟩
          · exact hwf r hr
        · simp only []
          rw [hcalls, h2, hfl]
          simp [List.enumFrom_cons]
        · intro hrun
          obtain ⟨hc1, hc2⟩ := hcomp hrun
          refine ⟨by simp [hc1], ?_⟩
          intro r hr
          rcases List.mem_cons.mp hr with rfl | hr
          · exact ⟨hrl, hrok⟩
          · exact hc2 r hr
      | returned e =>
        obtain ⟨rows, h⟩ := hstop (by simp)
        exact ⟨rows, h.1, h.2.1, h.2.2.1, fun h => by simp at h, h.2.2.2⟩
      | fatal e =>
        obtain ⟨rows, h⟩ := hstop (by simp)
        exact ⟨rows, h.1, h.2.1, h.2.2.1, fun h => by simp at h, h.2.2.2⟩
      | crashed =>
        obtain ⟨rows, h⟩ := hstop (by simp)
        exact ⟨rows, h.1, h.2.1, h.2.2.1, fun h => by simp at h, h.2.2.2⟩

theorem rowCalls_length (flags : Nat) (eas : List Ptr) (cpu : Nat)
    (row : List (EventAttr × Res Fd)) (h : row.length = eas.length) :
    (rowCalls flags eas cpu row).length = eas.length := by
  cases eas with
  | nil => cases row <;> simp [rowCalls]
  | cons ea0 rest =>
    cases row with
    | nil => simp at h
    | cons r0 rs =>
      simp only [List.length_cons, Nat.add_right_cancel_iff] at h
      simp [rowCalls, groupCalls, h]

theorem flatMap_rowCalls_length (flags : Nat) (eas : List Ptr) (c0 : Nat)
    (rows : List (List (EventAttr × Res Fd)))
    (h : ∀ row ∈ rows, row.length = eas.length) :
    ((rows.enumFrom c0).flatMap (fun x => rowCalls flags eas x.1 x.2)).length =
      rows.length * eas.length := by
  induction rows generalizing c0 with
  | nil => simp
  | cons row rows ih =>
    simp only [List.enumFrom_cons, List.flatMap_cons, List.length_append, List.length_cons]
    rw [rowCalls_length flags eas c0 row (h row (by simp)),
      ih (c0 + 1) (fun r hr => h r (List.mem_cons_of_mem _ hr))]
    ring

theorem rowCalls_length_of_complete (flags : Nat) (eas : List Ptr) (n : Nat)
    (rows : List (List (EventAttr × Res Fd))) (h : rowsComplete eas n rows) :
    (rows.enum.flatMap (fun x => rowCalls flags eas x.1 x.2)).length = n * eas.length := by
  rw [List.enum, flatMap_rowCalls_length flags eas 0 rows (fun r hr => (h.2 r hr).1), h.1]

theorem lor_land_self (a b : Nat) : (a ||| b) &&& b = b := by
  apply Nat.eq_of_testBit_eq
  intro i
  rw [Nat.testBit_land, Nat.testBit_lor]
  cases a.testBit i <;> cases b.testBit i <;> rfl

/-- C4: in every run of `Open` the counter-open calls are, CPU after CPU from
CPU 0, for each CPU `c` the calls of `rowCalls`: one call per descriptor in list
order, with pid `-1` and `cpu = c`, the descriptor's `Size` set to the
version-5 struct size and the flags containing `PERF_FLAG_FD_CLOEXEC`; the
first call of the CPU has group handle `-1`, every later call of the CPU has
the handle that first call returned. `Open` goes from one call to the next
whenever the call succeeded: a CPU is left only with all its calls made, and
a run in which no descriptor is nil and no call fails makes all the calls, one
per CPU and descriptor, and returns `nil`; a run that returns has made all of
them. A run that ends early has made the first part of these calls. -/
theorem Open_call_sequence {σ : Type} (K : Kernel σ) (C : Consts) (ncpu : Nat)
    (eas : List Ptr) (st : St σ) (ht : st.trace = []) :
    ∃ rows : List (List (EventAttr × Res Fd)), rows.length ≤ ncpu ∧
      rowsWellFormed C eas rows ∧
      openCalls (Open K C ncpu eas st).2.trace =
        rows.enum.flatMap (fun x => rowCalls (openFlags C st.p) eas x.1 x.2) ∧
      ((Open K C ncpu eas st).1 = Status.returned none → rowsComplete eas ncpu rows) ∧
      openFlags C st.p &&& C.PERF_FLAG_FD_CLOEXEC = C.PERF_FLAG_FD_CLOEXEC ∧
      rowsInOrder eas rows ∧
      ((∀ ea ∈ eas, ea < st.heap.length) → okTrace (Open K C ncpu eas st).2.trace →
        (Open K C ncpu eas st).1 = Status.returned none ∧ rowsComplete eas ncpu rows ∧
        (openCalls (Open K C ncpu eas st).2.trace).length = ncpu * eas.length) := by
  obtain ⟨rows, h1, h2, h3, h4, h5⟩ := forEach_openCpu_calls K C eas ncpu 0
    { st with p := { st.p with
        EventAttrsByFormatID := newEventAttrMap
        groupFds := List.replicate ncpu 0 } } (by simp)
  rw [← List.range_eq_range'] at h3 h4
  have hcalls : openCalls (Open K C ncpu eas st).2.trace =
      rows.enum.flatMap (fun x => rowCalls (openFlags C st.p) eas x.1 x.2) := by
    cases hfe : forEach (openCpu K C eas) (List.range ncpu)
        { st with p := { st.p with
            EventAttrsByFormatID := newEventAttrMap
            groupFds := List.replicate ncpu 0 } } with
    | mk s1 st1 =>
      rw [hfe] at h3
      rw [Open_eq K C ncpu eas st s1 st1 hfe]
      have : openCalls st1.trace = openCalls st.trace ++
          (rows.enumFrom 0).flatMap (fun x => rowCalls (openFlags C st.p) eas x.1 x.2) := h3
      rw [ht] at this
      simpa [List.enum] using this
  have hcomp : (Open K C ncpu eas st).1 = Status.returned none → rowsComplete eas ncpu rows := by
    cases hfe : forEach (openCpu K C eas) (List.range ncpu)
        { st with p := { st.p with
            EventAttrsByFormatID := newEventAttrMap
            groupFds := List.replicate ncpu 0 } } with
    | mk s1 st1 =>
      rw [hfe] at h4
      rw [Open_eq K C ncpu eas st s1 st1 hfe]
      intro hret
      cases s1 with
      | running => exact h4 rfl
      | returned e =>
        have hn := forEach_status Status.noReturn (openCpu K C eas) (fun e => by simp)
          (openCpu_noReturn K C eas) (List.range ncpu)
          { st with p := { st.p with
              EventAttrsByFormatID := newEventAttrMap
              groupFds := List.replicate ncpu 0 } }
        rw [hfe] at hn
        exact absurd rfl (hn e)
      | fatal e => simp at hret
      | crashed => simp at hret
  refine ⟨rows, h1, h2, hcalls, hcomp, lor_land_self _ _, h5, ?_⟩
  intro heas hok
  have hret : (Open K C ncpu eas st).1 = Status.returned none :=
    congrArg Prod.fst (Open_returns_of_ok K C ncpu eas st ht heas hok)
  have hc := hcomp hret
  refine ⟨hret, hc, ?_⟩
  rw [hcalls]
  exact rowCalls_length_of_complete (openFlags C st.p) eas ncpu rows hc

theorem Open_call_sequence_witness :
    (Open countingKernel linuxConsts 2 [0, 1, 2] mainSt).1 = Status.returned none ∧
    (openCalls (Open countingKernel linuxConsts 2 [0, 1, 2] mainSt).2.trace).length = 6 ∧
    (openCalls (Open countingKernel linuxConsts 2 [0, 1, 2] mainSt).2.trace).map
        (fun c => (c.ea, c.cpu, c.groupFd)) =
      [(0, 0, -1), (1, 0, 3), (2, 0, 3), (0, 1, -1), (1, 1, 6), (2, 1, 6)] ∧
    ∃ rows : List (List (EventAttr × Res Fd)), rowsComplete [0, 1, 2] 2 rows ∧
      openCalls (Open countingKernel linuxConsts 2 [0, 1, 2] mainSt).2.trace =
        rows.enum.flatMap
          (fun x => rowCalls (openFlags linuxConsts mainSt.p) [0, 1, 2] x.1 x.2) :=
  (Open_call_sequence countingKernel linuxConsts 2 [0, 1, 2] mainSt rfl).elim
    (fun rows h =>
      have hall := h.2.2.2.2.2.2 (by decide) (by unfold okTrace; decide)
      ⟨hall.1, hall.2.2, by decide, rows, hall.2.1, h.2.2.1⟩)

end Capsule8
